import Mathlib

/-!
# HNSW demo: a shallow embedding and its verified properties

The embedding follows the Go sources of `hnsw-demo`:

* `pkg/distance/metric.go`  : the four distance functions,
* `pkg/config/config.go`    : the configuration record,
* `pkg/heap/priority_queue.go` together with Go's `container/heap`
  (`Push`, `Pop`, `up`, `down`) : the binary min-heap,
* `pkg/node/node.go`        : graph nodes and their neighbour lists,
* `src/algorithm/*.go`      : `Insert`, `searchLayer`, the selection
  heuristics and the three search entry points.

Modelling conventions.

* `float64` is modelled by exact arithmetic: finite values live in a linearly
  ordered field `R`, and the distance functions return `WithTop R`, whose top
  element is `+Inf`.  No NaN exists in the model.
* Go `int` is `Int` (no overflow is modelled); slices are lists; Go maps are
  association lists read through `mapGet` and written through `mapSet`.
* Pointers to nodes are modelled by the node's key in the node map; mutating a
  node through a pointer rewrites the map entry at that key.
* A nil-pointer dereference (looking up a node id that is absent from the
  map and then calling a method on it), an out-of-range slice expression and
  the exhaustion of the iteration budget of a loop are modelled by `none`.
* Locks are not modelled: every operation runs alone.
* The random draw of `generateLevel` is an input of `Insert`.
-/

set_option linter.unusedSectionVars false
set_option linter.unusedVariables false

namespace Hnsw

/-! ## Go built-ins: machine integers and `make` -/

/-- The value of an `int` expression on the 64-bit platforms: the result of
an arithmetic operation wraps around into `[-2^63, 2^63)`. -/
def wrap64 (x : Int) : Int :=
  (x + 9223372036854775808) % 18446744073709551616 - 9223372036854775808

/-- The largest capacity that `make([]int, 0, cap)` and
`make([]float64, 0, cap)` accept on the 64-bit platforms, `2^45`: the Go
runtime refuses a slice of more than `2^48` bytes, and both element types take
8 bytes.  (Running out of memory below that bound depends on the machine and
is left out.) -/
def maxSliceCap : Int := 35184372088832

/-- Go built-in `make([]T, 0, cap)` for an 8-byte element type: does it
panic (`makeslice: cap out of range`)?  It does for a negative capacity and
for one above `maxSliceCap`. -/
def makePanics (cap : Int) : Bool :=
  decide (cap < 0) || decide (maxSliceCap < cap)

/-! ## Go maps as association lists -/

/-- Map read `m[k]`: the first binding of `k`, if any. -/
def mapGet {β : Type} : List (Int × β) → Int → Option β
  | [], _ => none
  | (k', v) :: m, k => if k' = k then some v else mapGet m k

/-- Map write `m[k] = v`: replaces the binding of `k` or adds one. -/
def mapSet {β : Type} : List (Int × β) → Int → β → List (Int × β)
  | [], k, v => [(k, v)]
  | (k', v') :: m, k, v => if k' = k then (k, v) :: m else (k', v') :: mapSet m k v

/-- The Go loop `for _, a := range l { body }` over a state `s`, where the
body may fail (`none`): the first failure ends the run. -/
def forEach {σ α : Type} (body : α → σ → Option σ) : List α → σ → Option σ
  | [], s => some s
  | a :: rest, s =>
    match body a s with
    | none => none
    | some s' => forEach body rest s'

/-! ## pkg/distance/metric.go -/

section Distance

variable {R : Type} [LinearOrderedField R]

/-- The Go function `ManhattanDistance`. -/
def ManhattanDistance (a b : List R) : WithTop R :=
  if a.length ≠ b.length then ⊤
  else ((List.zip a b).foldl (fun sum p => sum + |p.1 - p.2|) 0 : R)

/-- The Go function `EuclideanDistance`; `math.Sqrt` is the parameter `sqrt`. -/
def EuclideanDistance (sqrt : R → R) (a b : List R) : WithTop R :=
  if a.length ≠ b.length then ⊤
  else (sqrt ((List.zip a b).foldl (fun sum p => sum + (p.1 - p.2) * (p.1 - p.2)) 0) : R)

/-- The Go function `CosineDistance`; `math.Sqrt` is the parameter `sqrt`. -/
def CosineDistance (sqrt : R → R) (a b : List R) : WithTop R :=
  if a.length ≠ b.length then ⊤
  else
    let dotProduct := (List.zip a b).foldl (fun s p => s + p.1 * p.2) 0
    let normA := (List.zip a b).foldl (fun s p => s + p.1 * p.1) 0
    let normB := (List.zip a b).foldl (fun s p => s + p.2 * p.2) 0
    if normA = 0 ∨ normB = 0 then ⊤
    else
      let similarity := dotProduct / (sqrt normA * sqrt normB)
      let similarity := if similarity > 1 then 1 else similarity
      ((1 - similarity : R) : WithTop R)

/-- The Go function `DotProductDistance`. -/
def DotProductDistance (a b : List R) : WithTop R :=
  if a.length ≠ b.length then ⊤
  else ((-((List.zip a b).foldl (fun s p => s + p.1 * p.2) 0) : R) : WithTop R)

/-- The constant `Euclidean` of `metric.go`. -/
def Euclidean : String := "euclidean"

/-- The constant `Manhattan` of `metric.go`. -/
def Manhattan : String := "manhattan"

/-- The constant `Cosine` of `metric.go`. -/
def Cosine : String := "cosine"

/-- The constant `DotProduct` of `metric.go`. -/
def DotProduct : String := "dot"

/-- The Go function `GetDistanceFunction`; `none` is the error result. -/
def GetDistanceFunction (sqrt : R → R) (metric : String) :
    Option (List R → List R → WithTop R) :=
  if metric = Euclidean then some (EuclideanDistance sqrt)
  else if metric = Manhattan then some ManhattanDistance
  else if metric = Cosine then some (CosineDistance sqrt)
  else if metric = DotProduct then some DotProductDistance
  else none

end Distance

/-! ## pkg/config/config.go -/

/-- The Go struct `Config`. -/
structure Config (R : Type) where
  M : Int
  MaxM : Int
  EfConstruction : Int
  ML : R
  DelayRebuild : Bool

/-- The error results of `Config.Validate`. -/
inductive ConfigError where
  | badM
  | badMaxM
  | badEfConstruction
  | badML
  deriving DecidableEq

/-- Method `Config.Validate`; `none` is the nil error. -/
def Config.Validate {R : Type} [LinearOrderedField R] (c : Config R) : Option ConfigError :=
  if c.M ≤ 0 then some .badM
  else if c.MaxM < c.M then some .badMaxM
  else if c.EfConstruction ≤ 0 then some .badEfConstruction
  else if c.ML ≤ 0 then some .badML
  else none

/-! ## pkg/heap/priority_queue.go and container/heap -/

/-- The Go struct `Item`.  Its `Index` field is bookkeeping for `Update`
(`heap.Fix`) only and is not observable through `PushItem`, `PopItem`, `Pop`
or `Top`; it is left out. -/
structure Item (R : Type) where
  NodeID : Int
  Distance : WithTop R

/-- The Go type `PriorityQueue`, a slice of items. -/
abbrev PriorityQueue (R : Type) := List (Item R)

section Heap

variable {R : Type} [LinearOrderedField R]

/-- Function `NewPriorityQueue`: the empty queue (`heap.Init` has nothing to
do on it). -/
abbrev NewPriorityQueue (R : Type) : PriorityQueue R := []

/-- Method `PriorityQueue.Less`. -/
def Less (pq : PriorityQueue R) (i j : Nat) : Bool :=
  match pq[i]?, pq[j]? with
  | some a, some b => decide (a.Distance < b.Distance)
  | _, _ => false

/-- Method `PriorityQueue.Swap` (indices in range at every call site). -/
def Swap (pq : PriorityQueue R) (i j : Nat) : PriorityQueue R :=
  match pq[i]?, pq[j]? with
  | some a, some b => (pq.set i b).set j a
  | _, _ => pq

/-- Go library function `container/heap.up`: the loop runs at most `j + 1` times, the first
argument is its iteration budget. -/
def up : Nat → PriorityQueue R → Nat → PriorityQueue R
  | 0, pq, _ => pq
  | fuel + 1, pq, j =>
    let i := (j - 1) / 2
    if i = j ∨ Less pq j i = false then pq
    else up fuel (Swap pq i j) i

/-- Go library function `container/heap.down` on the first `n` slots, started at slot `i`; the
first argument is the iteration budget. -/
def down : Nat → PriorityQueue R → Nat → Nat → PriorityQueue R
  | 0, pq, _, _ => pq
  | fuel + 1, pq, i, n =>
    let j1 := 2 * i + 1
    if j1 ≥ n then pq
    else
      let j := if j1 + 1 < n ∧ Less pq (j1 + 1) j1 = true then j1 + 1 else j1
      if Less pq j i = false then pq
      else down fuel (Swap pq i j) j n

/-- Method `PriorityQueue.Push`: append at the end. -/
def Push (pq : PriorityQueue R) (x : Item R) : PriorityQueue R := pq ++ [x]

/-- Method `PriorityQueue.Pop`: remove and return the last slot (`none` on an empty
slice, where Go indexes out of range). -/
def Pop (pq : PriorityQueue R) : Option (Item R × PriorityQueue R) :=
  match pq.getLast? with
  | none => none
  | some item => some (item, pq.dropLast)

/-- Go library function `container/heap.Push`. -/
def heapPush (pq : PriorityQueue R) (x : Item R) : PriorityQueue R :=
  up (pq.length + 1) (Push pq x) ((Push pq x).length - 1)

/-- Go library function `container/heap.Pop`. -/
def heapPop (pq : PriorityQueue R) : Option (Item R × PriorityQueue R) :=
  let n := pq.length - 1
  Pop (down (n + 1) (Swap pq 0 n) 0 n)

/-- Method `PriorityQueue.PushItem`. -/
def PushItem (pq : PriorityQueue R) (nodeID : Int) (distance : WithTop R) : PriorityQueue R :=
  heapPush pq ⟨nodeID, distance⟩

/-- Method `PriorityQueue.PopItem`: `(-1, -1)` on an empty queue.  On a non-empty
queue `heapPop` always returns an item (`heapPop_ne_none`), so the last branch
is never taken. -/
def PopItem (pq : PriorityQueue R) : (Int × WithTop R) × PriorityQueue R :=
  if pq.length = 0 then ((-1, ((-1 : R) : WithTop R)), pq)
  else
    match heapPop pq with
    | some (item, pq') => ((item.NodeID, item.Distance), pq')
    | none => ((-1, ((-1 : R) : WithTop R)), pq)

/-- Method `PriorityQueue.Top`. -/
def Top (pq : PriorityQueue R) : Option (Item R) := pq[0]?

end Heap

/-! ## pkg/node/node.go -/

/-- The Go struct `Node` (without its mutex). -/
structure Node (R : Type) where
  ID : Int
  Vector : List R
  Level : Int
  Neighbors : List (Int × List Int)
  deleted : Bool

/-- The error results of the node methods. -/
inductive NodeError where
  | deletedNode
  | invalidLevel
  | levelMissing
  | neighborMissing
  deriving DecidableEq

section NodeOps

variable {R : Type}

/-- Function `NewNode`. -/
def NewNode (id : Int) (vector : List R) (level : Int) : Node R :=
  { ID := id, Vector := vector, Level := level, Neighbors := [], deleted := false }

/-- Method `Node.AddNeighbor`: the updated node, or the error (node unchanged). -/
def Node.AddNeighbor (n : Node R) (level : Int) (neighborID : Int) : Except NodeError (Node R) :=
  if n.deleted then .error .deletedNode
  else if level < 0 ∨ level > n.Level then .error .invalidLevel
  else
    let nbs := match mapGet n.Neighbors level with
      | none => mapSet n.Neighbors level []
      | some _ => n.Neighbors
    let cur := (mapGet nbs level).getD []
    if neighborID ∈ cur then .ok { n with Neighbors := nbs }
    else .ok { n with Neighbors := mapSet nbs level (cur ++ [neighborID]) }

/-- Method `Node.RemoveNeighbor`: removes the first occurrence. -/
def Node.RemoveNeighbor (n : Node R) (level : Int) (neighborID : Int) : Except NodeError (Node R) :=
  if n.deleted then .error .deletedNode
  else
    match mapGet n.Neighbors level with
    | none => .error .levelMissing
    | some neighbors =>
      if neighborID ∈ neighbors then
        let i := neighbors.indexOf neighborID
        .ok { n with Neighbors := mapSet n.Neighbors level (neighbors.take i ++ neighbors.drop (i + 1)) }
      else .error .neighborMissing

/-- Method `Node.GetNeighbors`. -/
def Node.GetNeighbors (n : Node R) (level : Int) : Except NodeError (List Int) :=
  if n.deleted then .error .deletedNode
  else
    match mapGet n.Neighbors level with
    | none => .error .levelMissing
    | some neighbors => .ok neighbors

/-- Method `Node.SetNeighbors`. -/
def Node.SetNeighbors (n : Node R) (level : Int) (neighbors : List Int) : Except NodeError (Node R) :=
  if n.deleted then .error .deletedNode
  else if level < 0 ∨ level > n.Level then .error .invalidLevel
  else .ok { n with Neighbors := mapSet n.Neighbors level neighbors }

/-- Method `Node.MarkDeleted`. -/
def Node.MarkDeleted (n : Node R) : Node R := { n with deleted := true }

/-- Method `Node.IsDeleted`. -/
def Node.IsDeleted (n : Node R) : Bool := n.deleted

/-- Method `Node.GetVector`. -/
def Node.GetVector (n : Node R) : List R := n.Vector

/-- Method `Node.GetLevel`. -/
def Node.GetLevel (n : Node R) : Int := n.Level

/-- Method `Node.ClearNeighbors`. -/
def Node.ClearNeighbors (n : Node R) (level : Int) : Except NodeError (Node R) :=
  if n.deleted then .error .deletedNode
  else if level < 0 ∨ level > n.Level then .error .invalidLevel
  else .ok { n with Neighbors := mapSet n.Neighbors level [] }

/-- The statement `h.nodes[key].AddNeighbor(level, neighborID)` with the error
result discarded, as `Insert` does: `none` when `key` is absent from the map
(nil dereference), the map with the node at `key` rewritten otherwise. -/
def addNeighborAt (nodes : List (Int × Node R)) (key level neighborID : Int) :
    Option (List (Int × Node R)) :=
  match mapGet nodes key with
  | none => none
  | some n =>
    match n.AddNeighbor level neighborID with
    | .ok n' => some (mapSet nodes key n')
    | .error _ => some nodes

end NodeOps

/-! ## src/algorithm/hnsw.go -/

/-- The Go struct `HNSW` (without its mutexes). -/
structure HNSW (R : Type) where
  nodes : List (Int × Node R)
  entryPoint : Int
  maxLevel : Int
  config : Config R
  distFunc : List R → List R → WithTop R

/-- The three local structures of `searchLayer`. -/
structure SearchState (R : Type) where
  visited : List Int
  candidates : PriorityQueue R
  results : PriorityQueue R

/-- What a call of `Insert` leaves behind: whether it returned an error, and
the index state after the call. -/
structure InsertResult (R : Type) where
  err : Bool
  state : HNSW R

section Algorithm

variable {R : Type} [LinearOrderedField R]

/-- Function `New`; `none` is the error result. -/
def New (sqrt : R → R) (cfg : Config R) (metric : String) : Option (HNSW R) :=
  match GetDistanceFunction sqrt metric with
  | none => none
  | some distFunc =>
    some { nodes := [], entryPoint := 0, maxLevel := 0, config := cfg, distFunc := distFunc }

/-- Function `generateLevel`, with the drawn level `level` as an input: raises
`maxLevel` when the level exceeds it. -/
def generateLevel (h : HNSW R) (level : Int) : Int × HNSW R :=
  if level > h.maxLevel then (level, { h with maxLevel := level }) else (level, h)

/-- The body of the inner `for ... range neighbors` loop of `searchLayer`. -/
def visitNeighbor (h : HNSW R) (q : List R) (ef : Int) (neighborID : Int) (st : SearchState R) :
    Option (SearchState R) :=
  if neighborID ∈ st.visited then some st
  else
    match mapGet h.nodes neighborID with
    | none => none
    | some nb =>
      let dist := h.distFunc q nb.GetVector
      let visited := neighborID :: st.visited
      let accepted : Bool :=
        match Top st.results with
        | none => true
        | some furthest => decide ((st.results.length : Int) < ef) || decide (dist < furthest.Distance)
      if accepted then
        let candidates := PushItem st.candidates neighborID dist
        let results := PushItem st.results neighborID dist
        if (results.length : Int) > ef then
          match Pop results with
          | none => none
          | some (_, results') => some ⟨visited, candidates, results'⟩
        else some ⟨visited, candidates, results⟩
      else some ⟨visited, st.candidates, st.results⟩

/-- The inner `for ... range neighbors` loop of `searchLayer`. -/
def visitNeighbors (h : HNSW R) (q : List R) (ef : Int) (neighbors : List Int)
    (st : SearchState R) : Option (SearchState R) :=
  forEach (visitNeighbor h q ef) neighbors st

/-- The `for candidates.Len() > 0` loop of `searchLayer`; the first argument
is the iteration budget, `none` when it runs out before the loop ends. -/
def searchLoop (h : HNSW R) (q : List R) (ef : Int) (level : Int) :
    Nat → SearchState R → Option (SearchState R)
  | 0, st => if st.candidates.length = 0 then some st else none
  | fuel + 1, st =>
    if st.candidates.length = 0 then some st
    else
      let popped := PopItem st.candidates
      let nodeID := popped.1.1
      let nodeDist := popped.1.2
      let stop : Bool :=
        match Top st.results with
        | some furthest => decide (nodeDist > furthest.Distance)
        | none => false
      if stop then some { st with candidates := popped.2 }
      else
        match mapGet h.nodes nodeID with
        | none => none
        | some nd =>
          let neighbors := match nd.GetNeighbors level with
            | .ok ns => ns
            | .error _ => []
          match visitNeighbors h q ef neighbors { st with candidates := popped.2 } with
          | none => none
          | some st' => searchLoop h q ef level fuel st'

/-- The loop `for pq.Len() > 0 { id, _ := pq.PopItem(); ... append id }`; the
budget passed is the length of the queue. -/
def drain : Nat → PriorityQueue R → List Int
  | 0, _ => []
  | fuel + 1, pq =>
    if pq.length = 0 then []
    else (PopItem pq).1.1 :: drain fuel (PopItem pq).2

/-- Function `searchLayer`.  Every pass of the main loop pops a candidate, and a node
enters the candidates at most once, so `len(h.nodes) + 1` passes suffice. -/
def searchLayer (h : HNSW R) (q : List R) (entryPointID : Int) (ef : Int) (level : Int) :
    Option (List Int) :=
  match mapGet h.nodes entryPointID with
  | none => none
  | some ep =>
    let dist := h.distFunc q ep.GetVector
    let st0 : SearchState R :=
      ⟨[entryPointID], PushItem (NewPriorityQueue R) entryPointID dist,
        PushItem (NewPriorityQueue R) entryPointID dist⟩
    match searchLoop h q ef level (h.nodes.length + 1) st0 with
    | none => none
    | some st => some (drain st.results.length st.results)

/-! ## src/algorithm/neighbour_heuristic.go and neighbour_simple.go -/

/-- Body of the first loop of `selectNeighborsHeuristic`, and of the inner
loop of its extension step: an id not yet visited is looked up, pushed with its
distance to `q`, and marked visited. -/
def pushUnvisited (h : HNSW R) (q : List R) (id : Int) (acc : List Int × PriorityQueue R) :
    Option (List Int × PriorityQueue R) :=
  if id ∈ acc.1 then some acc
  else
    match mapGet h.nodes id with
    | none => none
    | some nd => some (id :: acc.1, PushItem acc.2 id (h.distFunc q nd.GetVector))

/-- First loop of `selectNeighborsHeuristic`: the candidates, without
repetitions, enter the working queue. -/
def pushCandidates (h : HNSW R) (q : List R) (candidates : List Int)
    (acc : List Int × PriorityQueue R) : Option (List Int × PriorityQueue R) :=
  forEach (pushUnvisited h q) candidates acc

/-- Body of the outer loop of the extension step: the unvisited level
neighbours of one candidate enter the temporary queue. -/
def extendCandidate (h : HNSW R) (q : List R) (level : Int) (candidateID : Int)
    (acc : List Int × PriorityQueue R) : Option (List Int × PriorityQueue R) :=
  match mapGet h.nodes candidateID with
  | none => none
  | some nd =>
    let neighbors := match nd.GetNeighbors level with
      | .ok ns => ns
      | .error _ => []
    forEach (pushUnvisited h q) neighbors acc

/-- Outer loop of the extension step, over the candidates. -/
def extendCandidatesLoop (h : HNSW R) (q : List R) (level : Int) (candidates : List Int)
    (acc : List Int × PriorityQueue R) : Option (List Int × PriorityQueue R) :=
  forEach (extendCandidate h q level) candidates acc

/-- The loop moving the temporary queue into the working queue; the budget
passed is the length of the temporary queue. -/
def moveAll : Nat → PriorityQueue R → PriorityQueue R → PriorityQueue R
  | 0, _, workingQueue => workingQueue
  | fuel + 1, tempCandidates, workingQueue =>
    if tempCandidates.length = 0 then workingQueue
    else
      let popped := PopItem tempCandidates
      moveAll fuel popped.2 (PushItem workingQueue popped.1.1 popped.1.2)

/-- The test of the main loop: is some already selected id strictly nearer to
the popped node than the query is? -/
def prunedBy (h : HNSW R) (nodeID : Int) (dist : WithTop R) : List Int → Option Bool
  | [] => some false
  | resultID :: rest =>
    match mapGet h.nodes resultID, mapGet h.nodes nodeID with
    | some r, some n =>
      if h.distFunc r.GetVector n.GetVector < dist then some true
      else prunedBy h nodeID dist rest
    | _, _ => none

/-- The main loop of `selectNeighborsHeuristic`; the budget passed is the
length of the working queue.  Returns the results and the discarded queue. -/
def selectLoop (h : HNSW R) (M : Int) :
    Nat → PriorityQueue R → List Int → PriorityQueue R → Option (List Int × PriorityQueue R)
  | 0, _, results, discardedQueue => some (results, discardedQueue)
  | fuel + 1, workingQueue, results, discardedQueue =>
    if workingQueue.length > 0 ∧ (results.length : Int) < M then
      let popped := PopItem workingQueue
      match prunedBy h popped.1.1 popped.1.2 results with
      | none => none
      | some false => selectLoop h M fuel popped.2 (results ++ [popped.1.1]) discardedQueue
      | some true =>
        selectLoop h M fuel popped.2 results (PushItem discardedQueue popped.1.1 popped.1.2)
    else some (results, discardedQueue)

/-- The refill loop of `selectNeighborsHeuristic`; the budget passed is the
length of the discarded queue. -/
def refillLoop (M : Int) : Nat → PriorityQueue R → List Int → List Int
  | 0, _, results => results
  | fuel + 1, discardedQueue, results =>
    if discardedQueue.length > 0 ∧ (results.length : Int) < M then
      refillLoop M fuel (PopItem discardedQueue).2 (results ++ [(PopItem discardedQueue).1.1])
    else results

/-- Function `selectNeighborsHeuristic`.  After the working queue is built,
`results := make([]int, 0, M)` panics for an `M` that `make` refuses:
`none`. -/
def selectNeighborsHeuristic (h : HNSW R) (q : List R) (candidates : List Int) (M : Int)
    (level : Int) (extendCandidates : Bool) (keepPrunedConnections : Bool) :
    Option (List Int) :=
  match pushCandidates h q candidates ([], NewPriorityQueue R) with
  | none => none
  | some (visited, workingQueue) =>
    let extended : Option (PriorityQueue R) :=
      if extendCandidates then
        match extendCandidatesLoop h q level candidates (visited, NewPriorityQueue R) with
        | none => none
        | some (_, tempCandidates) => some (moveAll tempCandidates.length tempCandidates workingQueue)
      else some workingQueue
    match extended with
    | none => none
    | some workingQueue =>
      if makePanics M then none
      else
        match selectLoop h M workingQueue.length workingQueue [] (NewPriorityQueue R) with
        | none => none
        | some (results, discardedQueue) =>
          if keepPrunedConnections then
            some (refillLoop M discardedQueue.length discardedQueue results)
          else some results

/-- Function `SelectNeighborsHeuristic`. -/
def SelectNeighborsHeuristic (h : HNSW R) (q : List R) (candidates : List Int) (M : Int)
    (level : Int) (extendCandidates : Bool) (keepPrunedConnections : Bool) :
    Option (List Int) :=
  selectNeighborsHeuristic h q candidates M level extendCandidates keepPrunedConnections

/-- First loop of `selectNeighborsSimple`: every candidate enters the queue. -/
def pushAll (h : HNSW R) (q : List R) (candidates : List Int) (pq : PriorityQueue R) :
    Option (PriorityQueue R) :=
  forEach (fun candidateID pq =>
    match mapGet h.nodes candidateID with
    | none => none
    | some nd => some (PushItem pq candidateID (h.distFunc q nd.GetVector))) candidates pq

/-- Second loop of `selectNeighborsSimple`; the budget passed is the length
of the queue. -/
def takeLoop (M : Int) : Nat → PriorityQueue R → List Int → Int → List Int
  | 0, _, result, _ => result
  | fuel + 1, pq, result, i =>
    if pq.length > 0 ∧ i < M then
      takeLoop M fuel (PopItem pq).2 (result ++ [(PopItem pq).1.1]) (i + 1)
    else result

/-- Function `selectNeighborsSimple`.  On the path that reaches
`result := make([]int, 0, M)`, `M` is below `len(candidates)`, the length of a
slice that exists, so `make` can only refuse a negative `M`: `none`. -/
def selectNeighborsSimple (h : HNSW R) (q : List R) (candidates : List Int) (M : Int) :
    Option (List Int) :=
  if (candidates.length : Int) ≤ M then some candidates
  else
    match pushAll h q candidates (NewPriorityQueue R) with
    | none => none
    | some pq => if M < 0 then none else some (takeLoop M pq.length pq [] 0)

/-- Function `SelectNeighborsSimple`. -/
def SelectNeighborsSimple (h : HNSW R) (q : List R) (candidates : List Int) (M : Int) :
    Option (List Int) :=
  selectNeighborsSimple h q candidates M

/-! ## Insert and the search entry points -/

/-- Body of the loop `for _, neighbor := range currNode.Neighbors[lc]` shared
by the descents of `Insert` and `Search`: a neighbour strictly nearer to `q`
than `currNode` becomes the current object. -/
def scanNeighbor (h : HNSW R) (q : List R) (currNode : Node R) (neighbor : Int)
    (acc : Int × Bool) : Option (Int × Bool) :=
  match mapGet h.nodes neighbor with
  | none => none
  | some nb =>
    if h.distFunc q nb.GetVector < h.distFunc q currNode.GetVector then some (neighbor, true)
    else some acc

/-- The loop `for _, neighbor := range currNode.Neighbors[lc]`. -/
def scanNeighbors (h : HNSW R) (q : List R) (currNode : Node R) (neighbors : List Int)
    (acc : Int × Bool) : Option (Int × Bool) :=
  forEach (scanNeighbor h q currNode) neighbors acc

/-- The descent loop `for lc := start; lc > bound; lc--` of `Insert` and
`Search`; the first argument counts the levels left, `lc` is the current one. -/
def descend (h : HNSW R) (q : List R) : Nat → Int → Int → Option Int
  | 0, _, currObj => some currObj
  | n + 1, lc, currObj =>
    match mapGet h.nodes currObj with
    | none => none
    | some currNode =>
      match scanNeighbors h q currNode ((mapGet currNode.Neighbors lc).getD []) (currObj, false) with
      | none => none
      | some (currObj', changed) =>
        if changed then descend h q n (lc - 1) currObj' else some currObj'

/-- Body of the loop `for _, neighborID := range neighbors` of `Insert`: both
directions of the edge are added, errors of `AddNeighbor` are discarded. -/
def linkNeighbor (id lc : Int) (neighborID : Int) (nodes : List (Int × Node R)) :
    Option (List (Int × Node R)) :=
  match addNeighborAt nodes id lc neighborID with
  | none => none
  | some nodes1 => addNeighborAt nodes1 neighborID lc id

/-- The loop `for _, neighborID := range neighbors` of `Insert`. -/
def linkNeighbors (id lc : Int) (neighbors : List Int) (nodes : List (Int × Node R)) :
    Option (List (Int × Node R)) :=
  forEach (linkNeighbor id lc) neighbors nodes

/-- The loop `for lc := min(level, h.maxLevel); lc >= 0; lc--` of `Insert`;
the first argument counts the levels left, `lc` is the current one. -/
def connectLevels (id : Int) (vector : List R) : Nat → Int → Int → HNSW R → Option (HNSW R)
  | 0, _, _, h => some h
  | n + 1, lc, currObj, h =>
    match searchLayer h vector currObj h.config.EfConstruction lc with
    | none => none
    | some candidates =>
      match selectNeighborsHeuristic h vector candidates h.config.M lc true true with
      | none => none
      | some neighbors =>
        match linkNeighbors id lc neighbors h.nodes with
        | none => none
        | some nodes => connectLevels id vector n (lc - 1) id { h with nodes := nodes }

/-- Function `Insert`, with the level drawn by `generateLevel` as the input `level`. -/
def Insert (h : HNSW R) (id : Int) (vector : List R) (level : Int) : Option (InsertResult R) :=
  match mapGet h.nodes id with
  | some _ => some ⟨true, h⟩
  | none =>
    let h1 := (generateLevel h level).2
    let h2 : HNSW R := { h1 with nodes := mapSet h1.nodes id (NewNode id vector level) }
    if h2.entryPoint = 0 then some ⟨false, { h2 with entryPoint := id }⟩
    else
      match descend h2 vector (h2.maxLevel - level).toNat h2.maxLevel h2.entryPoint with
      | none => none
      | some currObj =>
        match connectLevels id vector (min level h2.maxLevel + 1).toNat (min level h2.maxLevel)
            currObj h2 with
        | none => none
        | some h3 => some ⟨false, h3⟩

/-- The loops that fill `distances` in `Search` and `KNNSearchWithDistances`:
`h.distFunc(q, h.nodes[id].GetVector())` for every returned id, in order. -/
def distancesOf (h : HNSW R) (q : List R) : List Int → Option (List (WithTop R))
  | [] => some []
  | id :: rest =>
    match mapGet h.nodes id with
    | none => none
    | some nd =>
      match distancesOf h q rest with
      | none => none
      | some ds => some (h.distFunc q nd.GetVector :: ds)

/-- Function `Search`.  The `ef` passed to `searchLayer` is the machine
product `k*2`; after the layer search, `make([]int, 0, k)` panics for a `k`
that `make` refuses (negative, or above `maxSliceCap`): `none`. -/
def Search (h : HNSW R) (q : List R) (k : Int) : Option (List Int × List (WithTop R)) :=
  if h.nodes.length = 0 then some ([], [])
  else
    match descend h q h.maxLevel.toNat h.maxLevel h.entryPoint with
    | none => none
    | some currObj =>
      match searchLayer h q currObj (wrap64 (k * 2)) 0 with
      | none => none
      | some candidates =>
        if makePanics k then none
        else
          let results := candidates.take k.toNat
          match distancesOf h q results with
          | none => none
          | some distances => some (results, distances)

/-! ## src/algorithm/knn_search.go -/

/-- The loop `for level := currentLevel; level >= 1; level--` of `KNNSearch`;
the first argument counts the levels left. -/
def knnDescend (h : HNSW R) (q : List R) : Nat → Int → Int → Option Int
  | 0, _, currObj => some currObj
  | n + 1, level, currObj =>
    match searchLayer h q currObj 1 level with
    | none => none
    | some candidates =>
      match candidates with
      | [] => knnDescend h q n (level - 1) currObj
      | c :: _ => knnDescend h q n (level - 1) c

/-- Function `KNNSearch`.  A negative `K` makes the slice expression
`finalResults[:K]` fail: `none`. -/
def KNNSearch (h : HNSW R) (q : List R) (K : Int) (ef : Int) : Option (List Int) :=
  if h.nodes.length = 0 then some []
  else if h.entryPoint = 0 then some []
  else
    match knnDescend h q h.maxLevel.toNat h.maxLevel h.entryPoint with
    | none => none
    | some currObj =>
      match searchLayer h q currObj ef 0 with
      | none => none
      | some finalResults =>
        let K := if K > finalResults.length then (finalResults.length : Int) else K
        if K < 0 then none else some (finalResults.take K.toNat)

/-- Function `KNNSearchWithDistances`. -/
def KNNSearchWithDistances (h : HNSW R) (q : List R) (K : Int) (ef : Int) :
    Option (List Int × List (WithTop R)) :=
  match KNNSearch h q K ef with
  | none => none
  | some ids =>
    match distancesOf h q ids with
    | none => none
    | some distances => some (ids, distances)

/-! ## Reachable index states -/

/-- The index states produced from an empty index (what `New` returns, for
any configuration and any distance function) by calls of `Insert` that return,
with or without an error, whatever level each call draws. -/
inductive Reachable : HNSW R → Prop
  | new (cfg : Config R) (distFunc : List R → List R → WithTop R) :
      Reachable { nodes := [], entryPoint := 0, maxLevel := 0, config := cfg, distFunc := distFunc }
  | insert {h : HNSW R} (id : Int) (vector : List R) (level : Int) (r : InsertResult R) :
      Reachable h → Insert h id vector level = some r → Reachable r.state

/-! ## Vocabulary of the specification -/

/-- The id `id` is a key of the node map. -/
def Present (nodes : List (Int × Node R)) (id : Int) : Prop :=
  ∃ nd, mapGet nodes id = some nd

/-- Referential integrity of the neighbour lists: every id in a neighbour list
of a stored node is a key of the node map. -/
def NeighborsClosed (nodes : List (Int × Node R)) : Prop :=
  ∀ k nd, mapGet nodes k = some nd → ∀ l ns, mapGet nd.Neighbors l = some ns →
    ∀ m ∈ ns, Present nodes m

/-- Referential integrity of an index state: closed neighbour lists, and an
entry point that is a key of the node map unless the index is still empty with
the entry point unset. -/
def WellFormed (h : HNSW R) : Prop :=
  NeighborsClosed h.nodes ∧ ((h.nodes = [] ∧ h.entryPoint = 0) ∨ Present h.nodes h.entryPoint)

/-- A queue item carries the id of a stored node and that node's distance to
the query `q`. -/
def ItemOK (h : HNSW R) (q : List R) (it : Item R) : Prop :=
  ∃ nd, mapGet h.nodes it.NodeID = some nd ∧ it.Distance = h.distFunc q nd.GetVector

/-- The item in slot `p`, when both slots are filled, is not farther than the
item in slot `k`. -/
def LeAt (pq : PriorityQueue R) (p k : Nat) : Prop :=
  ∀ a b, pq[p]? = some a → pq[k]? = some b → a.Distance ≤ b.Distance

/-- The heap condition on the first `n` slots. -/
def HeapBelow (pq : PriorityQueue R) (n : Nat) : Prop :=
  ∀ k, 0 < k → k < n → LeAt pq ((k - 1) / 2) k

/-- The heap condition: no slot is nearer than its parent slot. -/
def IsHeap (pq : PriorityQueue R) : Prop :=
  ∀ k, 0 < k → LeAt pq ((k - 1) / 2) k

/-- The facts about the local state of `searchLayer` that hold throughout its
main loop. -/
def SearchInv (h : HNSW R) (q : List R) (st : SearchState R) : Prop :=
  IsHeap st.results ∧ (∀ it ∈ st.results, ItemOK h q it) ∧
    (∀ it ∈ st.candidates, ItemOK h q it) ∧ st.visited.Nodup ∧
    (∀ x ∈ st.visited, Present h.nodes x)

/-- The node map `nodes'` stores, under every key of `nodes`, a node with the
same id, vector, level and deletion flag: only neighbour lists may differ. -/
def SameData (nodes nodes' : List (Int × Node R)) : Prop :=
  ∀ k nd, mapGet nodes k = some nd →
    ∃ nd', mapGet nodes' k = some nd' ∧ nd'.ID = nd.ID ∧ nd'.Vector = nd.Vector ∧
      nd'.Level = nd.Level ∧ nd'.deleted = nd.deleted

/-- A list of distances in non-decreasing order. -/
def NonDecreasing (ds : List (WithTop R)) : Prop :=
  ds.Pairwise (fun a b => a ≤ b)

/-- A run of `Insert` calls, one per entry `(id, vector, level)`; the run ends
at the first call that does not return. -/
def insertMany (h : HNSW R) : List (Int × List R × Int) → HNSW R
  | [] => h
  | (id, vector, level) :: rest =>
    match Insert h id vector level with
    | some r => insertMany r.state rest
    | none => h

end Algorithm

/-! ## Concrete indexes over the rationals -/

/-- The default parameters `M = 16`, `MaxM = 32`, `EfConstruction = 100` of
`NewDefaultConfig`; the level scale `ML` only enters the random draw, which is
an input here. -/
def exampleConfig : Config ℚ :=
  { M := 16, MaxM := 32, EfConstruction := 100, ML := 1 / 3, DelayRebuild := false }

/-- The empty index `New(exampleConfig, "manhattan")`. -/
def emptyManhattan : HNSW ℚ :=
  { nodes := [], entryPoint := 0, maxLevel := 0, config := exampleConfig,
    distFunc := ManhattanDistance }

/-- The empty index `New(exampleConfig, "euclidean")` for a square root `sqrt`. -/
def emptyEuclidean (sqrt : ℚ → ℚ) : HNSW ℚ :=
  { nodes := [], entryPoint := 0, maxLevel := 0, config := exampleConfig,
    distFunc := EuclideanDistance sqrt }

/-- One node, drawn at level 0. -/
def soloIndex : HNSW ℚ :=
  insertMany emptyManhattan [(1, [0], 0)]

/-- What `Insert(2, (0))`, drawn at level 0, leaves behind on `soloIndex`: id 2
gets the vector that id 1 already has. -/
def twinInsert : InsertResult ℚ :=
  (Insert soloIndex 2 [0] 0).getD ⟨true, soloIndex⟩

/-- What `Insert(2, (5))`, drawn at level 0, leaves behind on `soloIndex`. -/
def pairInsert : InsertResult ℚ :=
  (Insert soloIndex 2 [5] 0).getD ⟨true, soloIndex⟩

/-- Node 1 at level 0, then node 2 at level 1. -/
def towerIndex : HNSW ℚ :=
  insertMany emptyManhattan [(1, [0], 0), (2, [1], 1)]

/-- The index of `TestSearchDimensionMismatch`: one vector of dimension 2. -/
def planeIndex (sqrt : ℚ → ℚ) : HNSW ℚ :=
  insertMany (emptyEuclidean sqrt) [(1, [1, 1], 0)]

/-- The five vectors of `TestKNNSearch`, all drawn at level 0. -/
def fiveIndex : HNSW ℚ :=
  insertMany emptyManhattan
    [(1, [1, 2], 0), (2, [2, 1], 0), (3, [3, 4], 0), (4, [4, 3], 0), (5, [5, 5], 0)]

/-- The level-`l` neighbour list of node `id`, empty when the node or the
level entry is missing. -/
def neighborsOf {R : Type} (h : HNSW R) (id l : Int) : List Int :=
  match mapGet h.nodes id with
  | none => []
  | some nd => (mapGet nd.Neighbors l).getD []

end Hnsw
namespace Hnsw

/-! ## Further vocabulary: nodes -/

section NodeVocabulary

variable {R : Type}

/-- The level-`l` neighbour list of a node, empty when the neighbour map has
no entry for the level. -/
def Node.levelList (n : Node R) (l : Int) : List Int :=
  (mapGet n.Neighbors l).getD []

/-- The level-`l` neighbour list of the node stored under `k`, empty when no
node is stored under `k`. -/
def listAt (nodes : List (Int × Node R)) (k l : Int) : List Int :=
  match mapGet nodes k with
  | none => []
  | some nd => nd.levelList l

/-- A call of one of the four methods of `Node` that write neighbour lists. -/
inductive NodeOp where
  | add (level : Int) (neighborID : Int)
  | remove (level : Int) (neighborID : Int)
  | set (level : Int) (neighbors : List Int)
  | clear (level : Int)

/-- The node after a call: the updated node when the call succeeds, the node
as it was when the call returns an error (each method returns its error before
any write). -/
def Node.apply (n : Node R) : NodeOp → Node R
  | .add level neighborID =>
    match n.AddNeighbor level neighborID with
    | .ok n' => n'
    | .error _ => n
  | .remove level neighborID =>
    match n.RemoveNeighbor level neighborID with
    | .ok n' => n'
    | .error _ => n
  | .set level neighbors =>
    match n.SetNeighbors level neighbors with
    | .ok n' => n'
    | .error _ => n
  | .clear level =>
    match n.ClearNeighbors level with
    | .ok n' => n'
    | .error _ => n

/-- The node after a sequence of calls. -/
def Node.applyAll (n : Node R) (ops : List NodeOp) : Node R :=
  ops.foldl Node.apply n

/-- The neighbour map has entries for levels in `[0, Level]` only. -/
def LevelBounded (n : Node R) : Prop :=
  ∀ p ∈ n.Neighbors, 0 ≤ p.1 ∧ p.1 ≤ n.Level

end NodeVocabulary

/-! ## Further vocabulary: searches and selections -/

section SearchVocabulary

variable {R : Type} [LinearOrderedField R]

/-- The facts about the results queue of `searchLayer` that hold throughout
its main loop: its ids are pairwise distinct, all of them are visited, and it
holds at most `ef` items. -/
def ResultsInv (ef : Int) (st : SearchState R) : Prop :=
  (st.results.map (fun it => it.NodeID)).Nodup ∧
    (∀ it ∈ st.results, it.NodeID ∈ st.visited) ∧ (st.results.length : Int) ≤ ef

/-- The distance from `q` to the stored vector of `id`; `+Inf` for an id that
is not stored. -/
def distTo (h : HNSW R) (q : List R) (id : Int) : WithTop R :=
  match mapGet h.nodes id with
  | some nd => h.distFunc q nd.GetVector
  | none => ⊤

/-- The queue item that a loop pushes for the stored id `id`. -/
def itemOf (h : HNSW R) (q : List R) (id : Int) : Item R :=
  ⟨id, distTo h q id⟩

/-- The level-`level` neighbours of the stored node `id` as the loops of
`searchLayer` and `selectNeighborsHeuristic` read them (through
`GetNeighbors`, errors discarded); empty for an id that is not stored. -/
def levelNeighbors (h : HNSW R) (level : Int) (id : Int) : List Int :=
  match mapGet h.nodes id with
  | some nd =>
    (match nd.GetNeighbors level with
      | .ok ns => ns
      | .error _ => [])
  | none => []

/-- The distance between the stored vectors of two ids; `+Inf` when one of
them is not stored. -/
def distBetween (h : HNSW R) (a b : Int) : WithTop R :=
  match mapGet h.nodes a, mapGet h.nodes b with
  | some x, some y => h.distFunc x.GetVector y.GetVector
  | _, _ => ⊤

/-- The pool `W` of `selectNeighborsHeuristic`, without repetitions: the
candidates, and with `extendCandidates` the level neighbours of the
candidates. -/
def poolIds (h : HNSW R) (candidates : List Int) (level : Int) (extendCandidates : Bool) :
    List Int :=
  (candidates ++
    (if extendCandidates then candidates.flatMap (levelNeighbors h level) else [])).dedup

/-- The facts about the pair (visited ids, queue) that hold throughout the
loops that fill a queue of `selectNeighborsHeuristic`, started with the ids
`base` visited: the queue is a heap of items with true distances, the visited
ids are pairwise distinct, and they are the ids of the queue and of `base`. -/
def FillInv (h : HNSW R) (q : List R) (base : List Int) (acc : List Int × PriorityQueue R) :
    Prop :=
  IsHeap acc.2 ∧ (∀ it ∈ acc.2, ItemOK h q it) ∧ acc.1.Nodup ∧
    List.Perm (acc.2.map (fun it => it.NodeID) ++ base) acc.1

/-- The order that the admission test of `selectNeighborsHeuristic` leaves
on its result: no id is strictly nearer to an id selected before it than to
the query. -/
def Diverse (h : HNSW R) (q : List R) (r : List Int) : Prop :=
  r.Pairwise (fun a b => distTo h q b ≤ distBetween h a b)

end SearchVocabulary

/-! ## Further concrete indexes -/

/-- A valid configuration with `M = 2` and `MaxM = 3`. -/
def narrowConfig : Config ℚ :=
  { M := 2, MaxM := 3, EfConstruction := 100, ML := 1, DelayRebuild := false }

/-- Five points on a line, all drawn at level 0, inserted under
`narrowConfig` and the Manhattan metric. -/
def starIndex : HNSW ℚ :=
  insertMany
    { nodes := [], entryPoint := 0, maxLevel := 0, config := narrowConfig,
      distFunc := ManhattanDistance }
    [(1, [0], 0), (2, [1], 0), (3, [-1], 0), (4, [2], 0), (5, [-2], 0)]

/-- A configuration that violates every rule of `Config.Validate`. -/
def zeroConfig : Config ℚ :=
  { M := 0, MaxM := 0, EfConstruction := 0, ML := 0, DelayRebuild := false }

end Hnsw
namespace Hnsw

/-! ## Further vocabulary: queues, level draws, flat indexes -/

section QueueVocabulary

variable {R : Type} [LinearOrderedField R]

/-- A call of `PushItem` or of `PopItem` on a priority queue. -/
inductive QueueOp (R : Type) where
  | push (nodeID : Int) (distance : WithTop R)
  | pop

/-- The queue after one call. -/
def QueueOp.apply (pq : PriorityQueue R) : QueueOp R → PriorityQueue R
  | .push nodeID distance => PushItem pq nodeID distance
  | .pop => (PopItem pq).2

/-- The queue after a sequence of calls made on `NewPriorityQueue()`. -/
def runQueue (ops : List (QueueOp R)) : PriorityQueue R :=
  ops.foldl QueueOp.apply (NewPriorityQueue R)

/-- The loop `for pq.Len() > 0 { id, d := pq.PopItem(); ... }` that empties a
queue, keeping both components of every popped entry; the budget passed is the
length of the queue. -/
def drainItems : Nat → PriorityQueue R → List (Int × WithTop R)
  | 0, _ => []
  | fuel + 1, pq =>
    if pq.length = 0 then []
    else (PopItem pq).1 :: drainItems fuel (PopItem pq).2

/-- The entries held by a queue, slot by slot. -/
def entriesOf (pq : PriorityQueue R) : List (Int × WithTop R) :=
  pq.map (fun it => (it.NodeID, it.Distance))

end QueueVocabulary

section IndexVocabulary

variable {R : Type} [LinearOrderedField R]

/-- The ids stored in the index, in the order of the node map. -/
def storedIds (h : HNSW R) : List Int :=
  h.nodes.map Prod.fst

/-- The index states produced from an empty index by calls of `Insert` that
return, each with a drawn level that is not negative. -/
inductive ReachableNonneg : HNSW R → Prop
  | new (cfg : Config R) (distFunc : List R → List R → WithTop R) :
      ReachableNonneg
        { nodes := [], entryPoint := 0, maxLevel := 0, config := cfg, distFunc := distFunc }
  | insert {h : HNSW R} (id : Int) (vector : List R) (level : Int) (r : InsertResult R) :
      ReachableNonneg h → 0 ≤ level → Insert h id vector level = some r →
      ReachableNonneg r.state

/-- The index states produced from an empty index by `n` calls of `Insert`
with pairwise distinct ids other than 0, every one of them drawn at level 0. -/
inductive FlatBuilt : Nat → HNSW R → Prop
  | new (cfg : Config R) (distFunc : List R → List R → WithTop R) :
      FlatBuilt 0
        { nodes := [], entryPoint := 0, maxLevel := 0, config := cfg, distFunc := distFunc }
  | insert {n : Nat} {h : HNSW R} (id : Int) (vector : List R) (r : InsertResult R) :
      FlatBuilt n h → id ≠ 0 → mapGet h.nodes id = none → Insert h id vector 0 = some r →
      FlatBuilt (n + 1) r.state

/-- The state of `searchLayer` right after the seeding of entry id `e` and the
pop of that first candidate. -/
def seededState (h : HNSW R) (q : List R) (e : Int) : SearchState R :=
  ⟨[e], [], PushItem (NewPriorityQueue R) e (distTo h q e)⟩

/-- The facts about the local state of `searchLayer` that hold throughout a
traversal that stays inside the id list `S` and never fills the results
queue: the results queue is a heap of true-distance items whose ids are the
visited ids, each once, and visited ids and candidates are in `S`. -/
def ClusterInv (h : HNSW R) (q : List R) (S : List Int) (st : SearchState R) : Prop :=
  IsHeap st.results ∧ (∀ it ∈ st.results, ItemOK h q it) ∧
    List.Perm (st.results.map (fun it => it.NodeID)) st.visited ∧ st.visited.Nodup ∧
    (∀ x ∈ st.visited, x ∈ S) ∧ (∀ it ∈ st.candidates, it.NodeID ∈ S)

/-- The shape of an index built from `n` level-0 insertions while `n` stays
within `M + 1` and `EfConstruction`: `n` distinct stored ids, none of them 0,
maximum level 0, an entry point that is stored once a node is, every node at
level 0 and not deleted, closed neighbour lists, and every stored id in the
level-0 list of every other stored id. -/
def FlatInv (n : Nat) (h : HNSW R) : Prop :=
  (storedIds h).Nodup ∧ (storedIds h).length = n ∧ 0 ∉ storedIds h ∧ h.maxLevel = 0 ∧
    (n = 0 → h.entryPoint = 0) ∧ (0 < n → h.entryPoint ∈ storedIds h) ∧
    (∀ k nd, mapGet h.nodes k = some nd → nd.Level = 0 ∧ nd.deleted = false) ∧
    NeighborsClosed h.nodes ∧
    (∀ a ∈ storedIds h, ∀ b ∈ storedIds h, a ≠ b → b ∈ listAt h.nodes a 0)

end IndexVocabulary

/-! ## Further concrete indexes -/

/-- One node with id 0, drawn at level 0. -/
def zeroFirstIndex : HNSW ℚ :=
  insertMany emptyManhattan [(0, [0], 0)]

/-- Four points on a line, all drawn at level 0, under the default
parameters. -/
def dropIndex : HNSW ℚ :=
  insertMany emptyManhattan [(1, [2], 0), (2, [4], 0), (3, [6], 0), (4, [1], 0)]

end Hnsw
namespace Hnsw

/-! ## The binary heap: permutation facts -/

section HeapPerm

variable {R : Type} [LinearOrderedField R]

theorem cons_set_perm {α : Type} (a : α) :
    ∀ (t : List α) (j : Nat) (b : α), t[j]? = some b → List.Perm (b :: t.set j a) (a :: t) := by
  intro t
  induction t with
  | nil => intro j b h; simp at h
  | cons y t ih =>
    intro j b h
    cases j with
    | zero =>
      simp at h
      subst h
      simpa using List.Perm.swap a y t
    | succ j =>
      simp at h
      have h1 := ih j b h
      have h2 : List.Perm (b :: y :: t.set j a) (y :: b :: t.set j a) := List.Perm.swap y b _
      simpa using h2.trans ((h1.cons y).trans (List.Perm.swap a y t))

theorem set_set_perm {α : Type} :
    ∀ (l : List α) (i j : Nat) (a b : α), l[i]? = some a → l[j]? = some b →
      List.Perm ((l.set i b).set j a) l := by
  intro l
  induction l with
  | nil => intro i j a b h; simp at h
  | cons x t ih =>
    intro i j a b hi hj
    cases i with
    | zero =>
      simp at hi
      subst hi
      cases j with
      | zero => simp
      | succ j =>
        simp at hj
        simpa using cons_set_perm x t j b hj
    | succ i =>
      simp at hi
      cases j with
      | zero =>
        simp at hj
        subst hj
        simpa using cons_set_perm x t i a hi
      | succ j =>
        simp at hj
        simpa using (ih i j a b hi hj).cons x

theorem Swap_perm (pq : PriorityQueue R) (i j : Nat) : List.Perm (Swap pq i j) pq := by
  unfold Swap
  split
  · next a b ha hb => exact set_set_perm pq i j a b ha hb
  · exact List.Perm.refl _

theorem Swap_length (pq : PriorityQueue R) (i j : Nat) : (Swap pq i j).length = pq.length :=
  (Swap_perm pq i j).length_eq

theorem Swap_getElem (pq : PriorityQueue R) (i j k : Nat) (hi : i < pq.length)
    (hj : j < pq.length) :
    (Swap pq i j)[k]? = if k = j then pq[i]? else if k = i then pq[j]? else pq[k]? := by
  unfold Swap
  have h1 : pq[i]? = some pq[i] := List.getElem?_eq_getElem hi
  have h2 : pq[j]? = some pq[j] := List.getElem?_eq_getElem hj
  rw [h1, h2]
  simp only [List.getElem?_set]
  by_cases hkj : k = j
  · subst hkj
    simp [hj]
  · by_cases hki : k = i
    · subst hki
      simp [hkj, Ne.symm hkj, hi]
    · simp [hkj, hki, Ne.symm hkj, Ne.symm hki]

theorem up_perm : ∀ (fuel : Nat) (pq : PriorityQueue R) (j : Nat), List.Perm (up fuel pq j) pq := by
  intro fuel
  induction fuel with
  | zero => intro pq j; exact List.Perm.refl _
  | succ f ih =>
    intro pq j
    unfold up
    simp only
    split
    · exact List.Perm.refl _
    · exact (ih _ _).trans (Swap_perm _ _ _)

theorem down_perm : ∀ (fuel : Nat) (pq : PriorityQueue R) (i n : Nat),
    List.Perm (down fuel pq i n) pq := by
  intro fuel
  induction fuel with
  | zero => intro pq i n; exact List.Perm.refl _
  | succ f ih =>
    intro pq i n
    unfold down
    simp only
    split
    · exact List.Perm.refl _
    · generalize (if 2 * i + 1 + 1 < n ∧ Less pq (2 * i + 1 + 1) (2 * i + 1) = true
        then 2 * i + 1 + 1 else 2 * i + 1) = j
      split
      · exact List.Perm.refl _
      · exact (ih _ _ _).trans (Swap_perm _ _ _)

theorem heapPush_perm (pq : PriorityQueue R) (x : Item R) : List.Perm (heapPush pq x) (x :: pq) := by
  unfold heapPush Push
  exact (up_perm _ _ _).trans (List.perm_append_singleton x pq)

theorem PushItem_perm (pq : PriorityQueue R) (id : Int) (d : WithTop R) :
    List.Perm (PushItem pq id d) (⟨id, d⟩ :: pq) := heapPush_perm pq _

theorem PushItem_length (pq : PriorityQueue R) (id : Int) (d : WithTop R) :
    (PushItem pq id d).length = pq.length + 1 := by
  simpa using (PushItem_perm pq id d).length_eq

theorem Pop_perm {pq pq' : PriorityQueue R} {it : Item R} (h : Pop pq = some (it, pq')) :
    List.Perm pq (it :: pq') := by
  unfold Pop at h
  split at h
  · simp at h
  · next item hl =>
    simp at h
    obtain ⟨rfl, rfl⟩ := h
    have := List.dropLast_append_getLast? item hl
    have h2 : List.Perm (pq.dropLast ++ [item]) (item :: pq.dropLast) :=
      List.perm_append_singleton _ _
    rw [this] at h2
    exact h2

theorem heapPop_perm {pq pq' : PriorityQueue R} {it : Item R} (h : heapPop pq = some (it, pq')) :
    List.Perm pq (it :: pq') := by
  unfold heapPop at h
  exact ((Swap_perm _ _ _).symm.trans (down_perm _ _ _ _).symm).trans (Pop_perm h)

theorem heapPop_ne_none {pq : PriorityQueue R} (h : pq ≠ []) : heapPop pq ≠ none := by
  unfold heapPop Pop
  simp only
  have hl : (down (pq.length - 1 + 1) (Swap pq 0 (pq.length - 1)) 0 (pq.length - 1)).length
      = pq.length := by
    rw [(down_perm _ _ _ _).length_eq, Swap_length]
  split
  · next hn =>
    rw [List.getLast?_eq_none_iff] at hn
    rw [hn] at hl
    simp at hl
    exact absurd (List.length_eq_zero.mp hl.symm) h
  · simp

theorem PopItem_perm {pq : PriorityQueue R} (h : pq ≠ []) :
    List.Perm pq (⟨(PopItem pq).1.1, (PopItem pq).1.2⟩ :: (PopItem pq).2) := by
  unfold PopItem
  have hl : ¬ pq.length = 0 := by simpa using h
  rw [if_neg hl]
  have hne := heapPop_ne_none h
  split
  · next item pq' hp => exact heapPop_perm hp
  · next hp => exact absurd hp hne

theorem PopItem_length {pq : PriorityQueue R} (h : pq ≠ []) :
    (PopItem pq).2.length + 1 = pq.length := by
  simpa using (PopItem_perm h).length_eq.symm

end HeapPerm
end Hnsw
namespace Hnsw

/-! ## The binary heap: order facts -/

section HeapOrder

variable {R : Type} [LinearOrderedField R]

theorem isHeap_iff_heapBelow (pq : PriorityQueue R) : IsHeap pq ↔ HeapBelow pq pq.length := by
  constructor
  · intro h k hk _
    exact h k hk
  · intro h k hk a b ha hb
    have hlt : k < pq.length := by
      by_contra hc
      rw [List.getElem?_eq_none (by omega)] at hb
      simp at hb
    exact h k hk hlt a b ha hb

theorem LeAt_refl (pq : PriorityQueue R) (k : Nat) : LeAt pq k k := by
  intro a b ha hb
  rw [ha] at hb
  simp at hb
  subst hb
  exact le_refl _

theorem LeAt_trans {pq : PriorityQueue R} {p m k : Nat} (hm : m < pq.length)
    (h1 : LeAt pq p m) (h2 : LeAt pq m k) : LeAt pq p k := by
  intro a b ha hb
  have hx : pq[m]? = some pq[m] := List.getElem?_eq_getElem hm
  exact le_trans (h1 a _ ha hx) (h2 _ b hx hb)

theorem LeAt_of_Less_false {pq : PriorityQueue R} {i j : Nat} (h : Less pq j i = false) :
    LeAt pq i j := by
  intro a b ha hb
  unfold Less at h
  rw [ha, hb] at h
  simp at h
  exact h

theorem LeAt_of_Less_true {pq : PriorityQueue R} {i j : Nat} (h : Less pq j i = true) :
    LeAt pq j i := by
  intro a b ha hb
  unfold Less at h
  rw [ha, hb] at h
  simp at h
  exact le_of_lt h

theorem Swap_getElem_idx (pq : PriorityQueue R) (i j k : Nat) (hi : i < pq.length)
    (hj : j < pq.length) :
    (Swap pq i j)[k]? = pq[if k = j then i else if k = i then j else k]? := by
  rw [Swap_getElem pq i j k hi hj]
  by_cases hkj : k = j
  · simp [hkj]
  · by_cases hki : k = i
    · subst hki
      simp [hkj]
    · simp [hkj, hki]

theorem LeAt_Swap (pq : PriorityQueue R) (i j p k : Nat) (hi : i < pq.length)
    (hj : j < pq.length) :
    LeAt (Swap pq i j) p k ↔
      LeAt pq (if p = j then i else if p = i then j else p)
        (if k = j then i else if k = i then j else k) := by
  unfold LeAt
  rw [Swap_getElem_idx pq i j p hi hj, Swap_getElem_idx pq i j k hi hj]

theorem up_isHeap : ∀ (fuel : Nat) (pq : PriorityQueue R) (j : Nat),
    j < pq.length → j + 1 ≤ fuel →
    (∀ k, 0 < k → k ≠ j → LeAt pq ((k - 1) / 2) k) →
    (∀ k, 0 < k → (k - 1) / 2 = j → 0 < j → LeAt pq ((j - 1) / 2) k) →
    IsHeap (up fuel pq j) := by
  intro fuel
  induction fuel with
  | zero => intro pq j _ hf; omega
  | succ f ih =>
    intro pq j hj hf h1 h2
    unfold up
    simp only
    split
    · next hc =>
      intro k hk
      by_cases hkj : k = j
      · subst hkj
        rcases hc with hc | hc
        · omega
        · exact LeAt_of_Less_false hc
      · exact h1 k hk hkj
    · next hc =>
      push_neg at hc
      obtain ⟨hne, hless⟩ := hc
      simp at hless
      have hi : (j - 1) / 2 < pq.length := by omega
      have hij : (j - 1) / 2 < j := by omega
      have hji := LeAt_of_Less_true hless
      apply ih
      · rw [Swap_length]; exact hi
      · omega
      · intro k hk hki
        rw [LeAt_Swap pq _ _ _ _ hi hj]
        by_cases hkj : k = j
        · subst hkj
          simp
          rw [if_neg (by omega)]
          exact hji
        · rw [if_neg hkj, if_neg hki]
          by_cases hp : (k - 1) / 2 = j
          · rw [if_pos hp]
            exact h2 k hk hp (by omega)
          · rw [if_neg hp]
            by_cases hp2 : (k - 1) / 2 = (j - 1) / 2
            · rw [if_pos hp2]
              have := h1 k hk hkj
              rw [hp2] at this
              exact LeAt_trans hi hji this
            · rw [if_neg hp2]
              exact h1 k hk hkj
      · intro k hk hpk hi0
        rw [LeAt_Swap pq _ _ _ _ hi hj]
        rw [if_neg (by omega), if_neg (by omega)]
        by_cases hkj : k = j
        · subst hkj
          rw [if_pos rfl]
          exact h1 _ hi0 (by omega)
        · rw [if_neg hkj, if_neg (by omega)]
          have h3 := h1 _ hi0 (show (j - 1) / 2 ≠ j by omega)
          have h4 := h1 k hk hkj
          rw [hpk] at h4
          exact LeAt_trans hi h3 h4

theorem heapPush_isHeap {pq : PriorityQueue R} (h : IsHeap pq) (x : Item R) :
    IsHeap (heapPush pq x) := by
  unfold heapPush Push
  apply up_isHeap
  · simp
  · simp
  · intro k hk hne a b ha hb
    simp at hne
    by_cases hlt : k < pq.length
    · have hp : (k - 1) / 2 < pq.length := by omega
      rw [List.getElem?_append_left hp] at ha
      rw [List.getElem?_append_left hlt] at hb
      exact h k hk a b ha hb
    · rw [List.getElem?_eq_none (by simp; omega)] at hb
      simp at hb
  · intro k hk hp _ a b _ hb
    simp at hp
    rw [List.getElem?_eq_none (by simp; omega)] at hb
    simp at hb

theorem PushItem_isHeap {pq : PriorityQueue R} (h : IsHeap pq) (id : Int) (d : WithTop R) :
    IsHeap (PushItem pq id d) := heapPush_isHeap h _

theorem isHeap_nil : IsHeap ([] : PriorityQueue R) := by
  intro k _ a b ha
  simp at ha

theorem dropLast_isHeap {pq : PriorityQueue R} (h : IsHeap pq) : IsHeap pq.dropLast := by
  intro k hk a b ha hb
  rw [List.dropLast_eq_take, List.getElem?_take] at ha hb
  split at ha
  · split at hb
    · exact h k hk a b ha hb
    · simp at hb
  · simp at ha

theorem Pop_isHeap {pq pq' : PriorityQueue R} {it : Item R} (h : IsHeap pq)
    (hp : Pop pq = some (it, pq')) : IsHeap pq' := by
  unfold Pop at hp
  split at hp
  · simp at hp
  · simp at hp
    rw [← hp.2]
    exact dropLast_isHeap h

end HeapOrder
end Hnsw
namespace Hnsw

section HeapDown

variable {R : Type} [LinearOrderedField R]

theorem down_frame : ∀ (fuel : Nat) (pq : PriorityQueue R) (i n m : Nat),
    n ≤ pq.length → i < n → n ≤ m → (down fuel pq i n)[m]? = pq[m]? := by
  intro fuel
  induction fuel with
  | zero => intro pq i n m _ _ _; rfl
  | succ f ih =>
    intro pq i n m hn hi hm
    unfold down
    simp only
    split
    · rfl
    · next hc =>
      have hj1 : 2 * i + 1 < n := by omega
      have hjn : (if 2 * i + 1 + 1 < n ∧ Less pq (2 * i + 1 + 1) (2 * i + 1) = true
          then 2 * i + 1 + 1 else 2 * i + 1) < n := by
        split
        · next h => exact h.1
        · exact hj1
      revert hjn
      generalize (if 2 * i + 1 + 1 < n ∧ Less pq (2 * i + 1 + 1) (2 * i + 1) = true
        then 2 * i + 1 + 1 else 2 * i + 1) = j
      intro hjn
      split
      · rfl
      · rw [ih _ _ _ _ (by rw [Swap_length]; exact hn) hjn hm]
        rw [Swap_getElem_idx pq i j m (by omega) (by omega)]
        rw [if_neg (by omega), if_neg (by omega)]

theorem down_heapBelow : ∀ (fuel : Nat) (pq : PriorityQueue R) (i n : Nat),
    n ≤ pq.length → n ≤ fuel + i →
    (∀ k, 0 < k → k < n → (k - 1) / 2 ≠ i → LeAt pq ((k - 1) / 2) k) →
    (∀ k, 0 < i → k < n → (k - 1) / 2 = i → LeAt pq ((i - 1) / 2) k) →
    HeapBelow (down fuel pq i n) n := by
  intro fuel
  induction fuel with
  | zero =>
    intro pq i n _ hf h1 _ k hk hkn
    exact h1 k hk hkn (by omega)
  | succ f ih =>
    intro pq i n hn hf h1 h2
    unfold down
    simp only
    split
    · next hc =>
      intro k hk hkn
      exact h1 k hk hkn (by omega)
    · next hc =>
      have hj1 : 2 * i + 1 < n := by omega
      have hjprop : ∀ j, j = (if 2 * i + 1 + 1 < n ∧ Less pq (2 * i + 1 + 1) (2 * i + 1) = true
          then 2 * i + 1 + 1 else 2 * i + 1) →
          j < n ∧ (j - 1) / 2 = i ∧ i < j ∧
            (∀ k, 0 < k → k < n → (k - 1) / 2 = i → LeAt pq j k) := by
        intro j hj
        split at hj
        · next h =>
          subst hj
          refine ⟨h.1, by omega, by omega, ?_⟩
          intro k hk hkn hp
          have hk2 : k = 2 * i + 1 ∨ k = 2 * i + 1 + 1 := by omega
          rcases hk2 with rfl | rfl
          · exact LeAt_of_Less_true h.2
          · exact LeAt_refl _ _
        · next h =>
          subst hj
          refine ⟨hj1, by omega, by omega, ?_⟩
          intro k hk hkn hp
          have hk2 : k = 2 * i + 1 ∨ k = 2 * i + 1 + 1 := by omega
          rcases hk2 with rfl | rfl
          · exact LeAt_refl _ _
          · have : Less pq (2 * i + 1 + 1) (2 * i + 1) = false := by
              by_contra hx
              simp at hx
              exact h ⟨hkn, hx⟩
            exact LeAt_of_Less_false this
      have hjp := hjprop _ rfl
      revert hjp
      generalize (if 2 * i + 1 + 1 < n ∧ Less pq (2 * i + 1 + 1) (2 * i + 1) = true
        then 2 * i + 1 + 1 else 2 * i + 1) = j
      intro ⟨hjn, hpj, hij, hS⟩
      have hi : i < pq.length := by omega
      have hj : j < pq.length := by omega
      split
      · next hl =>
        have hle := LeAt_of_Less_false hl
        intro k hk hkn
        by_cases hp : (k - 1) / 2 = i
        · rw [hp]
          exact LeAt_trans hj hle (hS k hk hkn hp)
        · exact h1 k hk hkn hp
      · next hl =>
        simp at hl
        have hji := LeAt_of_Less_true hl
        apply ih
        · rw [Swap_length]; exact hn
        · omega
        · intro k hk hkn hp
          rw [LeAt_Swap pq _ _ _ _ hi hj]
          rw [if_neg hp]
          by_cases hkj : k = j
          · subst hkj
            rw [if_pos rfl, if_pos hpj]
            exact hji
          · rw [if_neg hkj]
            by_cases hki : k = i
            · subst hki
              rw [if_pos rfl, if_neg (by omega)]
              have := h2 j hk hjn hpj
              exact this
            · rw [if_neg hki]
              by_cases hpi : (k - 1) / 2 = i
              · rw [if_pos hpi]
                exact hS k hk hkn hpi
              · rw [if_neg hpi]
                exact h1 k hk hkn hpi
        · intro k hj0 hkn hp
          rw [LeAt_Swap pq _ _ _ _ hi hj]
          rw [hpj, if_neg (by omega), if_pos rfl, if_neg (by omega), if_neg (by omega)]
          have := h1 k (by omega) hkn (by omega)
          rw [hp] at this
          exact this

theorem root_min {pq : PriorityQueue R} (h : IsHeap pq) : ∀ k, LeAt pq 0 k := by
  intro k
  induction k using Nat.strong_induction_on with
  | _ k ih =>
    by_cases hk : k = 0
    · subst hk
      exact LeAt_refl _ _
    · intro a b ha hb
      have hlt : k < pq.length := by
        by_contra hc
        rw [List.getElem?_eq_none (by omega)] at hb
        simp at hb
      have hp : (k - 1) / 2 < pq.length := by omega
      exact LeAt_trans hp (ih _ (by omega)) (h k (by omega)) a b ha hb

theorem heapPop_spec {pq pq' : PriorityQueue R} {it : Item R} (h : IsHeap pq)
    (hp : heapPop pq = some (it, pq')) :
    IsHeap pq' ∧ (∀ x ∈ pq, it.Distance ≤ x.Distance) := by
  have hne : pq ≠ [] := by
    intro hc
    subst hc
    simp [heapPop, Pop, Swap, down] at hp
  have hlen : 0 < pq.length := List.length_pos.mpr hne
  unfold heapPop at hp
  simp only at hp
  have hn : pq.length - 1 < pq.length := by omega
  have hHB : HeapBelow (down (pq.length - 1 + 1) (Swap pq 0 (pq.length - 1)) 0 (pq.length - 1))
      (pq.length - 1) := by
    apply down_heapBelow
    · rw [Swap_length]; omega
    · omega
    · intro k hk hkn hpk
      rw [LeAt_Swap pq _ _ _ _ hlen hn]
      rw [if_neg (by omega), if_neg hpk, if_neg (by omega), if_neg (by omega)]
      exact h k hk
    · intro k hc
      omega
  have hlast : (down (pq.length - 1 + 1) (Swap pq 0 (pq.length - 1)) 0 (pq.length - 1))[pq.length - 1]?
      = pq[0]? := by
    by_cases h1 : pq.length = 1
    · have e : pq.length - 1 = 0 := by omega
      rw [e]
      have : ∀ (l : PriorityQueue R), down (0 + 1) l 0 0 = l := by
        intro l
        simp [down]
      rw [this]
      have : ∀ (l : PriorityQueue R), 0 < l.length → Swap l 0 0 = l := by
        intro l hl
        apply List.ext_getElem?
        intro m
        rw [Swap_getElem_idx l 0 0 m hl hl]
        by_cases hm : m = 0
        · simp [hm]
        · simp [hm]
      rw [this pq hlen]
    · rw [down_frame _ _ _ _ _ (by rw [Swap_length]; omega) (by omega) (le_refl _)]
      rw [Swap_getElem_idx pq _ _ _ hlen hn]
      simp
  have hdl : (down (pq.length - 1 + 1) (Swap pq 0 (pq.length - 1)) 0 (pq.length - 1)).length
      = pq.length := by
    rw [(down_perm _ _ _ _).length_eq, Swap_length]
  revert hp hHB hlast hdl
  generalize down (pq.length - 1 + 1) (Swap pq 0 (pq.length - 1)) 0 (pq.length - 1) = d
  intro hp hHB hlast hdl
  unfold Pop at hp
  split at hp
  · simp at hp
  · next item hl =>
    simp at hp
    obtain ⟨rfl, rfl⟩ := hp
    have hitem : pq[0]? = some item := by
      rw [← hlast, ← hl, List.getLast?_eq_getElem?, hdl]
    constructor
    · intro k hk a b ha hb
      rw [List.dropLast_eq_take, List.getElem?_take] at ha hb
      split at hb
      · next hkl =>
        rw [if_pos (by omega)] at ha
        exact hHB k hk (by omega) a b ha hb
      · simp at hb
    · intro x hx
      obtain ⟨k, hk⟩ := List.mem_iff_getElem?.mp hx
      exact root_min h k item x hitem hk

theorem PopItem_spec {pq : PriorityQueue R} (h : IsHeap pq) (hne : pq ≠ []) :
    IsHeap (PopItem pq).2 ∧ (∀ x ∈ pq, (PopItem pq).1.2 ≤ x.Distance) := by
  unfold PopItem
  have hl : ¬ pq.length = 0 := by simpa using hne
  rw [if_neg hl]
  have hnn := heapPop_ne_none hne
  split
  · next item pq' hp => exact heapPop_spec h hp
  · next hp => exact absurd hp hnn

end HeapDown
end Hnsw
namespace Hnsw

/-! ## Maps and loops -/

section BuiltIns

theorem makePanics_eq_false_iff (cap : Int) :
    makePanics cap = false ↔ (0 ≤ cap ∧ cap ≤ maxSliceCap) := by
  unfold makePanics
  simp only [Bool.or_eq_false_iff, decide_eq_false_iff_not, not_lt]

theorem makePanics_eq_true_iff (cap : Int) :
    makePanics cap = true ↔ (cap < 0 ∨ maxSliceCap < cap) := by
  unfold makePanics
  simp only [Bool.or_eq_true, decide_eq_true_eq]

end BuiltIns

section Maps

variable {β : Type}

theorem mapGet_mapSet_same (m : List (Int × β)) (k : Int) (v : β) :
    mapGet (mapSet m k v) k = some v := by
  induction m with
  | nil => simp [mapSet, mapGet]
  | cons p m ih =>
    obtain ⟨k', v'⟩ := p
    by_cases hk : k' = k
    · simp [mapSet, mapGet, hk]
    · simp [mapSet, mapGet, hk, ih]

theorem mapGet_mapSet_ne (m : List (Int × β)) (k k' : Int) (v : β) (hne : k' ≠ k) :
    mapGet (mapSet m k v) k' = mapGet m k' := by
  induction m with
  | nil => simp [mapSet, mapGet, Ne.symm hne]
  | cons p m ih =>
    obtain ⟨k0, v0⟩ := p
    by_cases hk : k0 = k
    · subst hk
      simp [mapSet, mapGet, Ne.symm hne]
    · by_cases hk2 : k0 = k'
      · subst hk2
        simp [mapSet, mapGet, hk]
      · simp [mapSet, mapGet, hk, hk2, ih]

theorem mapGet_mem_keys (m : List (Int × β)) (k : Int) (v : β) (h : mapGet m k = some v) :
    k ∈ m.map Prod.fst := by
  induction m with
  | nil => simp [mapGet] at h
  | cons p m ih =>
    obtain ⟨k0, v0⟩ := p
    by_cases hk : k0 = k
    · simp [hk]
    · simp [mapGet, hk] at h
      simp [ih h]

theorem mapGet_none_mapSet_length (m : List (Int × β)) (k : Int) (v : β)
    (h : mapGet m k = none) : (mapSet m k v).length = m.length + 1 := by
  induction m with
  | nil => simp [mapSet]
  | cons p m ih =>
    obtain ⟨k0, v0⟩ := p
    by_cases hk : k0 = k
    · simp [mapGet, hk] at h
    · simp [mapGet, hk] at h
      simp [mapSet, hk, ih h]

theorem mapGet_some_mapSet_length (m : List (Int × β)) (k : Int) (v w : β)
    (h : mapGet m k = some w) : (mapSet m k v).length = m.length := by
  induction m with
  | nil => simp [mapGet] at h
  | cons p m ih =>
    obtain ⟨k0, v0⟩ := p
    by_cases hk : k0 = k
    · simp [mapSet, hk]
    · simp [mapGet, hk] at h
      simp [mapSet, hk, ih h]

theorem nodup_keys_length_le (m : List (Int × β)) (l : List Int) (hn : l.Nodup)
    (hp : ∀ x ∈ l, ∃ v, mapGet m x = some v) : l.length ≤ m.length := by
  have hsub : l ⊆ m.map Prod.fst := by
    intro x hx
    obtain ⟨v, hv⟩ := hp x hx
    exact mapGet_mem_keys m x v hv
  have := (List.Nodup.subperm hn hsub).length_le
  simpa using this

end Maps

section Loops

variable {σ α : Type}

theorem forEach_inv (body : α → σ → Option σ) (P : σ → Prop) :
    ∀ (l : List α) (s s' : σ),
      (∀ a ∈ l, ∀ t t', P t → body a t = some t' → P t') →
      P s → forEach body l s = some s' → P s' := by
  intro l
  induction l with
  | nil =>
    intro s s' _ hs h
    simp [forEach] at h
    subst h
    exact hs
  | cons a rest ih =>
    intro s s' hstep hs h
    unfold forEach at h
    split at h
    · simp at h
    · next t ht =>
      exact ih t s' (fun b hb => hstep b (List.mem_cons_of_mem _ hb))
        (hstep a (List.mem_cons_self _ _) s t hs ht) h

theorem forEach_total (body : α → σ → Option σ) (P : σ → Prop) :
    ∀ (l : List α) (s : σ),
      (∀ a ∈ l, ∀ t, P t → ∃ t', body a t = some t' ∧ P t') →
      P s → ∃ s', forEach body l s = some s' ∧ P s' := by
  intro l
  induction l with
  | nil =>
    intro s _ hs
    exact ⟨s, rfl, hs⟩
  | cons a rest ih =>
    intro s hstep hs
    obtain ⟨t, ht, hPt⟩ := hstep a (List.mem_cons_self _ _) s hs
    obtain ⟨s', hs', hPs'⟩ := ih t (fun b hb => hstep b (List.mem_cons_of_mem _ hb)) hPt
    refine ⟨s', ?_, hPs'⟩
    unfold forEach
    rw [ht]
    exact hs'

end Loops

end Hnsw
namespace Hnsw

/-! ## searchLayer -/

section SearchLayer

variable {R : Type} [LinearOrderedField R]

theorem mem_PushItem {pq : PriorityQueue R} {id : Int} {d : WithTop R} {x : Item R} :
    x ∈ PushItem pq id d ↔ x = ⟨id, d⟩ ∨ x ∈ pq := by
  rw [(PushItem_perm pq id d).mem_iff]
  simp

theorem mem_of_Pop {pq pq' : PriorityQueue R} {it x : Item R} (h : Pop pq = some (it, pq'))
    (hx : x ∈ pq') : x ∈ pq :=
  (Pop_perm h).mem_iff.mpr (List.mem_cons_of_mem _ hx)

theorem Pop_length {pq pq' : PriorityQueue R} {it : Item R} (h : Pop pq = some (it, pq')) :
    pq'.length + 1 = pq.length := by
  simpa using (Pop_perm h).length_eq.symm

theorem Pop_ne_none {pq : PriorityQueue R} (h : pq ≠ []) : ∃ it pq', Pop pq = some (it, pq') := by
  unfold Pop
  split
  · next hn =>
    rw [List.getLast?_eq_none_iff] at hn
    exact absurd hn h
  · next item _ => exact ⟨item, pq.dropLast, rfl⟩

theorem PopItem_fst_mem {pq : PriorityQueue R} (h : pq ≠ []) :
    (⟨(PopItem pq).1.1, (PopItem pq).1.2⟩ : Item R) ∈ pq :=
  (PopItem_perm h).mem_iff.mpr (List.mem_cons_self _ _)

theorem PopItem_snd_mem {pq : PriorityQueue R} {x : Item R} (h : pq ≠ [])
    (hx : x ∈ (PopItem pq).2) : x ∈ pq :=
  (PopItem_perm h).mem_iff.mpr (List.mem_cons_of_mem _ hx)

theorem PushItem_ne_nil (pq : PriorityQueue R) (id : Int) (d : WithTop R) :
    PushItem pq id d ≠ [] := by
  intro h
  have := PushItem_length pq id d
  rw [h] at this
  simp at this

/-- One pass of the inner loop keeps the loop facts, and adds at most as many
candidates as visited ids. -/
theorem visitNeighbor_inv (h : HNSW R) (q : List R) (ef : Int) (x : Int)
    (st st' : SearchState R) (hinv : SearchInv h q st)
    (hv : visitNeighbor h q ef x st = some st') :
    SearchInv h q st' ∧
      st'.candidates.length + st.visited.length ≤ st.candidates.length + st'.visited.length ∧
      st.visited.length ≤ st'.visited.length := by
  obtain ⟨hheap, hres, hcand, hnd, hpres⟩ := hinv
  unfold visitNeighbor at hv
  split at hv
  · simp at hv
    subst hv
    exact ⟨⟨hheap, hres, hcand, hnd, hpres⟩, le_refl _, le_refl _⟩
  · next hnot =>
    split at hv
    · simp at hv
    · next nb hnb =>
      have hitem : ItemOK h q ⟨x, h.distFunc q nb.GetVector⟩ := ⟨nb, hnb, rfl⟩
      have hnd' : (x :: st.visited).Nodup := List.nodup_cons.mpr ⟨hnot, hnd⟩
      have hpres' : ∀ y ∈ x :: st.visited, Present h.nodes y := by
        intro y hy
        rcases List.mem_cons.mp hy with rfl | hy
        · exact ⟨nb, hnb⟩
        · exact hpres y hy
      have hcand' : ∀ it ∈ PushItem st.candidates x (h.distFunc q nb.GetVector), ItemOK h q it := by
        intro it hit
        rcases mem_PushItem.mp hit with rfl | hit
        · exact hitem
        · exact hcand it hit
      have hres' : ∀ it ∈ PushItem st.results x (h.distFunc q nb.GetVector), ItemOK h q it := by
        intro it hit
        rcases mem_PushItem.mp hit with rfl | hit
        · exact hitem
        · exact hres it hit
      have hheap' := PushItem_isHeap hheap x (h.distFunc q nb.GetVector)
      simp only at hv
      split at hv
      · split at hv
        · split at hv
          · simp at hv
          · next it results' hpop =>
            simp at hv
            subst hv
            refine ⟨⟨Pop_isHeap hheap' hpop, ?_, hcand', hnd', hpres'⟩, ?_, ?_⟩
            · intro it' hit'
              exact hres' it' (mem_of_Pop hpop hit')
            · simp [PushItem_length]
              omega
            · simp
        · simp at hv
          subst hv
          refine ⟨⟨hheap', hres', hcand', hnd', hpres'⟩, ?_, ?_⟩
          · simp [PushItem_length]
            omega
          · simp
      · simp at hv
        subst hv
        refine ⟨⟨hheap, hres, hcand, hnd', hpres'⟩, ?_, ?_⟩
        · simp
        · simp

/-- One pass of the inner loop returns when the neighbour is stored. -/
theorem visitNeighbor_total (h : HNSW R) (q : List R) (ef : Int) (x : Int)
    (st : SearchState R) (hx : Present h.nodes x) :
    ∃ st', visitNeighbor h q ef x st = some st' := by
  obtain ⟨nb, hnb⟩ := hx
  unfold visitNeighbor
  split
  · exact ⟨_, rfl⟩
  · rw [hnb]
    simp only
    split
    · split
      · obtain ⟨it, pq', hp⟩ := Pop_ne_none (PushItem_ne_nil st.results x (h.distFunc q nb.GetVector))
        rw [hp]
        exact ⟨_, rfl⟩
      · exact ⟨_, rfl⟩
    · exact ⟨_, rfl⟩

theorem visitNeighbors_inv (h : HNSW R) (q : List R) (ef : Int) (ns : List Int)
    (st st' : SearchState R) (hinv : SearchInv h q st)
    (hv : visitNeighbors h q ef ns st = some st') :
    SearchInv h q st' ∧
      st'.candidates.length + st.visited.length ≤ st.candidates.length + st'.visited.length ∧
      st.visited.length ≤ st'.visited.length := by
  unfold visitNeighbors at hv
  refine forEach_inv (visitNeighbor h q ef)
    (fun s => SearchInv h q s ∧
      s.candidates.length + st.visited.length ≤ st.candidates.length + s.visited.length ∧
      st.visited.length ≤ s.visited.length) ns st st' ?_ ⟨hinv, le_refl _, le_refl _⟩ hv
  intro a _ t t' ⟨hi, h1, h2⟩ ht
  obtain ⟨hi', h1', h2'⟩ := visitNeighbor_inv h q ef a t t' hi ht
  exact ⟨hi', by omega, by omega⟩

theorem visitNeighbors_total (h : HNSW R) (q : List R) (ef : Int) (ns : List Int)
    (st : SearchState R) (hns : ∀ x ∈ ns, Present h.nodes x) :
    ∃ st', visitNeighbors h q ef ns st = some st' := by
  unfold visitNeighbors
  obtain ⟨s', hs', _⟩ := forEach_total (visitNeighbor h q ef) (fun _ => True) ns st
    (fun a ha t _ => by
      obtain ⟨t', ht'⟩ := visitNeighbor_total h q ef a t (hns a ha)
      exact ⟨t', ht', trivial⟩) trivial
  exact ⟨s', hs'⟩

end SearchLayer
end Hnsw
namespace Hnsw

section SearchLayer2

variable {R : Type} [LinearOrderedField R]

theorem length_pos_ne_nil {α : Type} {l : List α} (h : ¬ l.length = 0) : l ≠ [] := by
  intro hc
  subst hc
  simp at h

/-- Popping a candidate keeps the loop facts. -/
theorem SearchInv_pop (h : HNSW R) (q : List R) (st : SearchState R) (hinv : SearchInv h q st)
    (hne : st.candidates ≠ []) :
    SearchInv h q { st with candidates := (PopItem st.candidates).2 } := by
  obtain ⟨hheap, hres, hcand, hnd, hpres⟩ := hinv
  exact ⟨hheap, hres, fun it hit => hcand it (PopItem_snd_mem hne hit), hnd, hpres⟩

/-- The main loop keeps the loop facts. -/
theorem searchLoop_inv (h : HNSW R) (q : List R) (ef level : Int) :
    ∀ (fuel : Nat) (st st' : SearchState R), SearchInv h q st →
      searchLoop h q ef level fuel st = some st' → SearchInv h q st' := by
  intro fuel
  induction fuel with
  | zero =>
    intro st st' hinv hs
    unfold searchLoop at hs
    split at hs
    · simp at hs
      subst hs
      exact hinv
    · simp at hs
  | succ f ih =>
    intro st st' hinv hs
    unfold searchLoop at hs
    split at hs
    · simp at hs
      subst hs
      exact hinv
    · next hlen =>
      have hne := length_pos_ne_nil hlen
      have hinv1 := SearchInv_pop h q st hinv hne
      simp only at hs
      split at hs
      · simp at hs
        subst hs
        exact hinv1
      · split at hs
        · simp at hs
        · next nd hnd =>
          split at hs
          · simp at hs
          · next st1 hst1 =>
            exact ih st1 st' (visitNeighbors_inv h q ef _ _ st1 hinv1 hst1).1 hs

/-- The main loop ends within its budget on an index with closed neighbour
lists: the budget covers the candidates still queued and the nodes not yet
visited. -/
theorem searchLoop_total (h : HNSW R) (q : List R) (ef level : Int)
    (hclosed : NeighborsClosed h.nodes) :
    ∀ (fuel : Nat) (st : SearchState R), SearchInv h q st →
      st.candidates.length + h.nodes.length ≤ fuel + st.visited.length →
      ∃ st', searchLoop h q ef level fuel st = some st' := by
  intro fuel
  induction fuel with
  | zero =>
    intro st hinv hf
    have hle := nodup_keys_length_le h.nodes st.visited hinv.2.2.2.1 hinv.2.2.2.2
    unfold searchLoop
    rw [if_pos (by omega)]
    exact ⟨_, rfl⟩
  | succ f ih =>
    intro st hinv hf
    unfold searchLoop
    split
    · exact ⟨_, rfl⟩
    · next hlen =>
      have hne := length_pos_ne_nil hlen
      have hinv1 := SearchInv_pop h q st hinv hne
      have hlen1 := PopItem_length hne
      simp only
      split
      · exact ⟨_, rfl⟩
      · obtain ⟨nd, hnd, _⟩ := hinv.2.2.1 _ (PopItem_fst_mem hne)
        simp only at hnd
        rw [hnd]
        simp only
        have hns : ∀ x ∈ (match nd.GetNeighbors level with
            | .ok ns => ns
            | .error _ => []), Present h.nodes x := by
          intro x hx
          split at hx
          · next ns hg =>
            unfold Node.GetNeighbors at hg
            split at hg
            · simp at hg
            · split at hg
              · simp at hg
              · next nbs hnbs =>
                simp at hg
                subst hg
                exact hclosed _ nd hnd level nbs hnbs x hx
          · simp at hx
        obtain ⟨st1, hst1⟩ := visitNeighbors_total h q ef _
          { st with candidates := (PopItem st.candidates).2 } hns
        rw [hst1]
        simp only
        obtain ⟨hinv2, hm1, hm2⟩ := visitNeighbors_inv h q ef _ _ st1 hinv1 hst1
        apply ih st1 hinv2
        simp only at hm1 hm2
        omega

/-- Draining a heap lists its items nearest first: the ids returned are those
of a permutation of the queue sorted by distance. -/
theorem drain_spec : ∀ (fuel : Nat) (pq : PriorityQueue R), IsHeap pq → pq.length ≤ fuel →
    ∃ items : List (Item R), drain fuel pq = items.map (fun it => it.NodeID) ∧
      List.Perm items pq ∧ items.Pairwise (fun a b => a.Distance ≤ b.Distance) := by
  intro fuel
  induction fuel with
  | zero =>
    intro pq _ hl
    have : pq = [] := List.length_eq_zero.mp (by omega)
    subst this
    exact ⟨[], rfl, List.Perm.refl _, List.Pairwise.nil⟩
  | succ f ih =>
    intro pq hheap hl
    unfold drain
    split
    · next h0 =>
      have : pq = [] := List.length_eq_zero.mp h0
      subst this
      exact ⟨[], rfl, List.Perm.refl _, List.Pairwise.nil⟩
    · next hlen =>
      have hne := length_pos_ne_nil hlen
      obtain ⟨hheap', hmin⟩ := PopItem_spec hheap hne
      have hperm := PopItem_perm hne
      have hlen' := PopItem_length hne
      obtain ⟨items, hd, hp, hs⟩ := ih (PopItem pq).2 hheap' (by omega)
      refine ⟨⟨(PopItem pq).1.1, (PopItem pq).1.2⟩ :: items, ?_, ?_, ?_⟩
      · simp [hd]
      · exact (hp.cons _).trans hperm.symm
      · refine List.Pairwise.cons ?_ hs
        intro x hx
        exact hmin x (PopItem_snd_mem hne (hp.mem_iff.mp hx))

/-- The initial local state of `searchLayer` satisfies the loop facts. -/
theorem SearchInv_init (h : HNSW R) (q : List R) (e : Int) (ep : Node R)
    (hep : mapGet h.nodes e = some ep) :
    SearchInv h q ⟨[e], PushItem [] e (h.distFunc q ep.GetVector),
      PushItem [] e (h.distFunc q ep.GetVector)⟩ := by
  have hitem : ∀ it ∈ PushItem ([] : PriorityQueue R) e (h.distFunc q ep.GetVector),
      ItemOK h q it := by
    intro it hit
    rcases mem_PushItem.mp hit with rfl | hit
    · exact ⟨ep, hep, rfl⟩
    · simp at hit
  refine ⟨PushItem_isHeap isHeap_nil _ _, hitem, hitem, by simp, ?_⟩
  intro x hx
  simp at hx
  subst hx
  exact ⟨ep, hep⟩

/-- What `searchLayer` returns: the ids of queue items that carry their true
distance to `q`, listed in non-decreasing distance. -/
theorem searchLayer_spec (h : HNSW R) (q : List R) (e : Int) (ef level : Int) (l : List Int)
    (hs : searchLayer h q e ef level = some l) :
    ∃ items : List (Item R), l = items.map (fun it => it.NodeID) ∧
      (∀ it ∈ items, ItemOK h q it) ∧
      items.Pairwise (fun a b => a.Distance ≤ b.Distance) := by
  unfold searchLayer at hs
  split at hs
  · simp at hs
  · next ep hep =>
    simp only at hs
    split at hs
    · simp at hs
    · next st hst =>
      simp at hs
      have hinv := searchLoop_inv h q ef level _ _ st (SearchInv_init h q e ep hep) hst
      obtain ⟨items, hd, hp, hsorted⟩ := drain_spec st.results.length st.results hinv.1 (le_refl _)
      refine ⟨items, ?_, ?_, hsorted⟩
      · rw [← hs, hd]
      · intro it hit
        exact hinv.2.1 it (hp.mem_iff.mp hit)

/-- On an index with closed neighbour lists `searchLayer` returns, from any
stored entry point. -/
theorem searchLayer_total (h : HNSW R) (q : List R) (e : Int) (ef level : Int)
    (hclosed : NeighborsClosed h.nodes) (he : Present h.nodes e) :
    ∃ l, searchLayer h q e ef level = some l := by
  obtain ⟨ep, hep⟩ := he
  unfold searchLayer
  rw [hep]
  simp only
  obtain ⟨st, hst⟩ := searchLoop_total h q ef level hclosed (h.nodes.length + 1) _
    (SearchInv_init h q e ep hep) (by simp [PushItem_length]; omega)
  rw [hst]
  exact ⟨_, rfl⟩

theorem searchLayer_present (h : HNSW R) (q : List R) (e : Int) (ef level : Int) (l : List Int)
    (hs : searchLayer h q e ef level = some l) : ∀ x ∈ l, Present h.nodes x := by
  obtain ⟨items, hl, hok, _⟩ := searchLayer_spec h q e ef level l hs
  intro x hx
  rw [hl] at hx
  obtain ⟨it, hit, rfl⟩ := List.mem_map.mp hx
  obtain ⟨nd, hnd, _⟩ := hok it hit
  exact ⟨nd, hnd⟩

end SearchLayer2
end Hnsw
namespace Hnsw

/-! ## selectNeighborsHeuristic: the ids returned are stored -/

section Select

variable {R : Type} [LinearOrderedField R]

theorem pushUnvisited_present (h : HNSW R) (q : List R) (id : Int)
    (acc acc' : List Int × PriorityQueue R)
    (hP : ∀ it ∈ acc.2, Present h.nodes it.NodeID)
    (hp : pushUnvisited h q id acc = some acc') :
    ∀ it ∈ acc'.2, Present h.nodes it.NodeID := by
  unfold pushUnvisited at hp
  split at hp
  · simp at hp
    subst hp
    exact hP
  · split at hp
    · simp at hp
    · next nd hnd =>
      simp at hp
      subst hp
      intro it hit
      rcases mem_PushItem.mp hit with rfl | hit
      · exact ⟨nd, hnd⟩
      · exact hP it hit

theorem forEach_pushUnvisited_present (h : HNSW R) (q : List R) (l : List Int)
    (acc acc' : List Int × PriorityQueue R)
    (hP : ∀ it ∈ acc.2, Present h.nodes it.NodeID)
    (hp : forEach (pushUnvisited h q) l acc = some acc') :
    ∀ it ∈ acc'.2, Present h.nodes it.NodeID :=
  forEach_inv (pushUnvisited h q) (fun s => ∀ it ∈ s.2, Present h.nodes it.NodeID) l acc acc'
    (fun a _ t t' ht hb => pushUnvisited_present h q a t t' ht hb) hP hp

theorem extendCandidatesLoop_present (h : HNSW R) (q : List R) (level : Int) (l : List Int)
    (acc acc' : List Int × PriorityQueue R)
    (hP : ∀ it ∈ acc.2, Present h.nodes it.NodeID)
    (hp : extendCandidatesLoop h q level l acc = some acc') :
    ∀ it ∈ acc'.2, Present h.nodes it.NodeID := by
  unfold extendCandidatesLoop at hp
  refine forEach_inv (extendCandidate h q level)
    (fun s => ∀ it ∈ s.2, Present h.nodes it.NodeID) l acc acc' ?_ hP hp
  intro a _ t t' ht hb
  unfold extendCandidate at hb
  split at hb
  · simp at hb
  · exact forEach_pushUnvisited_present h q _ t t' ht hb

theorem moveAll_mem : ∀ (fuel : Nat) (temp w : PriorityQueue R) (x : Item R),
    x ∈ moveAll fuel temp w → x ∈ temp ∨ x ∈ w := by
  intro fuel
  induction fuel with
  | zero =>
    intro temp w x hx
    exact Or.inr hx
  | succ f ih =>
    intro temp w x hx
    unfold moveAll at hx
    split at hx
    · exact Or.inr hx
    · next hlen =>
      have hne := length_pos_ne_nil hlen
      simp only at hx
      rcases ih _ _ x hx with h1 | h1
      · exact Or.inl (PopItem_snd_mem hne h1)
      · rcases mem_PushItem.mp h1 with rfl | h2
        · exact Or.inl (PopItem_fst_mem hne)
        · exact Or.inr h2

theorem selectLoop_present (h : HNSW R) (M : Int) :
    ∀ (fuel : Nat) (wq : PriorityQueue R) (results : List Int) (dq : PriorityQueue R)
      (r : List Int) (d : PriorityQueue R),
      (∀ it ∈ wq, Present h.nodes it.NodeID) → (∀ x ∈ results, Present h.nodes x) →
      (∀ it ∈ dq, Present h.nodes it.NodeID) →
      selectLoop h M fuel wq results dq = some (r, d) →
      (∀ x ∈ r, Present h.nodes x) ∧ (∀ it ∈ d, Present h.nodes it.NodeID) := by
  intro fuel
  induction fuel with
  | zero =>
    intro wq results dq r d _ hr hd hs
    simp [selectLoop] at hs
    obtain ⟨rfl, rfl⟩ := hs
    exact ⟨hr, hd⟩
  | succ f ih =>
    intro wq results dq r d hw hr hd hs
    unfold selectLoop at hs
    split at hs
    · next hc =>
      have hne : wq ≠ [] := List.length_pos.mp hc.1
      have hpop : Present h.nodes (PopItem wq).1.1 := hw _ (PopItem_fst_mem hne)
      have hw' : ∀ it ∈ (PopItem wq).2, Present h.nodes it.NodeID :=
        fun it hit => hw it (PopItem_snd_mem hne hit)
      simp only at hs
      split at hs
      · simp at hs
      · refine ih _ _ _ r d hw' ?_ hd hs
        intro x hx
        rcases List.mem_append.mp hx with hx | hx
        · exact hr x hx
        · simp at hx
          subst hx
          exact hpop
      · refine ih _ _ _ r d hw' hr ?_ hs
        intro it hit
        rcases mem_PushItem.mp hit with rfl | hit
        · exact hpop
        · exact hd it hit
    · simp at hs
      obtain ⟨rfl, rfl⟩ := hs
      exact ⟨hr, hd⟩

theorem refillLoop_present (nodes : List (Int × Node R)) (M : Int) :
    ∀ (fuel : Nat) (dq : PriorityQueue R) (results : List Int),
      (∀ it ∈ dq, Present nodes it.NodeID) → (∀ x ∈ results, Present nodes x) →
      ∀ x ∈ refillLoop M fuel dq results, Present nodes x := by
  intro fuel
  induction fuel with
  | zero =>
    intro dq results _ hr x hx
    exact hr x hx
  | succ f ih =>
    intro dq results hd hr x hx
    unfold refillLoop at hx
    split at hx
    · next hc =>
      have hne : dq ≠ [] := List.length_pos.mp hc.1
      refine ih _ _ (fun it hit => hd it (PopItem_snd_mem hne hit)) ?_ x hx
      intro y hy
      rcases List.mem_append.mp hy with hy | hy
      · exact hr y hy
      · simp at hy
        subst hy
        exact hd _ (PopItem_fst_mem hne)
    · exact hr x hx

/-- Every id returned by `selectNeighborsHeuristic` is a key of the node map. -/
theorem selectNeighborsHeuristic_present (h : HNSW R) (q : List R) (candidates : List Int)
    (M level : Int) (ext keep : Bool) (l : List Int)
    (hs : selectNeighborsHeuristic h q candidates M level ext keep = some l) :
    ∀ x ∈ l, Present h.nodes x := by
  unfold selectNeighborsHeuristic at hs
  split at hs
  · simp at hs
  · next visited wq hpc =>
    have hwq : ∀ it ∈ wq, Present h.nodes it.NodeID := by
      have := forEach_pushUnvisited_present h q candidates ([], []) (visited, wq)
        (by intro it hit; simp at hit) hpc
      exact this
    simp only at hs
    split at hs
    · simp at hs
    · next wq2 hext =>
      have hwq2 : ∀ it ∈ wq2, Present h.nodes it.NodeID := by
        split at hext
        · split at hext
          · simp at hext
          · next v2 temp hex =>
            simp at hext
            subst hext
            have htemp := extendCandidatesLoop_present h q level candidates (visited, [])
              (v2, temp) (by intro it hit; simp at hit) hex
            intro it hit
            rcases moveAll_mem _ _ _ it hit with h1 | h1
            · exact htemp it h1
            · exact hwq it h1
        · simp at hext
          subst hext
          exact hwq
      split at hs
      · simp at hs
      · split at hs
        · simp at hs
        · next results dq hsl =>
          obtain ⟨hr, hd⟩ := selectLoop_present h M _ wq2 [] [] results dq hwq2
            (by intro x hx; simp at hx) (by intro it hit; simp at hit) hsl
          split at hs
          · simp at hs
            subst hs
            exact refillLoop_present h.nodes M _ dq results hd hr
          · simp at hs
            subst hs
            exact hr

end Select
end Hnsw
namespace Hnsw

/-! ## Insert keeps referential integrity -/

section InsertWF

variable {R : Type} [LinearOrderedField R]

theorem Present_mapSet (nodes : List (Int × Node R)) (k : Int) (v : Node R) (x : Int)
    (hx : Present nodes x) : Present (mapSet nodes k v) x := by
  by_cases hk : x = k
  · subst hk
    exact ⟨v, mapGet_mapSet_same _ _ _⟩
  · obtain ⟨nd, hnd⟩ := hx
    exact ⟨nd, by rw [mapGet_mapSet_ne _ _ _ _ hk]; exact hnd⟩

theorem Present_mapSet_self (nodes : List (Int × Node R)) (k : Int) (v : Node R) :
    Present (mapSet nodes k v) k :=
  ⟨v, mapGet_mapSet_same _ _ _⟩

/-- Where the ids of a node's lists come from after `AddNeighbor`: the added
id, or the same level's list before the call. -/
theorem AddNeighbor_neighbors (n n' : Node R) (level nid : Int)
    (ha : n.AddNeighbor level nid = .ok n') :
    ∀ l ns, mapGet n'.Neighbors l = some ns → ∀ m ∈ ns,
      m = nid ∨ ∃ ns0, mapGet n.Neighbors l = some ns0 ∧ m ∈ ns0 := by
  unfold Node.AddNeighbor at ha
  split at ha
  · simp at ha
  · split at ha
    · simp at ha
    · have hnbs : ∀ l ns, mapGet (match mapGet n.Neighbors level with
          | none => mapSet n.Neighbors level []
          | some _ => n.Neighbors) l = some ns → ∀ m ∈ ns,
          ∃ ns0, mapGet n.Neighbors l = some ns0 ∧ m ∈ ns0 := by
        intro l ns hl m hm
        split at hl
        · by_cases hll : l = level
          · subst hll
            rw [mapGet_mapSet_same] at hl
            simp at hl
            subst hl
            simp at hm
          · rw [mapGet_mapSet_ne _ _ _ _ hll] at hl
            exact ⟨ns, hl, hm⟩
        · exact ⟨ns, hl, hm⟩
      revert ha hnbs
      generalize (match mapGet n.Neighbors level with
          | none => mapSet n.Neighbors level []
          | some _ => n.Neighbors) = nbs
      intro ha hnbs
      simp only at ha
      split at ha
      · simp at ha
        subst ha
        intro l ns hl m hm
        exact Or.inr (hnbs l ns hl m hm)
      · simp at ha
        subst ha
        intro l ns hl m hm
        simp only at hl
        by_cases hll : l = level
        · subst hll
          rw [mapGet_mapSet_same] at hl
          simp at hl
          subst hl
          rcases List.mem_append.mp hm with hm | hm
          · cases hg : mapGet nbs l with
            | none => rw [hg] at hm; simp at hm
            | some cur =>
              rw [hg] at hm
              simp at hm
              exact Or.inr (hnbs l cur hg m hm)
          · simp at hm
            exact Or.inl hm
        · rw [mapGet_mapSet_ne _ _ _ _ hll] at hl
          exact Or.inr (hnbs l ns hl m hm)

theorem addNeighborAt_closed (nodes nodes' : List (Int × Node R)) (key lc nid : Int)
    (hc : NeighborsClosed nodes) (hn : Present nodes nid)
    (ha : addNeighborAt nodes key lc nid = some nodes') :
    NeighborsClosed nodes' ∧ (∀ x, Present nodes x → Present nodes' x) ∧ Present nodes key := by
  unfold addNeighborAt at ha
  split at ha
  · simp at ha
  · next n hkey =>
    split at ha
    · next n' hadd =>
      simp at ha
      subst ha
      refine ⟨?_, fun x hx => Present_mapSet _ _ _ _ hx, ⟨n, hkey⟩⟩
      intro k nd hk l ns hl m hm
      apply Present_mapSet
      by_cases hkk : k = key
      · subst hkk
        rw [mapGet_mapSet_same] at hk
        simp at hk
        subst hk
        rcases AddNeighbor_neighbors n n' lc nid hadd l ns hl m hm with rfl | ⟨ns0, h0, hm0⟩
        · exact hn
        · exact hc k n hkey l ns0 h0 m hm0
      · rw [mapGet_mapSet_ne _ _ _ _ hkk] at hk
        exact hc k nd hk l ns hl m hm
    · simp at ha
      subst ha
      exact ⟨hc, fun _ hx => hx, ⟨n, hkey⟩⟩

theorem linkNeighbor_closed (nodes nodes' : List (Int × Node R)) (id lc nid : Int)
    (hc : NeighborsClosed nodes) (hn : Present nodes nid)
    (hl : linkNeighbor id lc nid nodes = some nodes') :
    NeighborsClosed nodes' ∧ (∀ x, Present nodes x → Present nodes' x) := by
  unfold linkNeighbor at hl
  split at hl
  · simp at hl
  · next nodes1 h1 =>
    obtain ⟨hc1, hp1, hid⟩ := addNeighborAt_closed nodes nodes1 id lc nid hc hn h1
    obtain ⟨hc2, hp2, _⟩ := addNeighborAt_closed nodes1 nodes' nid lc id hc1 (hp1 _ hid) hl
    exact ⟨hc2, fun x hx => hp2 x (hp1 x hx)⟩

theorem linkNeighbors_closed (nodes nodes' : List (Int × Node R)) (id lc : Int)
    (neighbors : List Int) (hc : NeighborsClosed nodes)
    (hn : ∀ x ∈ neighbors, Present nodes x)
    (hl : linkNeighbors id lc neighbors nodes = some nodes') :
    NeighborsClosed nodes' ∧ (∀ x, Present nodes x → Present nodes' x) := by
  unfold linkNeighbors at hl
  refine forEach_inv (linkNeighbor id lc)
    (fun s => NeighborsClosed s ∧ (∀ x, Present nodes x → Present s x)) neighbors nodes nodes'
    ?_ ⟨hc, fun _ hx => hx⟩ hl
  intro a ha t t' ⟨hct, hpt⟩ hb
  obtain ⟨hc', hp'⟩ := linkNeighbor_closed t t' id lc a hct (hpt a (hn a ha)) hb
  exact ⟨hc', fun x hx => hp' x (hpt x hx)⟩

theorem connectLevels_closed (id : Int) (vector : List R) :
    ∀ (n : Nat) (lc currObj : Int) (h h' : HNSW R), NeighborsClosed h.nodes →
      connectLevels id vector n lc currObj h = some h' →
      NeighborsClosed h'.nodes ∧ (∀ x, Present h.nodes x → Present h'.nodes x) ∧
        h'.entryPoint = h.entryPoint ∧ h'.maxLevel = h.maxLevel ∧
        h'.config = h.config ∧ h'.distFunc = h.distFunc := by
  intro n
  induction n with
  | zero =>
    intro lc currObj h h' hc hcl
    simp [connectLevels] at hcl
    subst hcl
    exact ⟨hc, fun _ hx => hx, rfl, rfl, rfl, rfl⟩
  | succ n ih =>
    intro lc currObj h h' hc hcl
    unfold connectLevels at hcl
    split at hcl
    · simp at hcl
    · next candidates hsl =>
      split at hcl
      · simp at hcl
      · next neighbors hsel =>
        split at hcl
        · simp at hcl
        · next nodes hlink =>
          have hpres := selectNeighborsHeuristic_present h vector candidates _ _ _ _ neighbors hsel
          obtain ⟨hc1, hp1⟩ := linkNeighbors_closed h.nodes nodes id lc neighbors hc hpres hlink
          obtain ⟨hc2, hp2, he, hm, hcfg, hd⟩ := ih (lc - 1) id { h with nodes := nodes } h' hc1 hcl
          exact ⟨hc2, fun x hx => hp2 x (hp1 x hx), he, hm, hcfg, hd⟩

/-- Function `Insert` keeps referential integrity. -/
theorem Insert_wellFormed (h : HNSW R) (id : Int) (vector : List R) (level : Int)
    (r : InsertResult R) (hwf : WellFormed h) (hi : Insert h id vector level = some r) :
    WellFormed r.state := by
  obtain ⟨hc, he⟩ := hwf
  unfold Insert at hi
  split at hi
  · simp at hi
    subst hi
    exact ⟨hc, he⟩
  · next hnone =>
    have hgl : (generateLevel h level).2.nodes = h.nodes ∧
        (generateLevel h level).2.entryPoint = h.entryPoint := by
      unfold generateLevel
      split <;> exact ⟨rfl, rfl⟩
    have hc2 : NeighborsClosed (mapSet (generateLevel h level).2.nodes id (NewNode id vector level)) := by
      rw [hgl.1]
      intro k nd hk l ns hl m hm
      by_cases hkk : k = id
      · subst hkk
        rw [mapGet_mapSet_same] at hk
        simp at hk
        subst hk
        simp [NewNode, mapGet] at hl
      · rw [mapGet_mapSet_ne _ _ _ _ hkk] at hk
        exact Present_mapSet _ _ _ _ (hc k nd hk l ns hl m hm)
    simp only at hi
    split at hi
    · simp at hi
      subst hi
      exact ⟨hc2, Or.inr (Present_mapSet_self _ _ _)⟩
    · next hep =>
      split at hi
      · simp at hi
      · next currObj hdesc =>
        split at hi
        · simp at hi
        · next h3 hcl =>
          simp at hi
          subst hi
          obtain ⟨hc3, hp3, he3, _, _, _⟩ := connectLevels_closed id vector _ _ _ _ h3 hc2 hcl
          refine ⟨hc3, Or.inr ?_⟩
          rw [he3]
          apply hp3
          simp only
          rw [hgl.1, hgl.2]
          apply Present_mapSet
          rcases he with ⟨_, h0⟩ | hpe
          · rw [hgl.2] at hep
            exact absurd h0 hep
          · exact hpe

/-- Every reachable index state has referential integrity. -/
theorem Reachable.wellFormed {h : HNSW R} (hr : Reachable h) : WellFormed h := by
  induction hr with
  | new cfg distFunc =>
    refine ⟨?_, Or.inl ⟨rfl, rfl⟩⟩
    intro k nd hk
    simp [mapGet] at hk
  | insert id vector level r _ hi ih => exact Insert_wellFormed _ id vector level r ih hi

end InsertWF
end Hnsw
namespace Hnsw

/-! ## Insert changes neighbour lists only -/

section Frame

variable {R : Type} [LinearOrderedField R]

theorem SameData_refl (nodes : List (Int × Node R)) : SameData nodes nodes :=
  fun _ nd hk => ⟨nd, hk, rfl, rfl, rfl, rfl⟩

theorem SameData_trans {a b c : List (Int × Node R)} (h1 : SameData a b) (h2 : SameData b c) :
    SameData a c := by
  intro k nd hk
  obtain ⟨nd1, hk1, e1, e2, e3, e4⟩ := h1 k nd hk
  obtain ⟨nd2, hk2, f1, f2, f3, f4⟩ := h2 k nd1 hk1
  exact ⟨nd2, hk2, f1.trans e1, f2.trans e2, f3.trans e3, f4.trans e4⟩

theorem AddNeighbor_data (n n' : Node R) (level nid : Int)
    (ha : n.AddNeighbor level nid = .ok n') :
    n'.ID = n.ID ∧ n'.Vector = n.Vector ∧ n'.Level = n.Level ∧ n'.deleted = n.deleted := by
  unfold Node.AddNeighbor at ha
  split at ha
  · simp at ha
  · split at ha
    · simp at ha
    · simp only at ha
      split at ha
      · simp at ha
        subst ha
        exact ⟨rfl, rfl, rfl, rfl⟩
      · simp at ha
        subst ha
        exact ⟨rfl, rfl, rfl, rfl⟩

theorem addNeighborAt_data (nodes nodes' : List (Int × Node R)) (key lc nid : Int)
    (ha : addNeighborAt nodes key lc nid = some nodes') : SameData nodes nodes' := by
  unfold addNeighborAt at ha
  split at ha
  · simp at ha
  · next n hkey =>
    split at ha
    · next n' hadd =>
      simp at ha
      subst ha
      intro k nd hk
      by_cases hkk : k = key
      · subst hkk
        rw [hkey] at hk
        simp at hk
        subst hk
        exact ⟨n', mapGet_mapSet_same _ _ _, AddNeighbor_data n n' lc nid hadd⟩
      · exact ⟨nd, by rw [mapGet_mapSet_ne _ _ _ _ hkk]; exact hk, rfl, rfl, rfl, rfl⟩
    · simp at ha
      subst ha
      exact SameData_refl _

theorem linkNeighbors_data (nodes nodes' : List (Int × Node R)) (id lc : Int)
    (neighbors : List Int) (hl : linkNeighbors id lc neighbors nodes = some nodes') :
    SameData nodes nodes' := by
  unfold linkNeighbors at hl
  refine forEach_inv (linkNeighbor id lc) (fun s => SameData nodes s) neighbors nodes nodes'
    ?_ (SameData_refl _) hl
  intro a _ t t' ht hb
  unfold linkNeighbor at hb
  split at hb
  · simp at hb
  · next nodes1 h1 =>
    exact SameData_trans ht
      (SameData_trans (addNeighborAt_data _ _ _ _ _ h1) (addNeighborAt_data _ _ _ _ _ hb))

theorem connectLevels_data (id : Int) (vector : List R) :
    ∀ (n : Nat) (lc currObj : Int) (h h' : HNSW R),
      connectLevels id vector n lc currObj h = some h' →
      SameData h.nodes h'.nodes ∧ h'.entryPoint = h.entryPoint ∧ h'.maxLevel = h.maxLevel ∧
        h'.config = h.config ∧ h'.distFunc = h.distFunc := by
  intro n
  induction n with
  | zero =>
    intro lc currObj h h' hcl
    simp [connectLevels] at hcl
    subst hcl
    exact ⟨SameData_refl _, rfl, rfl, rfl, rfl⟩
  | succ n ih =>
    intro lc currObj h h' hcl
    unfold connectLevels at hcl
    split at hcl
    · simp at hcl
    · split at hcl
      · simp at hcl
      · next neighbors _ =>
        split at hcl
        · simp at hcl
        · next nodes hlink =>
          obtain ⟨hd, he, hm, hcfg, hdf⟩ := ih (lc - 1) id { h with nodes := nodes } h' hcl
          exact ⟨SameData_trans (linkNeighbors_data h.nodes nodes id lc neighbors hlink) hd,
            he, hm, hcfg, hdf⟩

/-- A successful `Insert` stores the vector under the id, keeps the data of
the nodes stored before, and keeps the distance function and configuration. -/
theorem Insert_stores (h : HNSW R) (id : Int) (vector : List R) (level : Int)
    (r : InsertResult R) (hi : Insert h id vector level = some r) (herr : r.err = false) :
    (∃ nd, mapGet r.state.nodes id = some nd ∧ nd.Vector = vector ∧ nd.Level = level) ∧
      mapGet h.nodes id = none ∧ SameData h.nodes r.state.nodes ∧
      r.state.distFunc = h.distFunc ∧ r.state.config = h.config := by
  unfold Insert at hi
  split at hi
  · simp at hi
    subst hi
    simp at herr
  · next hnone =>
    have hgl : (generateLevel h level).2.nodes = h.nodes ∧
        (generateLevel h level).2.distFunc = h.distFunc ∧
        (generateLevel h level).2.config = h.config := by
      unfold generateLevel
      split <;> exact ⟨rfl, rfl, rfl⟩
    have hsd : SameData h.nodes (mapSet h.nodes id (NewNode id vector level)) := by
      intro k nd hk
      have hne : k ≠ id := by
        intro hc
        subst hc
        rw [hnone] at hk
        simp at hk
      exact ⟨nd, by rw [mapGet_mapSet_ne _ _ _ _ hne]; exact hk, rfl, rfl, rfl, rfl⟩
    simp only at hi
    split at hi
    · simp at hi
      subst hi
      refine ⟨⟨NewNode id vector level, mapGet_mapSet_same _ _ _, rfl, rfl⟩, hnone, ?_,
        hgl.2.1, hgl.2.2⟩
      simp only
      rw [hgl.1]
      exact hsd
    · split at hi
      · simp at hi
      · split at hi
        · simp at hi
        · next h3 hcl =>
          simp at hi
          subst hi
          obtain ⟨hd, _, _, hcfg, hdf⟩ := connectLevels_data id vector _ _ _ _ h3 hcl
          simp only at hd hcfg hdf
          rw [hgl.1] at hd
          obtain ⟨nd', hk', _, hv, hlv, _⟩ := hd id (NewNode id vector level)
            (mapGet_mapSet_same _ _ _)
          exact ⟨⟨nd', hk', hv, hlv⟩, hnone, SameData_trans hsd hd, hdf.trans hgl.2.1,
            hcfg.trans hgl.2.2⟩

end Frame
end Hnsw
namespace Hnsw

/-! ## The search entry points -/

section SearchEntry

variable {R : Type} [LinearOrderedField R]

theorem scanNeighbors_total (h : HNSW R) (q : List R) (currNode : Node R) (ns : List Int)
    (acc : Int × Bool) (hns : ∀ x ∈ ns, Present h.nodes x) (hacc : Present h.nodes acc.1) :
    ∃ acc', scanNeighbors h q currNode ns acc = some acc' ∧ Present h.nodes acc'.1 := by
  unfold scanNeighbors
  refine forEach_total (scanNeighbor h q currNode) (fun s => Present h.nodes s.1) ns acc ?_ hacc
  intro a ha t ht
  obtain ⟨nb, hnb⟩ := hns a ha
  unfold scanNeighbor
  rw [hnb]
  simp only
  split
  · exact ⟨_, rfl, ⟨nb, hnb⟩⟩
  · exact ⟨_, rfl, ht⟩

/-- The greedy descent returns a stored id on an index with closed neighbour
lists. -/
theorem descend_total (h : HNSW R) (q : List R) (hc : NeighborsClosed h.nodes) :
    ∀ (n : Nat) (lc c : Int), Present h.nodes c →
      ∃ c', descend h q n lc c = some c' ∧ Present h.nodes c' := by
  intro n
  induction n with
  | zero =>
    intro lc c hp
    exact ⟨c, rfl, hp⟩
  | succ n ih =>
    intro lc c hp
    obtain ⟨nd, hnd⟩ := hp
    unfold descend
    rw [hnd]
    simp only
    have hns : ∀ x ∈ (mapGet nd.Neighbors lc).getD [], Present h.nodes x := by
      intro x hx
      cases hg : mapGet nd.Neighbors lc with
      | none => rw [hg] at hx; simp at hx
      | some ns =>
        rw [hg] at hx
        exact hc c nd hnd lc ns hg x hx
    obtain ⟨acc', hacc', hp'⟩ := scanNeighbors_total h q nd _ (c, false) hns ⟨nd, hnd⟩
    rw [hacc']
    obtain ⟨c1, ch⟩ := acc'
    simp only
    split
    · exact ih _ _ hp'
    · exact ⟨_, rfl, hp'⟩

/-- The descent of `KNNSearch` returns a stored id on an index with closed
neighbour lists. -/
theorem knnDescend_total (h : HNSW R) (q : List R) (hc : NeighborsClosed h.nodes) :
    ∀ (n : Nat) (level c : Int), Present h.nodes c →
      ∃ c', knnDescend h q n level c = some c' ∧ Present h.nodes c' := by
  intro n
  induction n with
  | zero =>
    intro level c hp
    exact ⟨c, rfl, hp⟩
  | succ n ih =>
    intro level c hp
    obtain ⟨l, hl⟩ := searchLayer_total h q c 1 level hc hp
    unfold knnDescend
    rw [hl]
    simp only
    cases l with
    | nil => exact ih _ _ hp
    | cons x rest =>
      exact ih _ _ (searchLayer_present h q c 1 level _ hl x (List.mem_cons_self _ _))

/-- The distances recomputed for a list of stored ids: one per id, in order,
each the distance from `q` to the stored vector of that id. -/
theorem distancesOf_spec (h : HNSW R) (q : List R) :
    ∀ (ids : List Int) (ds : List (WithTop R)), distancesOf h q ids = some ds →
      ds.length = ids.length ∧
      ∀ (i : Nat) (id : Int), ids[i]? = some id →
        ∃ nd, mapGet h.nodes id = some nd ∧ ds[i]? = some (h.distFunc q nd.Vector) := by
  intro ids
  induction ids with
  | nil =>
    intro ds hd
    simp [distancesOf] at hd
    subst hd
    simp
  | cons x rest ih =>
    intro ds hd
    unfold distancesOf at hd
    split at hd
    · simp at hd
    · next nd hnd =>
      split at hd
      · simp at hd
      · next ds' hds' =>
        simp at hd
        subst hd
        obtain ⟨hl, hi⟩ := ih ds' hds'
        refine ⟨by simp [hl], ?_⟩
        intro i id hid
        cases i with
        | zero =>
          simp at hid
          subst hid
          exact ⟨nd, hnd, by simp [Node.GetVector]⟩
        | succ i =>
          simp at hid
          obtain ⟨nd', h1, h2⟩ := hi i id hid
          exact ⟨nd', h1, by simpa using h2⟩

/-- On ids that come from queue items with true distances, the recomputed
distances are the distances carried by the items. -/
theorem distancesOf_items (h : HNSW R) (q : List R) :
    ∀ (items : List (Item R)), (∀ it ∈ items, ItemOK h q it) →
      distancesOf h q (items.map (fun it => it.NodeID)) = some (items.map (fun it => it.Distance)) := by
  intro items
  induction items with
  | nil => intro _; rfl
  | cons it rest ih =>
    intro hok
    obtain ⟨nd, hnd, hd⟩ := hok it (List.mem_cons_self _ _)
    simp only [List.map_cons]
    unfold distancesOf
    rw [hnd]
    simp only
    rw [ih (fun x hx => hok x (List.mem_cons_of_mem _ hx))]
    simp [hd]

/-- What `KNNSearch` returns on an index with referential integrity, for
`K ≥ 0`: the ids of at most `K` queue items that carry their true distance to
`q`, listed in non-decreasing distance. -/
theorem KNNSearch_spec (h : HNSW R) (q : List R) (K ef : Int) (hwf : WellFormed h)
    (hK : 0 ≤ K) :
    ∃ items : List (Item R), KNNSearch h q K ef = some (items.map (fun it => it.NodeID)) ∧
      (∀ it ∈ items, ItemOK h q it) ∧
      items.Pairwise (fun a b => a.Distance ≤ b.Distance) ∧ (items.length : Int) ≤ K := by
  obtain ⟨hc, he⟩ := hwf
  unfold KNNSearch
  split
  · exact ⟨[], rfl, by simp, List.Pairwise.nil, by simpa using hK⟩
  · next hlen =>
    split
    · exact ⟨[], rfl, by simp, List.Pairwise.nil, by simpa using hK⟩
    · have hpe : Present h.nodes h.entryPoint := by
        rcases he with ⟨h0, _⟩ | hp
        · rw [h0] at hlen
          simp at hlen
        · exact hp
      obtain ⟨c, hcd, hpc⟩ := knnDescend_total h q hc h.maxLevel.toNat h.maxLevel _ hpe
      rw [hcd]
      simp only
      obtain ⟨l, hl⟩ := searchLayer_total h q c ef 0 hc hpc
      rw [hl]
      simp only
      obtain ⟨items, hli, hok, hs⟩ := searchLayer_spec h q c ef 0 l hl
      have hK' : ¬ (if K > (l.length : Int) then (l.length : Int) else K) < 0 := by
        split <;> omega
      rw [if_neg hK']
      refine ⟨items.take (if K > (l.length : Int) then (l.length : Int) else K).toNat, ?_, ?_, ?_, ?_⟩
      · rw [hli, List.map_take]
      · intro it hit
        exact hok it (List.mem_of_mem_take hit)
      · exact hs.sublist (List.take_sublist _ _)
      · rw [List.length_take]
        split <;> omega

end SearchEntry
end Hnsw
namespace Hnsw

/-! ## An index with a single, unlinked node -/

section Single

variable {R : Type} [LinearOrderedField R]

theorem PushItem_nil (id : Int) (d : WithTop R) :
    PushItem ([] : PriorityQueue R) id d = [⟨id, d⟩] := by
  simp [PushItem, heapPush, Push, up]

theorem PopItem_singleton (x : Item R) :
    PopItem [x] = ((x.NodeID, x.Distance), []) := by
  simp [PopItem, heapPop, Swap, down, Pop]

/-- On an index whose only node has no neighbour list, `searchLayer` from that
node returns just that node. -/
theorem searchLayer_single (h : HNSW R) (q : List R) (id : Int) (nd : Node R) (ef level : Int)
    (hn : h.nodes = [(id, nd)]) (hnb : nd.Neighbors = []) :
    searchLayer h q id ef level = some [id] := by
  have hget : mapGet h.nodes id = some nd := by simp [hn, mapGet]
  have hgn : (match nd.GetNeighbors level with
      | .ok ns => ns
      | .error _ => []) = [] := by
    unfold Node.GetNeighbors
    rw [hnb]
    by_cases hd : nd.deleted = true <;> simp [mapGet, hd]
  unfold searchLayer
  rw [hget]
  simp only [PushItem_nil, hn, List.length_singleton]
  have hloop : searchLoop h q ef level (1 + 1)
      ⟨[id], [⟨id, h.distFunc q nd.GetVector⟩], [⟨id, h.distFunc q nd.GetVector⟩]⟩
      = some ⟨[id], [], [⟨id, h.distFunc q nd.GetVector⟩]⟩ := by
    unfold searchLoop
    simp only [List.length_singleton, PopItem_singleton, Top]
    simp only [List.getElem?_cons_zero, gt_iff_lt, lt_self_iff_false, decide_False, hget, hgn,
      visitNeighbors, forEach]
    unfold searchLoop
    simp
  rw [hloop]
  simp [drain, PopItem_singleton]

theorem knnDescend_single (h : HNSW R) (q : List R) (id : Int) (nd : Node R)
    (hn : h.nodes = [(id, nd)]) (hnb : nd.Neighbors = []) :
    ∀ (n : Nat) (level : Int), knnDescend h q n level id = some id := by
  intro n
  induction n with
  | zero => intro level; rfl
  | succ n ih =>
    intro level
    unfold knnDescend
    rw [searchLayer_single h q id nd 1 level hn hnb]
    exact ih _

/-- After the first insertion into an empty index, with a non-zero id, a
query for at least one neighbour returns that id and the distance from the
query to the inserted vector. -/
theorem first_insert_search (h : HNSW R) (id : Int) (vector q : List R) (level K ef : Int)
    (hn : h.nodes = []) (he : h.entryPoint = 0) (hid : id ≠ 0) (hK : 1 ≤ K) :
    ∃ r, Insert h id vector level = some r ∧ r.err = false ∧
      r.state.nodes = [(id, NewNode id vector level)] ∧
      KNNSearchWithDistances r.state q K ef = some ([id], [h.distFunc q vector]) := by
  have hgl : (generateLevel h level).2.nodes = h.nodes ∧
      (generateLevel h level).2.entryPoint = h.entryPoint ∧
      (generateLevel h level).2.distFunc = h.distFunc := by
    unfold generateLevel
    split <;> exact ⟨rfl, rfl, rfl⟩
  refine ⟨⟨false, { (generateLevel h level).2 with
      nodes := [(id, NewNode id vector level)], entryPoint := id }⟩, ?_, rfl, rfl, ?_⟩
  · unfold Insert
    simp only [hn, mapGet]
    rw [if_pos (by rw [hgl.2.1]; exact he)]
    simp [hgl.1, hn, mapSet]
  · have hnodes : ({ (generateLevel h level).2 with
        nodes := [(id, NewNode id vector level)], entryPoint := id } : HNSW R).nodes
        = [(id, NewNode id vector level)] := rfl
    unfold KNNSearchWithDistances KNNSearch
    simp only [hnodes, List.length_singleton]
    rw [if_neg (by decide), if_neg hid]
    rw [knnDescend_single _ q id (NewNode id vector level) hnodes rfl]
    simp only
    rw [searchLayer_single _ q id (NewNode id vector level) ef 0 hnodes rfl]
    simp only [List.length_singleton]
    have hK1 : (if K > ((1 : Nat) : Int) then ((1 : Nat) : Int) else K) = 1 := by
      split <;> omega
    rw [hK1]
    simp [distancesOf, mapGet, NewNode, Node.GetVector, hgl.2.2]

theorem ManhattanDistance_self (v : List R) : ManhattanDistance v v = 0 := by
  have hfold : ∀ (l : List R) (s : R),
      (List.zip l l).foldl (fun sum p => sum + |p.1 - p.2|) s = s := by
    intro l
    induction l with
    | nil => intro s; rfl
    | cons a l ih =>
      intro s
      simp [ih]
  unfold ManhattanDistance
  simp [hfold]

theorem EuclideanDistance_self (sqrt : R → R) (hs : sqrt 0 = 0) (v : List R) :
    EuclideanDistance sqrt v v = 0 := by
  have hfold : ∀ (l : List R) (s : R),
      (List.zip l l).foldl (fun sum p => sum + (p.1 - p.2) * (p.1 - p.2)) s = s := by
    intro l
    induction l with
    | nil => intro s; rfl
    | cons a l ih =>
      intro s
      simp [ih]
  unfold EuclideanDistance
  simp [hfold, hs]

end Single
end Hnsw
namespace Hnsw

/-! ## Shapes of the search results -/

section Shapes

variable {R : Type} [LinearOrderedField R]

theorem distancesOf_total (h : HNSW R) (q : List R) :
    ∀ (ids : List Int), (∀ x ∈ ids, Present h.nodes x) → ∃ ds, distancesOf h q ids = some ds := by
  intro ids
  induction ids with
  | nil => intro _; exact ⟨[], rfl⟩
  | cons x rest ih =>
    intro hp
    obtain ⟨nd, hnd⟩ := hp x (List.mem_cons_self _ _)
    obtain ⟨ds, hds⟩ := ih (fun y hy => hp y (List.mem_cons_of_mem _ hy))
    unfold distancesOf
    rw [hnd, hds]
    exact ⟨_, rfl⟩

/-- On an index with referential integrity `KNNSearch` is a prefix of one
list that does not depend on `K`. -/
theorem KNNSearch_take (h : HNSW R) (q : List R) (ef : Int) (hwf : WellFormed h) :
    ∃ fr : List Int, ∀ K : Int, 0 ≤ K → KNNSearch h q K ef = some (fr.take K.toNat) := by
  obtain ⟨hc, he⟩ := hwf
  by_cases hlen : h.nodes.length = 0
  · refine ⟨[], fun K _ => ?_⟩
    unfold KNNSearch
    rw [if_pos hlen]
    simp
  · by_cases hep : h.entryPoint = 0
    · refine ⟨[], fun K _ => ?_⟩
      unfold KNNSearch
      rw [if_neg hlen, if_pos hep]
      simp
    · have hpe : Present h.nodes h.entryPoint := by
        rcases he with ⟨h0, _⟩ | hp
        · rw [h0] at hlen
          simp at hlen
        · exact hp
      obtain ⟨c, hcd, hpc⟩ := knnDescend_total h q hc h.maxLevel.toNat h.maxLevel _ hpe
      obtain ⟨l, hl⟩ := searchLayer_total h q c ef 0 hc hpc
      refine ⟨l, fun K hK => ?_⟩
      unfold KNNSearch
      rw [if_neg hlen, if_neg hep, hcd]
      simp only
      rw [hl]
      simp only
      have hK' : ¬ (if K > (l.length : Int) then (l.length : Int) else K) < 0 := by
        split <;> omega
      rw [if_neg hK']
      congr 1
      split
      · next hgt =>
        rw [Int.toNat_ofNat, List.take_length]
        exact (List.take_of_length_le (by omega)).symm
      · rfl

/-- On an index that stores a node, `Search` fails for every `k` that `make`
refuses. -/
theorem Search_refused (h : HNSW R) (q : List R) (k : Int) (hne : h.nodes.length ≠ 0)
    (hp : makePanics k = true) : Search h q k = none := by
  unfold Search
  rw [if_neg hne]
  split
  · rfl
  · split
    · rfl
    · simp [hp]

/-- What `Search` returns on an index with referential integrity, for
`0 ≤ k ≤ maxSliceCap`. -/
theorem Search_spec (h : HNSW R) (q : List R) (k : Int) (hwf : WellFormed h) (hk : 0 ≤ k)
    (hk2 : k ≤ maxSliceCap) :
    ∃ ids ds, Search h q k = some (ids, ds) ∧ (ids.length : Int) ≤ k ∧
      distancesOf h q ids = some ds := by
  obtain ⟨hc, he⟩ := hwf
  unfold Search
  split
  · exact ⟨[], [], rfl, by simpa using hk, rfl⟩
  · next hlen =>
    have hpe : Present h.nodes h.entryPoint := by
      rcases he with ⟨h0, _⟩ | hp
      · rw [h0] at hlen
        simp at hlen
      · exact hp
    obtain ⟨c, hcd, hpc⟩ := descend_total h q hc h.maxLevel.toNat h.maxLevel _ hpe
    rw [hcd]
    simp only
    obtain ⟨l, hl⟩ := searchLayer_total h q c (wrap64 (k * 2)) 0 hc hpc
    rw [hl]
    simp only
    rw [(makePanics_eq_false_iff k).mpr ⟨hk, hk2⟩]
    simp only [Bool.false_eq_true, if_false]
    have hp := searchLayer_present h q c (wrap64 (k * 2)) 0 l hl
    obtain ⟨ds, hds⟩ := distancesOf_total h q (l.take k.toNat)
      (fun x hx => hp x (List.mem_of_mem_take hx))
    rw [hds]
    refine ⟨_, _, rfl, ?_, hds⟩
    rw [List.length_take]
    omega

theorem eq_singleton_of_length_one {α : Type} (l : List α) (a : α) (hl : l.length = 1)
    (h0 : l[0]? = some a) : l = [a] := by
  cases l with
  | nil => simp at hl
  | cons x rest =>
    cases rest with
    | nil =>
      simp at h0
      rw [h0]
    | cons y rest => simp at hl

theorem Reachable_insertMany (ops : List (Int × List R × Int)) :
    ∀ (h : HNSW R), Reachable h → Reachable (insertMany h ops) := by
  induction ops with
  | nil => intro h hr; exact hr
  | cons op rest ih =>
    intro h hr
    obtain ⟨id, vector, level⟩ := op
    unfold insertMany
    split
    · next r hi => exact ih r.state (Reachable.insert id vector level r hr hi)
    · exact hr

theorem eq_some_getD {α : Type} (o : Option α) (d : α) (h : o.isSome = true) :
    o = some (o.getD d) := by
  cases o with
  | none => simp at h
  | some a => rfl

/-- The empty Manhattan index is what `New` returns for the metric name
`"manhattan"`. -/
theorem New_manhattan (sqrt : ℚ → ℚ) : New sqrt exampleConfig Manhattan = some emptyManhattan := by
  unfold New GetDistanceFunction
  rw [if_neg (by decide), if_pos rfl]
  rfl

/-- The empty Euclidean index is what `New` returns for the metric name
`"euclidean"`. -/
theorem New_euclidean (sqrt : ℚ → ℚ) :
    New sqrt exampleConfig Euclidean = some (emptyEuclidean sqrt) := by
  unfold New GetDistanceFunction
  rw [if_pos rfl]
  rfl

theorem Reachable_emptyManhattan : Reachable emptyManhattan :=
  Reachable.new exampleConfig ManhattanDistance

end Shapes
end Hnsw
namespace Hnsw

/-! ## Node methods -/

section NodeLemmas

variable {R : Type}

theorem mem_mapSet {β : Type} (m : List (Int × β)) (k : Int) (v : β) (p : Int × β)
    (hp : p ∈ mapSet m k v) : p = (k, v) ∨ p ∈ m := by
  induction m with
  | nil =>
    simp [mapSet] at hp
    exact Or.inl hp
  | cons x m ih =>
    obtain ⟨k0, v0⟩ := x
    unfold mapSet at hp
    split at hp
    · rcases List.mem_cons.mp hp with h1 | h1
      · exact Or.inl h1
      · exact Or.inr (List.mem_cons_of_mem _ h1)
    · rcases List.mem_cons.mp hp with h1 | h1
      · exact Or.inr (h1 ▸ List.mem_cons_self _ _)
      · rcases ih h1 with h2 | h2
        · exact Or.inl h2
        · exact Or.inr (List.mem_cons_of_mem _ h2)

theorem mapGet_mem {β : Type} (m : List (Int × β)) (k : Int) (v : β)
    (h : mapGet m k = some v) : (k, v) ∈ m := by
  induction m with
  | nil => simp [mapGet] at h
  | cons x m ih =>
    obtain ⟨k0, v0⟩ := x
    unfold mapGet at h
    split at h
    · next hk =>
      simp at h
      subst hk
      subst h
      exact List.mem_cons_self _ _
    · exact List.mem_cons_of_mem _ (ih h)

theorem mapSet_levelBounded (n : Node R) (level : Int) (ns : List Int)
    (hb : LevelBounded n) (h0 : 0 ≤ level) (h1 : level ≤ n.Level) :
    LevelBounded { n with Neighbors := mapSet n.Neighbors level ns } := by
  intro p hp
  rcases mem_mapSet _ _ _ _ hp with rfl | hp
  · exact ⟨h0, h1⟩
  · exact hb p hp

/-- When `AddNeighbor` fails. -/
theorem AddNeighbor_error_iff (n : Node R) (level nid : Int) :
    (∃ e, n.AddNeighbor level nid = .error e) ↔
      (n.deleted = true ∨ level < 0 ∨ level > n.Level) := by
  unfold Node.AddNeighbor
  by_cases hd : n.deleted = true
  · simp [hd]
  · by_cases hl : level < 0 ∨ level > n.Level
    · simp [hd, hl]
    · simp only [hd, hl, if_false, or_self, iff_false, Bool.false_eq_true]
      rintro ⟨e, he⟩
      split at he <;> simp at he

/-- What a successful `AddNeighbor` writes. -/
theorem AddNeighbor_ok (n n' : Node R) (level nid : Int)
    (ha : n.AddNeighbor level nid = .ok n') :
    n'.levelList level =
        (if nid ∈ n.levelList level then n.levelList level else n.levelList level ++ [nid]) ∧
      (∀ l, l ≠ level → mapGet n'.Neighbors l = mapGet n.Neighbors l) ∧
      (∀ p ∈ n'.Neighbors, p.1 = level ∨ p ∈ n.Neighbors) ∧
      0 ≤ level ∧ level ≤ n.Level ∧ n.deleted = false := by
  unfold Node.AddNeighbor at ha
  split at ha
  · simp at ha
  · next hdel =>
    split at ha
    · simp at ha
    · next hlv =>
      have hnbs : (mapGet (match mapGet n.Neighbors level with
            | none => mapSet n.Neighbors level []
            | some _ => n.Neighbors) level).getD [] = n.levelList level ∧
          (∀ l, l ≠ level → mapGet (match mapGet n.Neighbors level with
            | none => mapSet n.Neighbors level []
            | some _ => n.Neighbors) l = mapGet n.Neighbors l) ∧
          (∀ p ∈ (match mapGet n.Neighbors level with
            | none => mapSet n.Neighbors level []
            | some _ => n.Neighbors), p.1 = level ∨ p ∈ n.Neighbors) := by
        unfold Node.levelList
        cases hg : mapGet n.Neighbors level with
        | none =>
          simp only
          refine ⟨by simp [mapGet_mapSet_same], fun l hl => mapGet_mapSet_ne _ _ _ _ hl, ?_⟩
          intro p hp
          rcases mem_mapSet _ _ _ _ hp with rfl | hp
          · exact Or.inl rfl
          · exact Or.inr hp
        | some ns =>
          refine ⟨?_, ?_, ?_⟩
          · show (mapGet n.Neighbors level).getD [] = (some ns).getD []
            rw [hg]
          · intro l _
            rfl
          · intro p hp
            exact Or.inr hp
      revert ha hnbs
      generalize (match mapGet n.Neighbors level with
          | none => mapSet n.Neighbors level []
          | some _ => n.Neighbors) = nbs
      intro ha ⟨hcur, hother, hmem⟩
      have hrange : 0 ≤ level ∧ level ≤ n.Level := by
        constructor <;> omega
      have hdel' : n.deleted = false := by simpa using hdel
      simp only at ha
      rw [hcur] at ha
      split at ha
      · next hin =>
        simp at ha
        subst ha
        refine ⟨?_, hother, hmem, hrange.1, hrange.2, hdel'⟩
        rw [if_pos hin]
        exact hcur
      · next hin =>
        simp at ha
        subst ha
        refine ⟨?_, ?_, ?_, hrange.1, hrange.2, hdel'⟩
        · rw [if_neg hin]
          unfold Node.levelList
          simp only
          rw [mapGet_mapSet_same]
          rfl
        · intro l hl
          simp only
          rw [mapGet_mapSet_ne _ _ _ _ hl]
          exact hother l hl
        · intro p hp
          rcases mem_mapSet _ _ _ _ hp with rfl | hp
          · exact Or.inl rfl
          · exact hmem p hp

theorem AddNeighbor_levelBounded (n n' : Node R) (level nid : Int) (hb : LevelBounded n)
    (ha : n.AddNeighbor level nid = .ok n') : LevelBounded n' := by
  obtain ⟨_, _, hmem, h0, h1, _⟩ := AddNeighbor_ok n n' level nid ha
  have hlv : n'.Level = n.Level := by
    unfold Node.AddNeighbor at ha
    split at ha
    · simp at ha
    · split at ha
      · simp at ha
      · simp only at ha
        split at ha <;> (simp at ha; subst ha; rfl)
  intro p hp
  rw [hlv]
  rcases hmem p hp with h | h
  · rw [h]
    exact ⟨h0, h1⟩
  · exact hb p h

theorem RemoveNeighbor_levelBounded (n n' : Node R) (level nid : Int) (hb : LevelBounded n)
    (ha : n.RemoveNeighbor level nid = .ok n') : LevelBounded n' := by
  unfold Node.RemoveNeighbor at ha
  split at ha
  · simp at ha
  · split at ha
    · simp at ha
    · next neighbors hg =>
      split at ha
      · simp at ha
        subst ha
        have hmemb := hb _ (mapGet_mem _ _ _ hg)
        exact mapSet_levelBounded n level _ hb hmemb.1 hmemb.2
      · simp at ha

theorem SetNeighbors_levelBounded (n n' : Node R) (level : Int) (ns : List Int)
    (hb : LevelBounded n) (ha : n.SetNeighbors level ns = .ok n') : LevelBounded n' := by
  unfold Node.SetNeighbors at ha
  split at ha
  · simp at ha
  · split at ha
    · simp at ha
    · next hlv =>
      simp at ha
      subst ha
      exact mapSet_levelBounded n level _ hb (by omega) (by omega)

theorem ClearNeighbors_levelBounded (n n' : Node R) (level : Int)
    (hb : LevelBounded n) (ha : n.ClearNeighbors level = .ok n') : LevelBounded n' := by
  unfold Node.ClearNeighbors at ha
  split at ha
  · simp at ha
  · split at ha
    · simp at ha
    · next hlv =>
      simp at ha
      subst ha
      exact mapSet_levelBounded n level _ hb (by omega) (by omega)

theorem apply_levelBounded (n : Node R) (op : NodeOp) (hb : LevelBounded n) :
    LevelBounded (n.apply op) := by
  cases op with
  | add level nid =>
    simp only [Node.apply]
    split
    · next n' h => exact AddNeighbor_levelBounded n n' level nid hb h
    · exact hb
  | remove level nid =>
    simp only [Node.apply]
    split
    · next n' h => exact RemoveNeighbor_levelBounded n n' level nid hb h
    · exact hb
  | set level ns =>
    simp only [Node.apply]
    split
    · next n' h => exact SetNeighbors_levelBounded n n' level ns hb h
    · exact hb
  | clear level =>
    simp only [Node.apply]
    split
    · next n' h => exact ClearNeighbors_levelBounded n n' level hb h
    · exact hb

theorem apply_Level (n : Node R) (op : NodeOp) : (n.apply op).Level = n.Level := by
  cases op with
  | add level nid =>
    simp only [Node.apply]
    unfold Node.AddNeighbor
    split
    · next n' h =>
      split at h
      · simp at h
      · split at h
        · simp at h
        · simp only at h
          split at h <;> (simp at h; subst h; rfl)
    · rfl
  | remove level nid =>
    simp only [Node.apply]
    unfold Node.RemoveNeighbor
    split
    · next n' h =>
      split at h
      · simp at h
      · split at h
        · simp at h
        · split at h
          · simp at h
            subst h
            rfl
          · simp at h
    · rfl
  | set level ns =>
    simp only [Node.apply]
    unfold Node.SetNeighbors
    split
    · next n' h =>
      split at h
      · simp at h
      · split at h
        · simp at h
        · simp at h
          subst h
          rfl
    · rfl
  | clear level =>
    simp only [Node.apply]
    unfold Node.ClearNeighbors
    split
    · next n' h =>
      split at h
      · simp at h
      · split at h
        · simp at h
        · simp at h
          subst h
          rfl
    · rfl

theorem applyAll_levelBounded (ops : List NodeOp) :
    ∀ (n : Node R), LevelBounded n →
      LevelBounded (n.applyAll ops) ∧ (n.applyAll ops).Level = n.Level := by
  induction ops with
  | nil => intro n hb; exact ⟨hb, rfl⟩
  | cons op rest ih =>
    intro n hb
    obtain ⟨h1, h2⟩ := ih (n.apply op) (apply_levelBounded n op hb)
    exact ⟨h1, h2.trans (apply_Level n op)⟩

theorem levelBounded_no_entry (n : Node R) (hb : LevelBounded n) (l : Int)
    (hl : l < 0 ∨ l > n.Level) : mapGet n.Neighbors l = none := by
  cases hg : mapGet n.Neighbors l with
  | none => rfl
  | some ns =>
    have := hb _ (mapGet_mem _ _ _ hg)
    simp only at this
    omega

end NodeLemmas
end Hnsw
namespace Hnsw

/-! ## searchLayer: distinct ids, at most ef of them -/

section Results

variable {R : Type} [LinearOrderedField R]

theorem visitNeighbor_results (h : HNSW R) (q : List R) (ef : Int) (x : Int)
    (st st' : SearchState R) (hinv : ResultsInv ef st)
    (hv : visitNeighbor h q ef x st = some st') : ResultsInv ef st' := by
  obtain ⟨hnd, hsub, hlen⟩ := hinv
  unfold visitNeighbor at hv
  split at hv
  · simp at hv
    subst hv
    exact ⟨hnd, hsub, hlen⟩
  · next hnot =>
    split at hv
    · simp at hv
    · next nb hnb =>
      have hfresh : x ∉ st.results.map (fun it => it.NodeID) := by
        intro hc
        obtain ⟨it, hit, hid⟩ := List.mem_map.mp hc
        exact hnot (hid ▸ hsub it hit)
      have hperm := PushItem_perm st.results x (h.distFunc q nb.GetVector)
      have hnd1 : ((PushItem st.results x (h.distFunc q nb.GetVector)).map
          (fun it => it.NodeID)).Nodup := by
        rw [(hperm.map _).nodup_iff]
        simp only [List.map_cons]
        exact List.nodup_cons.mpr ⟨hfresh, hnd⟩
      have hsub1 : ∀ it ∈ PushItem st.results x (h.distFunc q nb.GetVector),
          it.NodeID ∈ x :: st.visited := by
        intro it hit
        rcases mem_PushItem.mp hit with rfl | hit
        · exact List.mem_cons_self _ _
        · exact List.mem_cons_of_mem _ (hsub it hit)
      simp only at hv
      split at hv
      · split at hv
        · next hgt =>
          split at hv
          · simp at hv
          · next it results' hpop =>
            simp at hv
            subst hv
            have hp2 := Pop_perm hpop
            have hnd2 := (hp2.map (fun it => it.NodeID)).nodup_iff.mp hnd1
            simp only [List.map_cons] at hnd2
            refine ⟨(List.nodup_cons.mp hnd2).2, ?_, ?_⟩
            · intro it' hit'
              exact hsub1 it' (mem_of_Pop hpop hit')
            · have hl2 := Pop_length hpop
              have hl1 := PushItem_length st.results x (h.distFunc q nb.GetVector)
              simp only
              omega
        · next hle =>
          simp at hv
          subst hv
          refine ⟨hnd1, hsub1, ?_⟩
          simp only
          omega
      · simp at hv
        subst hv
        exact ⟨hnd, fun it hit => List.mem_cons_of_mem _ (hsub it hit), hlen⟩

theorem visitNeighbors_results (h : HNSW R) (q : List R) (ef : Int) (ns : List Int)
    (st st' : SearchState R) (hinv : ResultsInv ef st)
    (hv : visitNeighbors h q ef ns st = some st') : ResultsInv ef st' := by
  unfold visitNeighbors at hv
  exact forEach_inv (visitNeighbor h q ef) (ResultsInv ef) ns st st'
    (fun a _ t t' ht hb => visitNeighbor_results h q ef a t t' ht hb) hinv hv

theorem searchLoop_results (h : HNSW R) (q : List R) (ef level : Int) :
    ∀ (fuel : Nat) (st st' : SearchState R), ResultsInv ef st →
      searchLoop h q ef level fuel st = some st' → ResultsInv ef st' := by
  intro fuel
  induction fuel with
  | zero =>
    intro st st' hinv hs
    unfold searchLoop at hs
    split at hs
    · simp at hs
      subst hs
      exact hinv
    · simp at hs
  | succ f ih =>
    intro st st' hinv hs
    unfold searchLoop at hs
    split at hs
    · simp at hs
      subst hs
      exact hinv
    · simp only at hs
      split at hs
      · simp at hs
        subst hs
        exact hinv
      · split at hs
        · simp at hs
        · split at hs
          · simp at hs
          · next st1 hst1 =>
            have hinv1 : ResultsInv ef
                ({ st with candidates := (PopItem st.candidates).2 } : SearchState R) := hinv
            exact ih st1 st' (visitNeighbors_results h q ef _ _ st1 hinv1 hst1) hs

/-- The ids returned by `searchLayer` with `ef ≥ 1` are pairwise distinct and
at most `ef` in number. -/
theorem searchLayer_distinct (h : HNSW R) (q : List R) (e : Int) (ef level : Int) (l : List Int)
    (hef : 1 ≤ ef) (hs : searchLayer h q e ef level = some l) :
    l.Nodup ∧ (l.length : Int) ≤ ef := by
  unfold searchLayer at hs
  split at hs
  · simp at hs
  · next ep hep =>
    simp only at hs
    split at hs
    · simp at hs
    · next st hst =>
      simp at hs
      have hinit : ResultsInv ef (⟨[e], PushItem (NewPriorityQueue R) e (h.distFunc q ep.GetVector),
          PushItem (NewPriorityQueue R) e (h.distFunc q ep.GetVector)⟩ : SearchState R) := by
        refine ⟨?_, ?_, ?_⟩
        · simp [PushItem_nil]
        · simp [PushItem_nil]
        · simp [PushItem_nil]
          exact hef
      have hres := searchLoop_results h q ef level _ _ st hinit hst
      have hinv := searchLoop_inv h q ef level _ _ st (SearchInv_init h q e ep hep) hst
      obtain ⟨items, hd, hp, _⟩ := drain_spec st.results.length st.results hinv.1 (le_refl _)
      rw [← hs, hd]
      constructor
      · rw [(hp.map _).nodup_iff]
        exact hres.1
      · rw [List.length_map, hp.length_eq]
        exact hres.2.2

end Results
end Hnsw
namespace Hnsw

/-! ## selectNeighborsSimple -/

section Simple

variable {R : Type} [LinearOrderedField R]

theorem distTo_of_mapGet (h : HNSW R) (q : List R) (id : Int) (nd : Node R)
    (hnd : mapGet h.nodes id = some nd) : distTo h q id = h.distFunc q nd.GetVector := by
  unfold distTo
  rw [hnd]

/-- The first loop of `selectNeighborsSimple` pushes one item per candidate
occurrence and keeps the heap condition. -/
theorem pushAll_spec (h : HNSW R) (q : List R) :
    ∀ (c : List Int) (pq : PriorityQueue R), (∀ x ∈ c, Present h.nodes x) → IsHeap pq →
      ∃ pq', pushAll h q c pq = some pq' ∧ IsHeap pq' ∧
        List.Perm pq' (c.map (itemOf h q) ++ pq) := by
  intro c
  induction c with
  | nil =>
    intro pq _ hh
    exact ⟨pq, rfl, hh, List.Perm.refl _⟩
  | cons x rest ih =>
    intro pq hp hh
    obtain ⟨nd, hnd⟩ := hp x (List.mem_cons_self _ _)
    obtain ⟨pq', h1, h2, h3⟩ := ih (PushItem pq x (h.distFunc q nd.GetVector))
      (fun y hy => hp y (List.mem_cons_of_mem _ hy)) (PushItem_isHeap hh _ _)
    refine ⟨pq', ?_, h2, ?_⟩
    · unfold pushAll forEach
      simp only [hnd]
      exact h1
    · have hitem : itemOf h q x = ⟨x, h.distFunc q nd.GetVector⟩ := by
        unfold itemOf
        rw [distTo_of_mapGet h q x nd hnd]
      have hperm := PushItem_perm pq x (h.distFunc q nd.GetVector)
      rw [← hitem] at hperm
      simp only [List.map_cons, List.cons_append]
      exact h3.trans ((List.Perm.append_left _ hperm).trans List.perm_middle)

/-- The second loop of `selectNeighborsSimple` appends the ids of the nearest
items of the queue, nearest first, until `M` ids were taken or the queue is
empty. -/
theorem takeLoop_spec (M : Int) :
    ∀ (fuel : Nat) (pq : PriorityQueue R) (res : List Int) (i : Int),
      IsHeap pq → pq.length ≤ fuel → i ≤ M →
      ∃ taken rest : List (Item R),
        takeLoop M fuel pq res i = res ++ taken.map (fun it => it.NodeID) ∧
        List.Perm (taken ++ rest) pq ∧
        taken.Pairwise (fun a b => a.Distance ≤ b.Distance) ∧
        (∀ a ∈ taken, ∀ b ∈ rest, a.Distance ≤ b.Distance) ∧
        (taken.length : Int) = min (pq.length : Int) (M - i) := by
  intro fuel
  induction fuel with
  | zero =>
    intro pq res i _ hl hi
    have : pq = [] := List.length_eq_zero.mp (by omega)
    subst this
    refine ⟨[], [], by simp [takeLoop], List.Perm.refl _, List.Pairwise.nil, by simp, ?_⟩
    simp
    omega
  | succ f ih =>
    intro pq res i hh hl hi
    unfold takeLoop
    split
    · next hc =>
      have hne : pq ≠ [] := List.length_pos.mp hc.1
      obtain ⟨hh', hmin⟩ := PopItem_spec hh hne
      have hperm := PopItem_perm hne
      have hlen := PopItem_length hne
      obtain ⟨taken, rest, h1, h2, h3, h4, h5⟩ := ih (PopItem pq).2
        (res ++ [(PopItem pq).1.1]) (i + 1) hh' (by omega) (by omega)
      refine ⟨⟨(PopItem pq).1.1, (PopItem pq).1.2⟩ :: taken, rest, ?_, ?_, ?_, ?_, ?_⟩
      · rw [h1]
        simp
      · simp only [List.cons_append]
        exact (h2.cons _).trans hperm.symm
      · refine List.Pairwise.cons ?_ h3
        intro x hx
        exact hmin x (PopItem_snd_mem hne (h2.mem_iff.mp (List.mem_append_left _ hx)))
      · intro a ha b hb
        rcases List.mem_cons.mp ha with rfl | ha
        · exact hmin b (PopItem_snd_mem hne (h2.mem_iff.mp (List.mem_append_right _ hb)))
        · exact h4 a ha b hb
      · simp only [List.length_cons, Nat.cast_add, Nat.cast_one]
        rw [h5]
        omega
    · next hc =>
      refine ⟨[], pq, by simp, List.Perm.refl _, List.Pairwise.nil, by simp, ?_⟩
      simp only [List.length_nil, Nat.cast_zero]
      have : pq.length = 0 ∨ M ≤ i := by
        by_contra hx
        push_neg at hx
        exact hc ⟨by omega, hx.2⟩
      omega

theorem map_NodeID_itemOf (h : HNSW R) (q : List R) (c : List Int) :
    (c.map (itemOf h q)).map (fun it => it.NodeID) = c := by
  induction c with
  | nil => rfl
  | cons x rest ih => simp [itemOf, ih]

/-- What `selectNeighborsSimple` returns when there are more candidates than
`M`: the ids of the `M` nearest candidate occurrences, nearest first. -/
theorem selectNeighborsSimple_spec (h : HNSW R) (q : List R) (c : List Int) (M : Int)
    (hp : ∀ x ∈ c, Present h.nodes x) (hM : 0 ≤ M) (hlt : M < (c.length : Int)) :
    ∃ l rest : List Int, selectNeighborsSimple h q c M = some l ∧ List.Perm (l ++ rest) c ∧
      (l.map (distTo h q)).Pairwise (fun a b => a ≤ b) ∧
      (∀ x ∈ l, ∀ y ∈ rest, distTo h q x ≤ distTo h q y) ∧ (l.length : Int) = M := by
  obtain ⟨pq, h1, h2, h3⟩ := pushAll_spec h q c (NewPriorityQueue R) hp isHeap_nil
  obtain ⟨taken, rest, t1, t2, t3, t4, t5⟩ := takeLoop_spec M pq.length pq [] 0 h2 (le_refl _) hM
  have hall : List.Perm (taken ++ rest) (c.map (itemOf h q)) := by
    have := t2.trans h3
    simpa using this
  have hdist : ∀ it ∈ taken ++ rest, it.Distance = distTo h q it.NodeID := by
    intro it hit
    obtain ⟨x, _, rfl⟩ := List.mem_map.mp (hall.mem_iff.mp hit)
    rfl
  refine ⟨taken.map (fun it => it.NodeID), rest.map (fun it => it.NodeID), ?_, ?_, ?_, ?_, ?_⟩
  · unfold selectNeighborsSimple
    rw [if_neg (by omega), h1]
    simp only
    rw [if_neg (by omega), t1]
    simp
  · rw [← List.map_append, ← map_NodeID_itemOf h q c]
    exact hall.map _
  · rw [List.map_map, List.pairwise_map]
    refine t3.imp_of_mem ?_
    intro a b ha hb hab
    simp only [Function.comp]
    rw [← hdist a (List.mem_append_left _ ha), ← hdist b (List.mem_append_left _ hb)]
    exact hab
  · intro x hx y hy
    obtain ⟨a, ha, rfl⟩ := List.mem_map.mp hx
    obtain ⟨b, hb, rfl⟩ := List.mem_map.mp hy
    rw [← hdist a (List.mem_append_left _ ha), ← hdist b (List.mem_append_right _ hb)]
    exact t4 a ha b hb
  · rw [List.length_map, t5]
    have hlen : pq.length = c.length := by
      have := h3.length_eq
      simpa using this
    rw [hlen]
    omega

end Simple
end Hnsw
namespace Hnsw

/-! ## selectNeighborsHeuristic: the pool -/

section Pool

variable {R : Type} [LinearOrderedField R]

theorem forEach_cover {σ α : Type} (body : α → σ → Option σ) (D : α → σ → Prop)
    (hkeep : ∀ a b t t', body b t = some t' → D a t → D a t')
    (hdo : ∀ a t t', body a t = some t' → D a t') :
    ∀ (l : List α) (s s' : σ), forEach body l s = some s' → ∀ a ∈ l, D a s' := by
  intro l
  induction l with
  | nil => intro s s' _ a ha; simp at ha
  | cons b rest ih =>
    intro s s' hs a ha
    unfold forEach at hs
    split at hs
    · simp at hs
    · next t ht =>
      rcases List.mem_cons.mp ha with rfl | ha
      · exact forEach_inv body (D a) rest t s' (fun c _ u u' hu hb => hkeep a c u u' hb hu)
          (hdo a s t ht) hs
      · exact ih t s' hs a ha

theorem pushUnvisited_fill (h : HNSW R) (q : List R) (base : List Int) (id : Int)
    (acc acc' : List Int × PriorityQueue R) (hinv : FillInv h q base acc)
    (hp : pushUnvisited h q id acc = some acc') :
    FillInv h q base acc' ∧ (∀ x ∈ acc.1, x ∈ acc'.1) ∧ id ∈ acc'.1 ∧
      (∀ x ∈ acc'.1, x ∈ acc.1 ∨ x = id) := by
  obtain ⟨hh, hok, hnd, hperm⟩ := hinv
  unfold pushUnvisited at hp
  split at hp
  · next hin =>
    simp at hp
    subst hp
    exact ⟨⟨hh, hok, hnd, hperm⟩, fun x hx => hx, hin, fun x hx => Or.inl hx⟩
  · next hnot =>
    split at hp
    · simp at hp
    · next nd hnd' =>
      simp at hp
      subst hp
      refine ⟨⟨PushItem_isHeap hh _ _, ?_, List.nodup_cons.mpr ⟨hnot, hnd⟩, ?_⟩,
        fun x hx => List.mem_cons_of_mem _ hx, List.mem_cons_self _ _, ?_⟩
      · intro it hit
        rcases mem_PushItem.mp hit with rfl | hit
        · exact ⟨nd, hnd', rfl⟩
        · exact hok it hit
      · have hp1 := (PushItem_perm acc.2 id (h.distFunc q nd.GetVector)).map
          (fun it => it.NodeID)
        simp only [List.map_cons] at hp1
        exact (List.Perm.append_right base hp1).trans (hperm.cons id)
      · intro x hx
        rcases List.mem_cons.mp hx with rfl | hx
        · exact Or.inr rfl
        · exact Or.inl hx

theorem pushUnvisited_total (h : HNSW R) (q : List R) (id : Int)
    (acc : List Int × PriorityQueue R) (hid : Present h.nodes id) :
    ∃ acc', pushUnvisited h q id acc = some acc' := by
  obtain ⟨nd, hnd⟩ := hid
  unfold pushUnvisited
  split
  · exact ⟨_, rfl⟩
  · rw [hnd]
    exact ⟨_, rfl⟩

/-- A loop of `pushUnvisited` over stored ids returns; it keeps the fill facts,
keeps the ids already visited, visits every id of the list and nothing else. -/
theorem forEach_pushUnvisited_spec (h : HNSW R) (q : List R) (base : List Int) (l : List Int)
    (acc : List Int × PriorityQueue R) (hinv : FillInv h q base acc)
    (hl : ∀ x ∈ l, Present h.nodes x) :
    ∃ acc', forEach (pushUnvisited h q) l acc = some acc' ∧ FillInv h q base acc' ∧
      (∀ x ∈ acc.1, x ∈ acc'.1) ∧ (∀ x ∈ l, x ∈ acc'.1) ∧
      (∀ x ∈ acc'.1, x ∈ acc.1 ∨ x ∈ l) := by
  obtain ⟨acc', hacc', hP⟩ := forEach_total (pushUnvisited h q)
    (fun s => FillInv h q base s ∧ (∀ x ∈ acc.1, x ∈ s.1) ∧ (∀ x ∈ s.1, x ∈ acc.1 ∨ x ∈ l))
    l acc
    (by
      intro a ha t ⟨hf, hm, hs⟩
      obtain ⟨t', ht'⟩ := pushUnvisited_total h q a t (hl a ha)
      obtain ⟨hf', hm', _, hs'⟩ := pushUnvisited_fill h q base a t t' hf ht'
      refine ⟨t', ht', hf', fun x hx => hm' x (hm x hx), ?_⟩
      intro x hx
      rcases hs' x hx with h1 | h1
      · exact hs x h1
      · exact Or.inr (h1 ▸ ha))
    ⟨hinv, fun x hx => hx, fun x hx => Or.inl hx⟩
  refine ⟨acc', hacc', hP.1, hP.2.1, ?_, hP.2.2⟩
  refine forEach_cover (pushUnvisited h q) (fun a s => a ∈ s.1) ?_ ?_ l acc acc' hacc'
  · intro a b t t' hb ha
    unfold pushUnvisited at hb
    split at hb
    · simp at hb
      subst hb
      exact ha
    · split at hb
      · simp at hb
      · simp at hb
        subst hb
        exact List.mem_cons_of_mem _ ha
  · intro a t t' hb
    unfold pushUnvisited at hb
    split at hb
    · next hin =>
      simp at hb
      subst hb
      exact hin
    · split at hb
      · simp at hb
      · simp at hb
        subst hb
        exact List.mem_cons_self _ _

theorem levelNeighbors_present (h : HNSW R) (level id : Int) (hc : NeighborsClosed h.nodes) :
    ∀ x ∈ levelNeighbors h level id, Present h.nodes x := by
  intro x hx
  unfold levelNeighbors at hx
  split at hx
  · next nd hnd =>
    split at hx
    · next ns hg =>
      unfold Node.GetNeighbors at hg
      split at hg
      · simp at hg
      · split at hg
        · simp at hg
        · next nbs hnbs =>
          simp at hg
          subst hg
          exact hc id nd hnd level nbs hnbs x hx
    · simp at hx
  · simp at hx

theorem extendCandidate_eq (h : HNSW R) (q : List R) (level cand : Int)
    (acc : List Int × PriorityQueue R) (hp : Present h.nodes cand) :
    extendCandidate h q level cand acc
      = forEach (pushUnvisited h q) (levelNeighbors h level cand) acc := by
  obtain ⟨nd, hnd⟩ := hp
  unfold extendCandidate levelNeighbors
  rw [hnd]

/-- The extension loop over stored candidates of an index with closed
neighbour lists returns; it keeps the fill facts and visits exactly the level
neighbours of the candidates on top of the ids visited before. -/
theorem extendCandidatesLoop_spec (h : HNSW R) (q : List R) (level : Int) (base : List Int)
    (c : List Int) (acc : List Int × PriorityQueue R) (hc : NeighborsClosed h.nodes)
    (hinv : FillInv h q base acc) (hl : ∀ x ∈ c, Present h.nodes x) :
    ∃ acc', extendCandidatesLoop h q level c acc = some acc' ∧ FillInv h q base acc' ∧
      (∀ x ∈ acc.1, x ∈ acc'.1) ∧
      (∀ cand ∈ c, ∀ x ∈ levelNeighbors h level cand, x ∈ acc'.1) ∧
      (∀ x ∈ acc'.1, x ∈ acc.1 ∨ ∃ cand ∈ c, x ∈ levelNeighbors h level cand) := by
  unfold extendCandidatesLoop
  obtain ⟨acc', hacc', hP⟩ := forEach_total (extendCandidate h q level)
    (fun s => FillInv h q base s ∧ (∀ x ∈ acc.1, x ∈ s.1) ∧
      (∀ x ∈ s.1, x ∈ acc.1 ∨ ∃ cand ∈ c, x ∈ levelNeighbors h level cand))
    c acc
    (by
      intro a ha t ⟨hf, hm, hs⟩
      rw [extendCandidate_eq h q level a t (hl a ha)]
      obtain ⟨t', ht', hf', hm', _, hs'⟩ := forEach_pushUnvisited_spec h q base
        (levelNeighbors h level a) t hf (levelNeighbors_present h level a hc)
      refine ⟨t', ht', hf', fun x hx => hm' x (hm x hx), ?_⟩
      intro x hx
      rcases hs' x hx with h1 | h1
      · exact hs x h1
      · exact Or.inr ⟨a, ha, h1⟩)
    ⟨hinv, fun x hx => hx, fun x hx => Or.inl hx⟩
  refine ⟨acc', hacc', hP.1, hP.2.1, ?_, hP.2.2⟩
  have hmono : ∀ (b : Int) (t t' : List Int × PriorityQueue R),
      extendCandidate h q level b t = some t' → ∀ x ∈ t.1, x ∈ t'.1 := by
    intro b t t' hb
    unfold extendCandidate at hb
    split at hb
    · simp at hb
    · exact forEach_inv (pushUnvisited h q) (fun s => ∀ x ∈ t.1, x ∈ s.1) _ t t'
        (by
          intro a _ u u' hu hb2 x hx
          have := hu x hx
          unfold pushUnvisited at hb2
          split at hb2
          · simp at hb2
            subst hb2
            exact this
          · split at hb2
            · simp at hb2
            · simp at hb2
              subst hb2
              exact List.mem_cons_of_mem _ this)
        (fun x hx => hx) hb
  refine forEach_cover (extendCandidate h q level)
    (fun a s => Present h.nodes a → ∀ x ∈ levelNeighbors h level a, x ∈ s.1) ?_ ?_ c acc acc' hacc'
    |> fun hcov => fun cand hcand => hcov cand hcand (hl cand hcand)
  · intro a b t t' hb hD hpa x hx
    exact hmono b t t' hb x (hD hpa x hx)
  · intro a t t' hb hpa x hx
    rw [extendCandidate_eq h q level a t hpa] at hb
    exact forEach_cover (pushUnvisited h q) (fun y s => y ∈ s.1)
      (by
        intro y b u u' hb2 hy
        unfold pushUnvisited at hb2
        split at hb2
        · simp at hb2
          subst hb2
          exact hy
        · split at hb2
          · simp at hb2
          · simp at hb2
            subst hb2
            exact List.mem_cons_of_mem _ hy)
      (by
        intro y u u' hb2
        unfold pushUnvisited at hb2
        split at hb2
        · next hin =>
          simp at hb2
          subst hb2
          exact hin
        · split at hb2
          · simp at hb2
          · simp at hb2
            subst hb2
            exact List.mem_cons_self _ _)
      _ t t' hb x hx

end Pool
end Hnsw
namespace Hnsw

/-! ## selectNeighborsHeuristic: selection and refill -/

section Heuristic

variable {R : Type} [LinearOrderedField R]

theorem moveAll_spec : ∀ (fuel : Nat) (temp w : PriorityQueue R), IsHeap temp → IsHeap w →
    temp.length ≤ fuel →
    IsHeap (moveAll fuel temp w) ∧ List.Perm (moveAll fuel temp w) (temp ++ w) := by
  intro fuel
  induction fuel with
  | zero =>
    intro temp w _ hw hl
    have : temp = [] := List.length_eq_zero.mp (by omega)
    subst this
    exact ⟨hw, List.Perm.refl _⟩
  | succ f ih =>
    intro temp w ht hw hl
    unfold moveAll
    split
    · next h0 =>
      have : temp = [] := List.length_eq_zero.mp h0
      subst this
      exact ⟨hw, List.Perm.refl _⟩
    · next hlen =>
      have hne := length_pos_ne_nil hlen
      obtain ⟨ht', _⟩ := PopItem_spec ht hne
      have hperm := PopItem_perm hne
      have hlen' := PopItem_length hne
      obtain ⟨h1, h2⟩ := ih (PopItem temp).2
        (PushItem w (PopItem temp).1.1 (PopItem temp).1.2) ht' (PushItem_isHeap hw _ _) (by omega)
      refine ⟨h1, h2.trans ?_⟩
      have hp1 := PushItem_perm w (PopItem temp).1.1 (PopItem temp).1.2
      exact ((List.Perm.append_left _ hp1).trans List.perm_middle).trans
        (List.Perm.append_right w hperm.symm)

theorem ItemOK_distance (h : HNSW R) (q : List R) (it : Item R) (hok : ItemOK h q it) :
    it.Distance = distTo h q it.NodeID ∧ Present h.nodes it.NodeID := by
  obtain ⟨nd, hnd, hd⟩ := hok
  exact ⟨by rw [hd, distTo_of_mapGet h q _ nd hnd], ⟨nd, hnd⟩⟩

/-- The working queue of `selectNeighborsHeuristic` after the candidate loop
and the extension step: a heap of items with true distances whose ids are the
pool, each once. -/
theorem workingQueue_spec (h : HNSW R) (q : List R) (c : List Int) (level : Int) (ext : Bool)
    (hc : NeighborsClosed h.nodes) (hp : ∀ x ∈ c, Present h.nodes x) :
    ∃ (visited : List Int) (wq W : PriorityQueue R),
      pushCandidates h q c ([], NewPriorityQueue R) = some (visited, wq) ∧
      (if ext = true then
          (match extendCandidatesLoop h q level c (visited, NewPriorityQueue R) with
            | none => none
            | some (_, tempCandidates) =>
              some (moveAll tempCandidates.length tempCandidates wq))
        else some wq) = some W ∧
      IsHeap W ∧ (∀ it ∈ W, ItemOK h q it) ∧
      List.Perm (W.map (fun it => it.NodeID)) (poolIds h c level ext) := by
  have hinit : FillInv h q [] (([], NewPriorityQueue R) : List Int × PriorityQueue R) :=
    ⟨isHeap_nil, by intro it hit; simp at hit, List.nodup_nil, List.Perm.refl _⟩
  obtain ⟨acc1, h1, hf1, _, hcov1, hsnd1⟩ := forEach_pushUnvisited_spec h q [] c _ hinit hp
  obtain ⟨v1, wq⟩ := acc1
  obtain ⟨hh1, hok1, hnd1, hperm1⟩ := hf1
  simp only [List.append_nil] at hperm1
  have hmem1 : ∀ x, x ∈ v1 ↔ x ∈ c := by
    intro x
    constructor
    · intro hx
      rcases hsnd1 x hx with h0 | h0
      · simp at h0
      · exact h0
    · exact hcov1 x
  cases ext with
  | false =>
    refine ⟨v1, wq, wq, h1, by simp, hh1, hok1, ?_⟩
    refine (List.perm_ext_iff_of_nodup ((hperm1.nodup_iff).mpr hnd1) (List.nodup_dedup _)).mpr ?_
    intro x
    rw [hperm1.mem_iff, hmem1]
    simp [poolIds]
  | true =>
    have hinit2 : FillInv h q v1 ((v1, NewPriorityQueue R) : List Int × PriorityQueue R) :=
      ⟨isHeap_nil, by intro it hit; simp at hit, hnd1, by simp⟩
    obtain ⟨acc2, h2, hf2, hm2, hcov2, hsnd2⟩ :=
      extendCandidatesLoop_spec h q level v1 c _ hc hinit2 hp
    obtain ⟨v2, temp⟩ := acc2
    obtain ⟨hh2, hok2, hnd2, hperm2⟩ := hf2
    obtain ⟨hmh, hmp⟩ := moveAll_spec temp.length temp wq hh2 hh1 (le_refl _)
    refine ⟨v1, wq, moveAll temp.length temp wq, h1, ?_, hmh, ?_, ?_⟩
    · simp only [if_true]
      rw [h2]
    · intro it hit
      rcases List.mem_append.mp (hmp.mem_iff.mp hit) with h0 | h0
      · exact hok2 it h0
      · exact hok1 it h0
    · have hids : List.Perm ((moveAll temp.length temp wq).map (fun it => it.NodeID)) v2 := by
        have := hmp.map (fun it => it.NodeID)
        rw [List.map_append] at this
        exact (this.trans (List.Perm.append_left _ hperm1)).trans hperm2
      refine (List.perm_ext_iff_of_nodup ((hids.nodup_iff).mpr hnd2) (List.nodup_dedup _)).mpr ?_
      intro x
      rw [hids.mem_iff]
      simp only [poolIds, if_true, List.mem_dedup, List.mem_append, List.mem_flatMap]
      constructor
      · intro hx
        rcases hsnd2 x hx with h0 | ⟨cand, hcd, hx2⟩
        · exact Or.inl ((hmem1 x).mp h0)
        · exact Or.inr ⟨cand, hcd, hx2⟩
      · intro hx
        rcases hx with h0 | ⟨cand, hcd, hx2⟩
        · exact hm2 x ((hmem1 x).mpr h0)
        · exact hcov2 cand hcd x hx2

/-- The admission test: it returns on stored ids, and answers `true` exactly
when an id selected before is strictly nearer to the popped node than `dist`. -/
theorem prunedBy_spec (h : HNSW R) (n : Int) (d : WithTop R) (hn : Present h.nodes n) :
    ∀ (res : List Int), (∀ x ∈ res, Present h.nodes x) →
      ∃ b, prunedBy h n d res = some b ∧ (b = true ↔ ∃ r ∈ res, distBetween h r n < d) := by
  obtain ⟨nd, hnd⟩ := hn
  intro res
  induction res with
  | nil =>
    intro _
    exact ⟨false, rfl, by simp⟩
  | cons x rest ih =>
    intro hp
    obtain ⟨xd, hxd⟩ := hp x (List.mem_cons_self _ _)
    have hdb : distBetween h x n = h.distFunc xd.GetVector nd.GetVector := by
      unfold distBetween
      rw [hxd, hnd]
    unfold prunedBy
    rw [hxd, hnd]
    simp only
    split
    · next hlt =>
      refine ⟨true, rfl, ?_⟩
      simp only [true_iff]
      exact ⟨x, List.mem_cons_self _ _, by rw [hdb]; exact hlt⟩
    · next hnlt =>
      obtain ⟨b, hb1, hb2⟩ := ih (fun y hy => hp y (List.mem_cons_of_mem _ hy))
      refine ⟨b, hb1, ?_⟩
      rw [hb2]
      constructor
      · rintro ⟨r, hr, hlt⟩
        exact ⟨r, List.mem_cons_of_mem _ hr, hlt⟩
      · rintro ⟨r, hr, hlt⟩
        rcases List.mem_cons.mp hr with rfl | hr
        · rw [hdb] at hlt
          exact absurd hlt hnlt
        · exact ⟨r, hr, hlt⟩

/-- The main loop of `selectNeighborsHeuristic` returns on queues of stored
items.  It extends the results by ids of the working queue, splits the ids it
held between what is left of the working queue, the results and the discarded
queue, stops only when the working queue is empty or `M` ids are selected,
never selects more than `M` ids, and keeps the results diverse. -/
theorem selectLoop_spec (h : HNSW R) (q : List R) (M : Int) :
    ∀ (fuel : Nat) (wq : PriorityQueue R) (res : List Int) (dq : PriorityQueue R),
      IsHeap wq → IsHeap dq → (∀ it ∈ wq, ItemOK h q it) → (∀ it ∈ dq, ItemOK h q it) →
      (∀ x ∈ res, Present h.nodes x) → wq.length ≤ fuel → Diverse h q res →
      ∃ (r : List Int) (d wqf : PriorityQueue R) (suffix : List Int),
        selectLoop h M fuel wq res dq = some (r, d) ∧ r = res ++ suffix ∧
        IsHeap d ∧ (∀ it ∈ d, ItemOK h q it) ∧ (∀ x ∈ r, Present h.nodes x) ∧
        List.Perm (wqf.map (fun it => it.NodeID) ++ r ++ d.map (fun it => it.NodeID))
          (wq.map (fun it => it.NodeID) ++ res ++ dq.map (fun it => it.NodeID)) ∧
        (wqf = [] ∨ M ≤ (r.length : Int)) ∧
        ((res.length : Int) ≤ M → (r.length : Int) ≤ M) ∧ Diverse h q r := by
  intro fuel
  induction fuel with
  | zero =>
    intro wq res dq _ hdq _ hokd hres hl hdiv
    have : wq = [] := List.length_eq_zero.mp (by omega)
    subst this
    exact ⟨res, dq, [], [], rfl, by simp, hdq, hokd, hres, List.Perm.refl _, Or.inl rfl,
      fun hx => hx, hdiv⟩
  | succ f ih =>
    intro wq res dq hwq hdq hokw hokd hres hl hdiv
    unfold selectLoop
    split
    · next hcond =>
      have hne : wq ≠ [] := List.length_pos.mp hcond.1
      obtain ⟨hwq', hmin⟩ := PopItem_spec hwq hne
      have hperm := PopItem_perm hne
      have hlen := PopItem_length hne
      have hpopok : ItemOK h q ⟨(PopItem wq).1.1, (PopItem wq).1.2⟩ :=
        hokw _ (PopItem_fst_mem hne)
      obtain ⟨hpd, hpp⟩ := ItemOK_distance h q _ hpopok
      simp only at hpd hpp
      have hokw' : ∀ it ∈ (PopItem wq).2, ItemOK h q it :=
        fun it hit => hokw it (PopItem_snd_mem hne hit)
      obtain ⟨b, hb1, hb2⟩ := prunedBy_spec h (PopItem wq).1.1 (PopItem wq).1.2 hpp res hres
      have hidsperm : List.Perm (wq.map (fun it => it.NodeID))
          ((PopItem wq).1.1 :: (PopItem wq).2.map (fun it => it.NodeID)) := by
        have := hperm.map (fun it => it.NodeID)
        simpa using this
      simp only
      rw [hb1]
      cases b with
      | false =>
        simp only
        have hno : ∀ r ∈ res, ¬ distBetween h r (PopItem wq).1.1 < (PopItem wq).1.2 := by
          intro r hr hlt
          have := hb2.mpr ⟨r, hr, hlt⟩
          simp at this
        have hdiv' : Diverse h q (res ++ [(PopItem wq).1.1]) := by
          unfold Diverse
          rw [List.pairwise_append]
          refine ⟨hdiv, List.pairwise_singleton _ _, ?_⟩
          intro a ha b' hb'
          simp at hb'
          subst hb'
          rw [← hpd]
          exact not_lt.mp (hno a ha)
        obtain ⟨r, d, wqf, suffix, e1, e2, e3, e4, e5, e6, e7, e8, e9⟩ :=
          ih (PopItem wq).2 (res ++ [(PopItem wq).1.1]) dq hwq' hdq hokw' hokd
            (by
              intro x hx
              rcases List.mem_append.mp hx with hx | hx
              · exact hres x hx
              · simp at hx
                subst hx
                exact hpp)
            (by omega) hdiv'
        refine ⟨r, d, wqf, (PopItem wq).1.1 :: suffix, e1, by rw [e2]; simp, e3, e4, e5, ?_, e7,
          ?_, e9⟩
        · rw [List.perm_iff_count] at e6 ⊢
          intro a
          have h6 := e6 a
          have h7 := hidsperm.count_eq a
          simp only [List.count_append, List.count_cons, List.count_nil] at h6 h7 ⊢
          omega
        · intro hx
          apply e8
          simp only [List.length_append, List.length_singleton, Nat.cast_add, Nat.cast_one]
          omega
      | true =>
        simp only
        obtain ⟨r, d, wqf, suffix, e1, e2, e3, e4, e5, e6, e7, e8, e9⟩ :=
          ih (PopItem wq).2 res (PushItem dq (PopItem wq).1.1 (PopItem wq).1.2) hwq'
            (PushItem_isHeap hdq _ _) hokw'
            (by
              intro it hit
              rcases mem_PushItem.mp hit with rfl | hit
              · exact hpopok
              · exact hokd it hit)
            hres (by omega) hdiv
        refine ⟨r, d, wqf, suffix, e1, e2, e3, e4, e5, ?_, e7, e8, e9⟩
        have hp1 := (PushItem_perm dq (PopItem wq).1.1 (PopItem wq).1.2).map (fun it => it.NodeID)
        simp only [List.map_cons] at hp1
        rw [List.perm_iff_count] at e6 ⊢
        intro a
        have h6 := e6 a
        have h7 := hidsperm.count_eq a
        have h8 := hp1.count_eq a
        simp only [List.count_append, List.count_cons, List.count_nil] at h6 h7 h8 ⊢
        omega
    · next hcond =>
      refine ⟨res, dq, wq, [], rfl, by simp, hdq, hokd, hres, List.Perm.refl _, ?_,
        fun hx => hx, hdiv⟩
      by_cases hw : wq = []
      · exact Or.inl hw
      · right
        by_contra hx
        exact hcond ⟨List.length_pos.mpr hw, by omega⟩

theorem refillLoop_eq_takeLoop (M : Int) :
    ∀ (fuel : Nat) (dq : PriorityQueue R) (res : List Int),
      refillLoop M fuel dq res = takeLoop M fuel dq res (res.length : Int) := by
  intro fuel
  induction fuel with
  | zero => intro dq res; rfl
  | succ f ih =>
    intro dq res
    unfold refillLoop takeLoop
    split
    · rw [ih]
      simp
    · rfl

end Heuristic
end Hnsw
namespace Hnsw

section Heuristic2

variable {R : Type} [LinearOrderedField R]

theorem selectNeighborsHeuristic_unfold (h : HNSW R) (q : List R) (c : List Int) (M level : Int)
    (ext keep : Bool) (visited : List Int) (wq W : PriorityQueue R) (r : List Int)
    (d : PriorityQueue R)
    (h1 : pushCandidates h q c ([], NewPriorityQueue R) = some (visited, wq))
    (h2 : (if ext = true then
          (match extendCandidatesLoop h q level c (visited, NewPriorityQueue R) with
            | none => none
            | some (_, tempCandidates) =>
              some (moveAll tempCandidates.length tempCandidates wq))
        else some wq) = some W)
    (h3 : selectLoop h M W.length W [] (NewPriorityQueue R) = some (r, d))
    (hmk : makePanics M = false) :
    selectNeighborsHeuristic h q c M level ext keep
      = some (if keep = true then refillLoop M d.length d r else r) := by
  unfold selectNeighborsHeuristic
  rw [h1]
  simp only
  rw [h2]
  simp only
  rw [hmk]
  simp only [Bool.false_eq_true, if_false]
  rw [h3]
  simp only
  cases keep <;> simp

/-- A call of `selectNeighborsHeuristic` that returns was made with an `M`
that `make` accepts. -/
theorem selectNeighborsHeuristic_makeOK (h : HNSW R) (q : List R) (c : List Int) (M level : Int)
    (ext keep : Bool) (l : List Int)
    (hs : selectNeighborsHeuristic h q c M level ext keep = some l) :
    0 ≤ M ∧ M ≤ maxSliceCap := by
  rw [← makePanics_eq_false_iff]
  cases hm : makePanics M with
  | false => rfl
  | true =>
    exfalso
    unfold selectNeighborsHeuristic at hs
    split at hs
    · simp at hs
    · simp only at hs
      split at hs
      · simp at hs
      · rw [hm] at hs
        simp at hs

/-- Once its working queue is built, `selectNeighborsHeuristic` fails for an
`M` that `make` refuses. -/
theorem selectNeighborsHeuristic_refused (h : HNSW R) (q : List R) (c : List Int)
    (M level : Int) (ext keep : Bool) (hm : makePanics M = true) :
    selectNeighborsHeuristic h q c M level ext keep = none := by
  cases hs : selectNeighborsHeuristic h q c M level ext keep with
  | none => rfl
  | some l =>
    have := (makePanics_eq_false_iff M).mpr
      (selectNeighborsHeuristic_makeOK h q c M level ext keep l hs)
    rw [hm] at this
    simp at this

theorem selectLoop_first (h : HNSW R) (M : Int) (f : Nat) (wq dq : PriorityQueue R)
    (hne : wq ≠ []) (hM : 1 ≤ M) :
    selectLoop h M (f + 1) wq [] dq = selectLoop h M f (PopItem wq).2 [(PopItem wq).1.1] dq := by
  have hpos : wq.length > 0 := List.length_pos.mpr hne
  rw [selectLoop]
  rw [if_pos ⟨hpos, by simp; omega⟩]
  simp [prunedBy]

/-- What `selectNeighborsHeuristic` returns on stored candidates of an index
with closed neighbour lists, for `0 ≤ M ≤ maxSliceCap`. -/
theorem selectNeighborsHeuristic_spec (h : HNSW R) (q : List R) (c : List Int) (M level : Int)
    (ext keep : Bool) (hc : NeighborsClosed h.nodes) (hp : ∀ x ∈ c, Present h.nodes x)
    (hM : 0 ≤ M) (hcap : M ≤ maxSliceCap) :
    ∃ l, selectNeighborsHeuristic h q c M level ext keep = some l ∧ l.Nodup ∧
      (∀ x ∈ l, x ∈ poolIds h c level ext) ∧ (l.length : Int) ≤ M ∧
      (keep = true → (l.length : Int) = min M ((poolIds h c level ext).length : Int)) ∧
      (keep = false → Diverse h q l ∧
        (1 ≤ M → poolIds h c level ext ≠ [] →
          ∃ x tail, l = x :: tail ∧ ∀ y ∈ poolIds h c level ext, distTo h q x ≤ distTo h q y)) := by
  obtain ⟨visited, wq, W, h1, h2, hW, hokW, hpermW⟩ := workingQueue_spec h q c level ext hc hp
  obtain ⟨r, d, wqf, suffix, e1, e2, e3, e4, e5, e6, e7, e8, e9⟩ :=
    selectLoop_spec h q M W.length W [] (NewPriorityQueue R) hW isHeap_nil hokW
      (by intro it hit; simp at hit) (by intro x hx; simp at hx) (le_refl _) List.Pairwise.nil
  have hsel := selectNeighborsHeuristic_unfold h q c M level ext keep visited wq W r d h1 h2 e1
    ((makePanics_eq_false_iff M).mpr ⟨hM, hcap⟩)
  have hall : List.Perm (wqf.map (fun it => it.NodeID) ++ r ++ d.map (fun it => it.NodeID))
      (poolIds h c level ext) := by
    refine e6.trans ?_
    simpa using hpermW
  have hnd : (wqf.map (fun it => it.NodeID) ++ r ++ d.map (fun it => it.NodeID)).Nodup :=
    (hall.nodup_iff).mpr (List.nodup_dedup _)
  have hrM : (r.length : Int) ≤ M := e8 (by simpa using hM)
  have hlenall : (poolIds h c level ext).length = wqf.length + r.length + d.length := by
    rw [← hall.length_eq]
    simp only [List.length_append, List.length_map]
  cases keep with
  | false =>
    simp only [Bool.false_eq_true, if_false] at hsel
    refine ⟨r, hsel, ?_, ?_, hrM, by simp, ?_⟩
    · exact (List.nodup_append.mp (List.nodup_append.mp hnd).1).2.1
    · intro x hx
      exact hall.mem_iff.mp (List.mem_append_left _ (List.mem_append_right _ hx))
    · intro _
      refine ⟨e9, ?_⟩
      intro hM1 hpool
      have hWne : W ≠ [] := by
        intro hw
        rw [hw] at hpermW
        simp at hpermW
        exact hpool hpermW
      obtain ⟨f, hf⟩ : ∃ f, W.length = f + 1 :=
        ⟨W.length - 1, by have := List.length_pos.mpr hWne; omega⟩
      obtain ⟨hW', hmin⟩ := PopItem_spec hW hWne
      have hpopok : ItemOK h q ⟨(PopItem W).1.1, (PopItem W).1.2⟩ := hokW _ (PopItem_fst_mem hWne)
      obtain ⟨hpd, hpp⟩ := ItemOK_distance h q _ hpopok
      simp only at hpd hpp
      have hlen := PopItem_length hWne
      obtain ⟨r', d', wqf', suffix', g1, g2, _⟩ :=
        selectLoop_spec h q M f (PopItem W).2 [(PopItem W).1.1] (NewPriorityQueue R) hW' isHeap_nil
          (fun it hit => hokW it (PopItem_snd_mem hWne hit)) (by intro it hit; simp at hit)
          (by intro x hx; simp at hx; subst hx; exact hpp) (by omega)
          (List.pairwise_singleton _ _)
      rw [hf, selectLoop_first h M f W _ hWne hM1, g1] at e1
      simp only [Option.some.injEq, Prod.mk.injEq] at e1
      refine ⟨(PopItem W).1.1, suffix', ?_, ?_⟩
      · rw [← e1.1, g2]
        rfl
      · intro y hy
        obtain ⟨it, hit, hid⟩ := List.mem_map.mp (hpermW.mem_iff.mpr hy)
        have := hmin it hit
        rw [hpd, (ItemOK_distance h q it (hokW it hit)).1, hid] at this
        exact this
  | true =>
    simp only [if_true] at hsel
    obtain ⟨taken, rest, t1, t2, _, _, t5⟩ :=
      takeLoop_spec M d.length d r (r.length : Int) e3 (le_refl _) hrM
    rw [refillLoop_eq_takeLoop, t1] at hsel
    have hdids : List.Perm (d.map (fun it => it.NodeID))
        (taken.map (fun it => it.NodeID) ++ rest.map (fun it => it.NodeID)) := by
      have := t2.symm.map (fun it => it.NodeID)
      simpa using this
    refine ⟨r ++ taken.map (fun it => it.NodeID), hsel, ?_, ?_, ?_, ?_, by simp⟩
    · rw [List.nodup_iff_count_le_one] at hnd ⊢
      intro a
      have h1 := hnd a
      have h2 := hdids.count_eq a
      simp only [List.count_append] at h1 h2 ⊢
      omega
    · intro x hx
      apply hall.mem_iff.mp
      rcases List.mem_append.mp hx with hx | hx
      · exact List.mem_append_left _ (List.mem_append_right _ hx)
      · exact List.mem_append_right _
          (hdids.mem_iff.mpr (List.mem_append_left _ hx))
    · simp only [List.length_append, List.length_map, Nat.cast_add]
      omega
    · intro _
      simp only [List.length_append, List.length_map, Nat.cast_add]
      rw [hlenall]
      rcases e7 with hw | hw
      · rw [hw]
        simp only [List.length_nil, Nat.cast_add, Nat.cast_zero]
        omega
      · simp only [Nat.cast_add]
        omega

end Heuristic2
end Hnsw
namespace Hnsw

/-! ## Insert returns on every index with referential integrity -/

section Totality

variable {R : Type} [LinearOrderedField R]

theorem SameData_present {a b : List (Int × Node R)} (hd : SameData a b) (x : Int)
    (hx : Present a x) : Present b x := by
  obtain ⟨nd, hnd⟩ := hx
  obtain ⟨nd', hnd', _⟩ := hd x nd hnd
  exact ⟨nd', hnd'⟩

theorem addNeighborAt_total (nodes : List (Int × Node R)) (key lc nid : Int)
    (hk : Present nodes key) : ∃ nodes', addNeighborAt nodes key lc nid = some nodes' := by
  obtain ⟨n, hn⟩ := hk
  unfold addNeighborAt
  rw [hn]
  simp only
  split
  · exact ⟨_, rfl⟩
  · exact ⟨_, rfl⟩

theorem linkNeighbors_total (nodes : List (Int × Node R)) (id lc : Int) (neighbors : List Int)
    (hid : Present nodes id) (hn : ∀ x ∈ neighbors, Present nodes x) :
    ∃ nodes', linkNeighbors id lc neighbors nodes = some nodes' := by
  unfold linkNeighbors
  obtain ⟨s', hs', _⟩ := forEach_total (linkNeighbor id lc) (fun s => SameData nodes s)
    neighbors nodes
    (by
      intro a ha t ht
      obtain ⟨t1, h1⟩ := addNeighborAt_total t id lc a (SameData_present ht id hid)
      have hd1 := addNeighborAt_data t t1 id lc a h1
      obtain ⟨t2, h2⟩ := addNeighborAt_total t1 a lc id
        (SameData_present hd1 a (SameData_present ht a (hn a ha)))
      have hd2 := addNeighborAt_data t1 t2 a lc id h2
      refine ⟨t2, ?_, SameData_trans ht (SameData_trans hd1 hd2)⟩
      unfold linkNeighbor
      rw [h1]
      exact h2)
    (SameData_refl _)
  exact ⟨s', hs'⟩

/-- On stored candidates of an index with closed neighbour lists
`selectNeighborsHeuristic` returns for every `M` that `make` accepts. -/
theorem selectNeighborsHeuristic_total (h : HNSW R) (q : List R) (c : List Int) (M level : Int)
    (ext keep : Bool) (hc : NeighborsClosed h.nodes) (hp : ∀ x ∈ c, Present h.nodes x)
    (hmk : makePanics M = false) :
    ∃ l, selectNeighborsHeuristic h q c M level ext keep = some l := by
  obtain ⟨visited, wq, W, h1, h2, hW, hokW, _⟩ := workingQueue_spec h q c level ext hc hp
  obtain ⟨r, d, _, _, e1, _⟩ :=
    selectLoop_spec h q M W.length W [] (NewPriorityQueue R) hW isHeap_nil hokW
      (by intro it hit; simp at hit) (by intro x hx; simp at hx) (le_refl _) List.Pairwise.nil
  exact ⟨_, selectNeighborsHeuristic_unfold h q c M level ext keep visited wq W r d h1 h2 e1 hmk⟩

theorem connectLevels_total (id : Int) (vector : List R) :
    ∀ (n : Nat) (lc currObj : Int) (h : HNSW R), NeighborsClosed h.nodes →
      Present h.nodes currObj → Present h.nodes id → makePanics h.config.M = false →
      ∃ h', connectLevels id vector n lc currObj h = some h' := by
  intro n
  induction n with
  | zero =>
    intro lc currObj h _ _ _ _
    exact ⟨h, rfl⟩
  | succ n ih =>
    intro lc currObj h hc hcur hid hmk
    obtain ⟨cands, hsl⟩ := searchLayer_total h vector currObj h.config.EfConstruction lc hc hcur
    have hcp := searchLayer_present h vector currObj _ lc cands hsl
    obtain ⟨nbs, hsel⟩ := selectNeighborsHeuristic_total h vector cands h.config.M lc true true
      hc hcp hmk
    have hnp := selectNeighborsHeuristic_present h vector cands _ _ _ _ nbs hsel
    obtain ⟨nodes', hlink⟩ := linkNeighbors_total h.nodes id lc nbs hid hnp
    obtain ⟨hc', hp'⟩ := linkNeighbors_closed h.nodes nodes' id lc nbs hc hnp hlink
    obtain ⟨h', hh'⟩ := ih (lc - 1) id { h with nodes := nodes' } hc' (hp' id hid) (hp' id hid)
      hmk
    refine ⟨h', ?_⟩
    unfold connectLevels
    rw [hsl]
    simp only
    rw [hsel]
    simp only
    rw [hlink]
    exact hh'

/-- `Insert` returns on every index with referential integrity whose `M` is
one that `make` accepts. -/
theorem Insert_total (h : HNSW R) (id : Int) (vector : List R) (level : Int)
    (hwf : WellFormed h) (hmk : makePanics h.config.M = false) :
    ∃ r, Insert h id vector level = some r := by
  obtain ⟨hc, he⟩ := hwf
  unfold Insert
  split
  · exact ⟨_, rfl⟩
  · next hnone =>
    have hgl : (generateLevel h level).2.nodes = h.nodes ∧
        (generateLevel h level).2.entryPoint = h.entryPoint := by
      unfold generateLevel
      split <;> exact ⟨rfl, rfl⟩
    have hgc : (generateLevel h level).2.config = h.config := by
      unfold generateLevel
      split <;> rfl
    simp only
    split
    · exact ⟨_, rfl⟩
    · next hep =>
      rw [hgl.2] at hep
      have hpe : Present h.nodes h.entryPoint := by
        rcases he with ⟨_, h0⟩ | hp
        · exact absurd h0 hep
        · exact hp
      have hc2 : NeighborsClosed (mapSet h.nodes id (NewNode id vector level)) := by
        intro k nd hk l ns hl m hm
        by_cases hkk : k = id
        · subst hkk
          rw [mapGet_mapSet_same] at hk
          simp at hk
          subst hk
          simp [NewNode, mapGet] at hl
        · rw [mapGet_mapSet_ne _ _ _ _ hkk] at hk
          exact Present_mapSet _ _ _ _ (hc k nd hk l ns hl m hm)
      obtain ⟨c, hd, hpc⟩ := descend_total
        ({ (generateLevel h level).2 with
            nodes := mapSet (generateLevel h level).2.nodes id (NewNode id vector level) } : HNSW R)
        vector (by simp only; rw [hgl.1]; exact hc2)
        ((generateLevel h level).2.maxLevel - level).toNat (generateLevel h level).2.maxLevel
        (generateLevel h level).2.entryPoint
        (by simp only; rw [hgl.1, hgl.2]; exact Present_mapSet _ _ _ _ hpe)
      rw [hd]
      simp only
      obtain ⟨h3, hh3⟩ := connectLevels_total id vector
        (min level (generateLevel h level).2.maxLevel + 1).toNat
        (min level (generateLevel h level).2.maxLevel) c
        ({ (generateLevel h level).2 with
            nodes := mapSet (generateLevel h level).2.nodes id (NewNode id vector level) } : HNSW R)
        (by simp only; rw [hgl.1]; exact hc2) hpc
        (by simp only; exact Present_mapSet_self _ _ _)
        (by simp only; rw [hgc]; exact hmk)
      rw [hh3]
      exact ⟨_, rfl⟩

end Totality
end Hnsw
namespace Hnsw

/-! ## How Insert changes the neighbour lists -/

section Degree

variable {R : Type} [LinearOrderedField R]

theorem nodup_append_singleton {α : Type} {l : List α} {x : α} (hl : l.Nodup) (hx : x ∉ l) :
    (l ++ [x]).Nodup := by
  rw [List.nodup_append]
  refine ⟨hl, List.nodup_singleton _, ?_⟩
  intro a ha hb
  simp at hb
  subst hb
  exact hx ha

theorem neighborsOf_eq_listAt (h : HNSW R) (k l : Int) : neighborsOf h k l = listAt h.nodes k l := by
  unfold neighborsOf listAt Node.levelList
  rfl

/-- The lists after `h.nodes[key].AddNeighbor(lc, nid)`: only the level-`lc`
list of `key` can change, and it changes by appending `nid`, absent before. -/
theorem addNeighborAt_listAt (nodes nodes' : List (Int × Node R)) (key lc nid : Int)
    (ha : addNeighborAt nodes key lc nid = some nodes') :
    (∀ k l, (k ≠ key ∨ l ≠ lc) → listAt nodes' k l = listAt nodes k l) ∧
      (listAt nodes' key lc = listAt nodes key lc ∨
        (nid ∉ listAt nodes key lc ∧ listAt nodes' key lc = listAt nodes key lc ++ [nid])) := by
  unfold addNeighborAt at ha
  split at ha
  · simp at ha
  · next n hkey =>
    split at ha
    · next n' hadd =>
      simp at ha
      subst ha
      obtain ⟨hlist, hother, _⟩ := AddNeighbor_ok n n' lc nid hadd
      have hself : ∀ l, listAt (mapSet nodes key n') key l = n'.levelList l := by
        intro l
        unfold listAt
        rw [mapGet_mapSet_same]
      have hold : ∀ l, listAt nodes key l = n.levelList l := by
        intro l
        unfold listAt
        rw [hkey]
      constructor
      · intro k l hkl
        by_cases hk : k = key
        · subst hk
          rcases hkl with hkl | hkl
          · exact absurd rfl hkl
          · rw [hself, hold]
            unfold Node.levelList
            rw [hother l hkl]
        · unfold listAt
          rw [mapGet_mapSet_ne _ _ _ _ hk]
      · rw [hself, hold, hlist]
        by_cases hin : nid ∈ n.levelList lc
        · left
          rw [if_pos hin]
        · right
          rw [if_neg hin]
          exact ⟨hin, rfl⟩
    · simp at ha
      subst ha
      exact ⟨fun _ _ _ => rfl, Or.inl rfl⟩

/-- One pass of the linking loop, seen from the new node `id`: its level-`lc`
list gets at most one id longer, its other lists stay. -/
theorem linkNeighbor_own (nodes nodes' : List (Int × Node R)) (id lc nid : Int)
    (hl : linkNeighbor id lc nid nodes = some nodes') :
    (listAt nodes' id lc).length ≤ (listAt nodes id lc).length + 1 ∧
      (∀ l, l ≠ lc → listAt nodes' id l = listAt nodes id l) := by
  unfold linkNeighbor at hl
  split at hl
  · simp at hl
  · next nodes1 h1 =>
    obtain ⟨ho1, hc1⟩ := addNeighborAt_listAt nodes nodes1 id lc nid h1
    obtain ⟨ho2, hc2⟩ := addNeighborAt_listAt nodes1 nodes' nid lc id hl
    constructor
    · by_cases hn : nid = id
      · subst hn
        rcases hc1 with e1 | ⟨_, e1⟩
        · rcases hc2 with e2 | ⟨_, e2⟩
          · rw [e2, e1]
            omega
          · rw [e2, e1]
            simp
        · rcases hc2 with e2 | ⟨hnot, _⟩
          · rw [e2, e1]
            simp
          · rw [e1] at hnot
            simp at hnot
      · rw [ho2 id lc (Or.inl (Ne.symm hn))]
        rcases hc1 with e1 | ⟨_, e1⟩
        · rw [e1]
          omega
        · rw [e1]
          simp
    · intro l hne
      rw [ho2 id l (Or.inr hne), ho1 id l (Or.inr hne)]

theorem linkNeighbors_own (id lc : Int) :
    ∀ (neighbors : List Int) (nodes nodes' : List (Int × Node R)),
      linkNeighbors id lc neighbors nodes = some nodes' →
      (listAt nodes' id lc).length ≤ (listAt nodes id lc).length + neighbors.length ∧
        (∀ l, l ≠ lc → listAt nodes' id l = listAt nodes id l) := by
  intro neighbors
  induction neighbors with
  | nil =>
    intro nodes nodes' hl
    simp [linkNeighbors, forEach] at hl
    subst hl
    exact ⟨by simp, fun _ _ => rfl⟩
  | cons nid rest ih =>
    intro nodes nodes' hl
    unfold linkNeighbors forEach at hl
    split at hl
    · simp at hl
    · next nodes1 h1 =>
      obtain ⟨a1, a2⟩ := linkNeighbor_own nodes nodes1 id lc nid h1
      obtain ⟨b1, b2⟩ := ih nodes1 nodes' hl
      refine ⟨?_, fun l hne => (b2 l hne).trans (a2 l hne)⟩
      simp only [List.length_cons]
      omega

/-- One pass of the linking loop, seen from any other node `k`: each of its
lists stays as it is or gets the new id appended, absent before. -/
theorem linkNeighbor_other (nodes nodes' : List (Int × Node R)) (id lc nid k l : Int)
    (hk : k ≠ id) (hl : linkNeighbor id lc nid nodes = some nodes') :
    listAt nodes' k l = listAt nodes k l ∨
      (id ∉ listAt nodes k l ∧ listAt nodes' k l = listAt nodes k l ++ [id]) := by
  unfold linkNeighbor at hl
  split at hl
  · simp at hl
  · next nodes1 h1 =>
    obtain ⟨ho1, _⟩ := addNeighborAt_listAt nodes nodes1 id lc nid h1
    obtain ⟨ho2, hc2⟩ := addNeighborAt_listAt nodes1 nodes' nid lc id hl
    have e1 : listAt nodes1 k l = listAt nodes k l := ho1 k l (Or.inl hk)
    by_cases hkl : k = nid ∧ l = lc
    · obtain ⟨rfl, rfl⟩ := hkl
      rcases hc2 with e2 | ⟨hnot, e2⟩
      · left
        rw [e2, e1]
      · right
        rw [e1] at hnot e2
        exact ⟨hnot, e2⟩
    · left
      rw [ho2 k l (by
        by_contra hx
        push_neg at hx
        exact hkl hx), e1]

/-- The linking loops keep every neighbour list duplicate-free, and leave each
list of a node other than the new one as it was or with the new id appended. -/
theorem linkNeighbors_lists (nodes nodes' : List (Int × Node R)) (id lc : Int)
    (neighbors : List Int) (base : List (Int × Node R))
    (hl : linkNeighbors id lc neighbors nodes = some nodes')
    (hnd : ∀ k l, (listAt nodes k l).Nodup)
    (hgrow : ∀ k, k ≠ id → ∀ l, listAt nodes k l = listAt base k l ∨
      listAt nodes k l = listAt base k l ++ [id]) :
    (∀ k l, (listAt nodes' k l).Nodup) ∧
      (∀ k, k ≠ id → ∀ l, listAt nodes' k l = listAt base k l ∨
        listAt nodes' k l = listAt base k l ++ [id]) := by
  unfold linkNeighbors at hl
  refine forEach_inv (linkNeighbor id lc)
    (fun s => (∀ k l, (listAt s k l).Nodup) ∧
      (∀ k, k ≠ id → ∀ l, listAt s k l = listAt base k l ∨
        listAt s k l = listAt base k l ++ [id])) neighbors nodes nodes' ?_ ⟨hnd, hgrow⟩ hl
  intro nid _ t t' ⟨hn, hg⟩ hb
  constructor
  · intro k l
    have hb' := hb
    unfold linkNeighbor at hb'
    split at hb'
    · simp at hb'
    · next nodes1 h1 =>
      obtain ⟨ho1, hc1⟩ := addNeighborAt_listAt t nodes1 id lc nid h1
      obtain ⟨ho2, hc2⟩ := addNeighborAt_listAt nodes1 t' nid lc id hb'
      have hn1 : ∀ k l, (listAt nodes1 k l).Nodup := by
        intro k l
        by_cases hkl : k = id ∧ l = lc
        · obtain ⟨rfl, rfl⟩ := hkl
          rcases hc1 with e | ⟨hnot, e⟩
          · rw [e]
            exact hn _ _
          · rw [e]
            exact nodup_append_singleton (hn _ _) hnot
        · rw [ho1 k l (by
            by_contra hx
            push_neg at hx
            exact hkl hx)]
          exact hn _ _
      by_cases hkl : k = nid ∧ l = lc
      · obtain ⟨rfl, rfl⟩ := hkl
        rcases hc2 with e | ⟨hnot, e⟩
        · rw [e]
          exact hn1 _ _
        · rw [e]
          exact nodup_append_singleton (hn1 _ _) hnot
      · rw [ho2 k l (by
          by_contra hx
          push_neg at hx
          exact hkl hx)]
        exact hn1 _ _
  · intro k hk l
    rcases linkNeighbor_other t t' id lc nid k l hk hb with e | ⟨hnot, e⟩
    · rw [e]
      exact hg k hk l
    · rcases hg k hk l with g | g
      · right
        rw [e, g]
      · rw [g] at hnot
        simp at hnot

end Degree
end Hnsw
namespace Hnsw

section Degree2

variable {R : Type} [LinearOrderedField R]

theorem connectLevels_lists (id : Int) (vector : List R) (base : List (Int × Node R)) :
    ∀ (n : Nat) (lc currObj : Int) (h h' : HNSW R),
      connectLevels id vector n lc currObj h = some h' →
      (∀ k l, (listAt h.nodes k l).Nodup) →
      (∀ k, k ≠ id → ∀ l, listAt h.nodes k l = listAt base k l ∨
        listAt h.nodes k l = listAt base k l ++ [id]) →
      (∀ k l, (listAt h'.nodes k l).Nodup) ∧
        (∀ k, k ≠ id → ∀ l, listAt h'.nodes k l = listAt base k l ∨
          listAt h'.nodes k l = listAt base k l ++ [id]) := by
  intro n
  induction n with
  | zero =>
    intro lc currObj h h' hcl hnd hg
    simp [connectLevels] at hcl
    subst hcl
    exact ⟨hnd, hg⟩
  | succ n ih =>
    intro lc currObj h h' hcl hnd hg
    unfold connectLevels at hcl
    split at hcl
    · simp at hcl
    · split at hcl
      · simp at hcl
      · next neighbors _ =>
        split at hcl
        · simp at hcl
        · next nodes hlink =>
          obtain ⟨hnd1, hg1⟩ := linkNeighbors_lists h.nodes nodes id lc neighbors base hlink hnd hg
          exact ih (lc - 1) id { h with nodes := nodes } h' hcl hnd1 hg1

theorem connectLevels_own (id : Int) (vector : List R) :
    ∀ (n : Nat) (lc currObj : Int) (h h' : HNSW R), NeighborsClosed h.nodes →
      0 ≤ h.config.M → (∀ l, l ≤ lc → listAt h.nodes id l = []) →
      (∀ l, ((listAt h.nodes id l).length : Int) ≤ h.config.M) →
      connectLevels id vector n lc currObj h = some h' →
      ∀ l, ((listAt h'.nodes id l).length : Int) ≤ h.config.M := by
  intro n
  induction n with
  | zero =>
    intro lc currObj h h' _ _ _ hb hcl
    simp [connectLevels] at hcl
    subst hcl
    exact hb
  | succ n ih =>
    intro lc currObj h h' hc hM hempty hb hcl
    unfold connectLevels at hcl
    split at hcl
    · simp at hcl
    · next candidates hsl =>
      split at hcl
      · simp at hcl
      · next neighbors hsel =>
        split at hcl
        · simp at hcl
        · next nodes hlink =>
          have hcp := searchLayer_present h vector currObj _ lc candidates hsl
          obtain ⟨l0, hsel0, _, _, hlen0, _⟩ := selectNeighborsHeuristic_spec h vector candidates
            h.config.M lc true true hc hcp hM
            (selectNeighborsHeuristic_makeOK h vector candidates _ lc true true neighbors hsel).2
          rw [hsel] at hsel0
          simp at hsel0
          subst hsel0
          have hnp := selectNeighborsHeuristic_present h vector candidates _ _ _ _ neighbors hsel
          obtain ⟨hc1, _⟩ := linkNeighbors_closed h.nodes nodes id lc neighbors hc hnp hlink
          obtain ⟨hown1, hown2⟩ := linkNeighbors_own id lc neighbors h.nodes nodes hlink
          have := ih (lc - 1) id { h with nodes := nodes } h' hc1 hM
            (by
              intro l hl
              show listAt nodes id l = []
              rw [hown2 l (by omega)]
              exact hempty l (by omega))
            (by
              intro l
              show ((listAt nodes id l).length : Int) ≤ h.config.M
              by_cases hl : l = lc
              · subst hl
                have he := hempty l (le_refl _)
                rw [he] at hown1
                simp only [List.length_nil, Nat.zero_add] at hown1
                omega
              · rw [hown2 l hl]
                exact hb l)
            hcl
          exact this

theorem listAt_mapSet_ne (nodes : List (Int × Node R)) (id k l : Int) (nd : Node R)
    (hk : k ≠ id) : listAt (mapSet nodes id nd) k l = listAt nodes k l := by
  unfold listAt
  rw [mapGet_mapSet_ne _ _ _ _ hk]

theorem listAt_mapSet_new (nodes : List (Int × Node R)) (id l : Int) (vector : List R)
    (level : Int) : listAt (mapSet nodes id (NewNode id vector level)) id l = [] := by
  unfold listAt
  rw [mapGet_mapSet_same]
  simp [Node.levelList, NewNode, mapGet]

/-- A call of `Insert` that returns keeps every neighbour list duplicate-free
and leaves each list of a node other than `id` as it was or with `id`
appended. -/
theorem Insert_lists (h : HNSW R) (id : Int) (vector : List R) (level : Int)
    (r : InsertResult R) (hi : Insert h id vector level = some r)
    (hnd : ∀ k l, (listAt h.nodes k l).Nodup) :
    (∀ k l, (listAt r.state.nodes k l).Nodup) ∧
      (∀ k, k ≠ id → ∀ l, listAt r.state.nodes k l = listAt h.nodes k l ∨
        listAt r.state.nodes k l = listAt h.nodes k l ++ [id]) := by
  unfold Insert at hi
  split at hi
  · simp at hi
    subst hi
    exact ⟨hnd, fun _ _ _ => Or.inl rfl⟩
  · have hgl : (generateLevel h level).2.nodes = h.nodes := by
      unfold generateLevel
      split <;> rfl
    have hnd2 : ∀ k l, (listAt (mapSet h.nodes id (NewNode id vector level)) k l).Nodup := by
      intro k l
      by_cases hk : k = id
      · subst hk
        rw [listAt_mapSet_new]
        exact List.nodup_nil
      · rw [listAt_mapSet_ne _ _ _ _ _ hk]
        exact hnd k l
    have hg2 : ∀ k, k ≠ id → ∀ l,
        listAt (mapSet h.nodes id (NewNode id vector level)) k l = listAt h.nodes k l ∨
        listAt (mapSet h.nodes id (NewNode id vector level)) k l = listAt h.nodes k l ++ [id] :=
      fun k hk l => Or.inl (listAt_mapSet_ne _ _ _ _ _ hk)
    simp only at hi
    split at hi
    · simp at hi
      subst hi
      simp only
      rw [hgl]
      exact ⟨hnd2, hg2⟩
    · split at hi
      · simp at hi
      · split at hi
        · simp at hi
        · next h3 hcl =>
          simp at hi
          subst hi
          refine connectLevels_lists id vector h.nodes _ _ _ _ h3 hcl ?_ ?_
          · simp only
            rw [hgl]
            exact hnd2
          · simp only
            rw [hgl]
            exact hg2

/-- After a successful `Insert` into an index with referential integrity and
`M ≥ 0`, the new node has at most `M` neighbours on every level. -/
theorem Insert_own (h : HNSW R) (id : Int) (vector : List R) (level : Int)
    (r : InsertResult R) (hwf : WellFormed h) (hM : 0 ≤ h.config.M)
    (hi : Insert h id vector level = some r) (herr : r.err = false) :
    ∀ l, ((listAt r.state.nodes id l).length : Int) ≤ h.config.M := by
  obtain ⟨hc, _⟩ := hwf
  unfold Insert at hi
  split at hi
  · simp at hi
    subst hi
    simp at herr
  · have hgl : (generateLevel h level).2.nodes = h.nodes ∧
        (generateLevel h level).2.config = h.config := by
      unfold generateLevel
      split <;> exact ⟨rfl, rfl⟩
    have hc2 : NeighborsClosed (mapSet h.nodes id (NewNode id vector level)) := by
      intro k nd hk l ns hl m hm
      by_cases hkk : k = id
      · subst hkk
        rw [mapGet_mapSet_same] at hk
        simp at hk
        subst hk
        simp [NewNode, mapGet] at hl
      · rw [mapGet_mapSet_ne _ _ _ _ hkk] at hk
        exact Present_mapSet _ _ _ _ (hc k nd hk l ns hl m hm)
    simp only at hi
    split at hi
    · simp at hi
      subst hi
      intro l
      simp only
      rw [hgl.1, listAt_mapSet_new]
      simpa using hM
    · split at hi
      · simp at hi
      · split at hi
        · simp at hi
        · next h3 hcl =>
          simp at hi
          subst hi
          have := connectLevels_own id vector _ _ _ _ h3
            (by simp only; rw [hgl.1]; exact hc2)
            (by simp only; rw [hgl.2]; exact hM)
            (by intro l _; simp only; rw [hgl.1]; exact listAt_mapSet_new _ _ _ _ _)
            (by
              intro l
              simp only
              rw [hgl.1, hgl.2, listAt_mapSet_new]
              simpa using hM)
            hcl
          simp only at this
          rw [hgl.2] at this
          exact this

/-- In every reachable index state every neighbour list is duplicate-free. -/
theorem Reachable_nodup {h : HNSW R} (hr : Reachable h) : ∀ k l, (listAt h.nodes k l).Nodup := by
  induction hr with
  | new cfg distFunc =>
    intro k l
    simp [listAt, mapGet]
  | insert id vector level r _ hi ih => exact (Insert_lists _ id vector level r hi ih).1

theorem listAt_present (nodes : List (Int × Node R)) (hc : NeighborsClosed nodes) (k l : Int) :
    ∀ m ∈ listAt nodes k l, Present nodes m := by
  intro m hm
  unfold listAt at hm
  split at hm
  · simp at hm
  · next nd hnd =>
    unfold Node.levelList at hm
    cases hg : mapGet nd.Neighbors l with
    | none => rw [hg] at hm; simp at hm
    | some ns =>
      rw [hg] at hm
      exact hc k nd hnd l ns hg m hm

end Degree2
end Hnsw
namespace Hnsw

section StoredLevels

variable {R : Type} [LinearOrderedField R]

theorem addNeighborAt_bounded (nodes nodes' : List (Int × Node R)) (key lc nid : Int)
    (ha : addNeighborAt nodes key lc nid = some nodes')
    (hb : ∀ k nd, mapGet nodes k = some nd → LevelBounded nd) :
    ∀ k nd, mapGet nodes' k = some nd → LevelBounded nd := by
  unfold addNeighborAt at ha
  split at ha
  · simp at ha
  · next n hkey =>
    split at ha
    · next n' hadd =>
      simp at ha
      subst ha
      intro k nd hk
      by_cases hkk : k = key
      · subst hkk
        rw [mapGet_mapSet_same] at hk
        simp at hk
        subst hk
        exact AddNeighbor_levelBounded n n' lc nid (hb k n hkey) hadd
      · rw [mapGet_mapSet_ne _ _ _ _ hkk] at hk
        exact hb k nd hk
    · simp at ha
      subst ha
      exact hb

theorem linkNeighbors_bounded (nodes nodes' : List (Int × Node R)) (id lc : Int)
    (neighbors : List Int) (hl : linkNeighbors id lc neighbors nodes = some nodes')
    (hb : ∀ k nd, mapGet nodes k = some nd → LevelBounded nd) :
    ∀ k nd, mapGet nodes' k = some nd → LevelBounded nd := by
  unfold linkNeighbors at hl
  refine forEach_inv (linkNeighbor id lc)
    (fun s => ∀ k nd, mapGet s k = some nd → LevelBounded nd) neighbors nodes nodes' ?_ hb hl
  intro a _ t t' ht hstep
  unfold linkNeighbor at hstep
  split at hstep
  · simp at hstep
  · next nodes1 h1 =>
    exact addNeighborAt_bounded _ _ _ _ _ hstep (addNeighborAt_bounded _ _ _ _ _ h1 ht)

theorem connectLevels_bounded (id : Int) (vector : List R) :
    ∀ (n : Nat) (lc currObj : Int) (h h' : HNSW R),
      connectLevels id vector n lc currObj h = some h' →
      (∀ k nd, mapGet h.nodes k = some nd → LevelBounded nd) →
      ∀ k nd, mapGet h'.nodes k = some nd → LevelBounded nd := by
  intro n
  induction n with
  | zero =>
    intro lc currObj h h' hcl hb
    simp [connectLevels] at hcl
    subst hcl
    exact hb
  | succ n ih =>
    intro lc currObj h h' hcl hb
    unfold connectLevels at hcl
    split at hcl
    · simp at hcl
    · split at hcl
      · simp at hcl
      · next neighbors _ =>
        split at hcl
        · simp at hcl
        · next nodes hlink =>
          exact ih (lc - 1) id { h with nodes := nodes } h' hcl
            (linkNeighbors_bounded _ _ _ _ _ hlink hb)

theorem NewNode_levelBounded (id : Int) (vector : List R) (level : Int) :
    LevelBounded (NewNode id vector level) := by
  intro p hp
  simp [NewNode] at hp

theorem Insert_bounded (h : HNSW R) (id : Int) (vector : List R) (level : Int)
    (r : InsertResult R) (hi : Insert h id vector level = some r)
    (hb : ∀ k nd, mapGet h.nodes k = some nd → LevelBounded nd) :
    ∀ k nd, mapGet r.state.nodes k = some nd → LevelBounded nd := by
  unfold Insert at hi
  split at hi
  · simp at hi
    subst hi
    exact hb
  · have hgl : (generateLevel h level).2.nodes = h.nodes := by
      unfold generateLevel
      split <;> rfl
    have hb2 : ∀ k nd, mapGet (mapSet h.nodes id (NewNode id vector level)) k = some nd →
        LevelBounded nd := by
      intro k nd hk
      by_cases hkk : k = id
      · subst hkk
        rw [mapGet_mapSet_same] at hk
        simp at hk
        subst hk
        exact NewNode_levelBounded _ _ _
      · rw [mapGet_mapSet_ne _ _ _ _ hkk] at hk
        exact hb k nd hk
    simp only at hi
    split at hi
    · simp at hi
      subst hi
      simp only
      rw [hgl]
      exact hb2
    · split at hi
      · simp at hi
      · split at hi
        · simp at hi
        · next h3 hcl =>
          simp at hi
          subst hi
          refine connectLevels_bounded id vector _ _ _ _ h3 hcl ?_
          simp only
          rw [hgl]
          exact hb2

/-- Every node stored in a reachable index keeps its neighbour map within its
own levels. -/
theorem Reachable_bounded {h : HNSW R} (hr : Reachable h) :
    ∀ k nd, mapGet h.nodes k = some nd → LevelBounded nd := by
  induction hr with
  | new cfg distFunc =>
    intro k nd hk
    simp [mapGet] at hk
  | insert id vector level r _ hi ih => exact Insert_bounded _ id vector level r hi ih

end StoredLevels
end Hnsw
namespace Hnsw

section RemoveLemmas

variable {R : Type}

theorem take_indexOf_drop (x : Int) :
    ∀ (l : List Int), x ∈ l → l.take (l.indexOf x) ++ l.drop (l.indexOf x + 1) = l.erase x := by
  intro l
  induction l with
  | nil => intro hx; simp at hx
  | cons y ys ih =>
    intro hx
    by_cases hy : y = x
    · subst hy
      simp [List.indexOf_cons_self]
    · have hx2 : x ∈ ys := by
        rcases List.mem_cons.mp hx with h1 | h1
        · exact absurd h1.symm hy
        · exact h1
      rw [List.indexOf_cons_ne _ hy]
      simp only [List.take_succ_cons, List.drop_succ_cons, List.cons_append]
      rw [ih hx2, List.erase_cons_tail (by simpa using hy)]

theorem RemoveNeighbor_ok_iff (n : Node R) (level nid : Int) :
    (∃ n', n.RemoveNeighbor level nid = .ok n') ↔
      (n.deleted = false ∧ nid ∈ n.levelList level) := by
  unfold Node.RemoveNeighbor Node.levelList
  by_cases hd : n.deleted = true
  · simp [hd]
  · have hd2 : n.deleted = false := by simpa using hd
    simp only [hd2]
    cases hg : mapGet n.Neighbors level with
    | none => simp
    | some ns =>
      by_cases hm : nid ∈ ns
      · simp [hm]
      · simp [hm]

/-- What a successful `RemoveNeighbor` writes. -/
theorem RemoveNeighbor_ok (n n' : Node R) (level nid : Int)
    (hr : n.RemoveNeighbor level nid = .ok n') :
    n'.levelList level = (n.levelList level).erase nid ∧
      (∀ l, l ≠ level → mapGet n'.Neighbors l = mapGet n.Neighbors l) ∧
      n'.ID = n.ID ∧ n'.Vector = n.Vector ∧ n'.Level = n.Level ∧ n'.deleted = n.deleted := by
  unfold Node.RemoveNeighbor at hr
  split at hr
  · simp at hr
  · split at hr
    · simp at hr
    · next ns hg =>
      split at hr
      · next hm =>
        simp at hr
        subst hr
        refine ⟨?_, ?_, rfl, rfl, rfl, rfl⟩
        · show (mapGet (mapSet n.Neighbors level _) level).getD [] = _
          rw [mapGet_mapSet_same]
          unfold Node.levelList
          rw [hg]
          simp only [Option.getD_some]
          exact take_indexOf_drop nid ns hm
        · intro l hl
          show mapGet (mapSet n.Neighbors level _) l = _
          exact mapGet_mapSet_ne _ _ _ _ hl
      · simp at hr

end RemoveLemmas
end Hnsw
namespace Hnsw

section QueueLemmas

variable {R : Type} [LinearOrderedField R]

theorem PopItem_nil : (PopItem ([] : PriorityQueue R)).2 = [] := by
  simp [PopItem]

theorem apply_isHeap (pq : PriorityQueue R) (op : QueueOp R) (hh : IsHeap pq) :
    IsHeap (QueueOp.apply pq op) := by
  cases op with
  | push nodeID distance => exact PushItem_isHeap hh nodeID distance
  | pop =>
    by_cases hne : pq = []
    · subst hne
      show IsHeap (PopItem ([] : PriorityQueue R)).2
      rw [PopItem_nil]
      exact isHeap_nil
    · exact (PopItem_spec hh hne).1

theorem foldl_apply_isHeap (ops : List (QueueOp R)) :
    ∀ (pq : PriorityQueue R), IsHeap pq → IsHeap (ops.foldl QueueOp.apply pq) := by
  induction ops with
  | nil => intro pq hh; exact hh
  | cons op rest ih =>
    intro pq hh
    exact ih _ (apply_isHeap pq op hh)

/-- Every queue produced by `PushItem` and `PopItem` calls from the empty
queue satisfies the heap condition. -/
theorem runQueue_isHeap (ops : List (QueueOp R)) : IsHeap (runQueue ops) :=
  foldl_apply_isHeap ops _ isHeap_nil

theorem foldl_push_entries (items : List (Int × WithTop R)) :
    ∀ (pq : PriorityQueue R),
      List.Perm
        (entriesOf ((items.map (fun p => QueueOp.push p.1 p.2)).foldl QueueOp.apply pq))
        (items ++ entriesOf pq) := by
  induction items with
  | nil => intro pq; exact List.Perm.refl _
  | cons p rest ih =>
    intro pq
    simp only [List.map_cons, List.foldl_cons]
    refine (ih _).trans ?_
    have h1 : List.Perm (entriesOf (QueueOp.apply pq (QueueOp.push p.1 p.2)))
        (p :: entriesOf pq) := by
      have := (PushItem_perm pq p.1 p.2).map (fun it : Item R => (it.NodeID, it.Distance))
      simpa [entriesOf, QueueOp.apply] using this
    refine (List.Perm.append_left rest h1).trans ?_
    exact List.perm_middle

/-- Draining a heap lists its entries nearest first. -/
theorem drainItems_spec : ∀ (fuel : Nat) (pq : PriorityQueue R), IsHeap pq → pq.length ≤ fuel →
    List.Perm (drainItems fuel pq) (entriesOf pq) ∧
      (drainItems fuel pq).Pairwise (fun a b => a.2 ≤ b.2) := by
  intro fuel
  induction fuel with
  | zero =>
    intro pq _ hl
    have : pq = [] := List.length_eq_zero.mp (by omega)
    subst this
    simp [drainItems, entriesOf]
  | succ f ih =>
    intro pq hh hl
    by_cases hne : pq = []
    · subst hne
      simp [drainItems, entriesOf]
    · have hlen : ¬ pq.length = 0 := by simpa using hne
      obtain ⟨hh2, hmin⟩ := PopItem_spec hh hne
      have hperm := PopItem_perm hne
      have hl2 : (PopItem pq).2.length ≤ f := by
        have := PopItem_length hne
        omega
      obtain ⟨ih1, ih2⟩ := ih (PopItem pq).2 hh2 hl2
      rw [drainItems, if_neg hlen]
      constructor
      · have h3 := hperm.map (fun it : Item R => (it.NodeID, it.Distance))
        simp only [List.map_cons] at h3
        exact (List.Perm.cons _ ih1).trans h3.symm
      · refine List.Pairwise.cons ?_ ih2
        intro y hy
        have hy2 := ih1.mem_iff.mp hy
        obtain ⟨it, hit, rfl⟩ := List.mem_map.mp hy2
        exact hmin it (PopItem_snd_mem hne hit)

end QueueLemmas
end Hnsw
namespace Hnsw

section Keys

variable {R : Type} [LinearOrderedField R]

theorem mapGet_isSome_iff_mem_keys {β : Type} (m : List (Int × β)) (k : Int) :
    (∃ v, mapGet m k = some v) ↔ k ∈ m.map Prod.fst := by
  induction m with
  | nil => simp [mapGet]
  | cons p m ih =>
    obtain ⟨k0, v0⟩ := p
    unfold mapGet
    by_cases hk : k0 = k
    · simp [hk]
    · simp only [hk, if_false, List.map_cons, List.mem_cons]
      rw [ih]
      constructor
      · intro hm; exact Or.inr hm
      · intro hm
        rcases hm with h1 | h1
        · exact absurd h1.symm hk
        · exact h1

theorem mapSet_keys_present {β : Type} (m : List (Int × β)) (k : Int) (v : β)
    (hk : k ∈ m.map Prod.fst) : (mapSet m k v).map Prod.fst = m.map Prod.fst := by
  induction m with
  | nil => simp at hk
  | cons p m ih =>
    obtain ⟨k0, v0⟩ := p
    unfold mapSet
    by_cases h0 : k0 = k
    · simp [h0]
    · simp only [h0, if_false, List.map_cons]
      rw [ih]
      simp only [List.map_cons, List.mem_cons] at hk
      rcases hk with h1 | h1
      · exact absurd h1.symm h0
      · exact h1

theorem mapSet_keys_absent {β : Type} (m : List (Int × β)) (k : Int) (v : β)
    (hk : k ∉ m.map Prod.fst) : (mapSet m k v).map Prod.fst = m.map Prod.fst ++ [k] := by
  induction m with
  | nil => simp [mapSet]
  | cons p m ih =>
    obtain ⟨k0, v0⟩ := p
    simp only [List.map_cons, List.mem_cons, not_or] at hk
    unfold mapSet
    have h0 : ¬ k0 = k := fun hc => hk.1 hc.symm
    simp only [h0, if_false, List.map_cons, List.cons_append]
    rw [ih hk.2]

theorem addNeighborAt_keys (nodes nodes' : List (Int × Node R)) (key lc nid : Int)
    (ha : addNeighborAt nodes key lc nid = some nodes') :
    nodes'.map Prod.fst = nodes.map Prod.fst := by
  unfold addNeighborAt at ha
  split at ha
  · simp at ha
  · next n hkey =>
    split at ha
    · simp at ha
      subst ha
      exact mapSet_keys_present _ _ _ ((mapGet_isSome_iff_mem_keys _ _).mp ⟨n, hkey⟩)
    · simp at ha
      subst ha
      rfl

theorem linkNeighbors_keys (nodes nodes' : List (Int × Node R)) (id lc : Int)
    (neighbors : List Int) (hl : linkNeighbors id lc neighbors nodes = some nodes') :
    nodes'.map Prod.fst = nodes.map Prod.fst := by
  unfold linkNeighbors at hl
  refine forEach_inv (linkNeighbor id lc)
    (fun s => s.map Prod.fst = nodes.map Prod.fst) neighbors nodes nodes' ?_ rfl hl
  intro a _ t t' ht hstep
  unfold linkNeighbor at hstep
  split at hstep
  · simp at hstep
  · next nodes1 h1 =>
    rw [addNeighborAt_keys _ _ _ _ _ hstep, addNeighborAt_keys _ _ _ _ _ h1]
    exact ht

theorem connectLevels_keys (id : Int) (vector : List R) :
    ∀ (n : Nat) (lc currObj : Int) (h h' : HNSW R),
      connectLevels id vector n lc currObj h = some h' → storedIds h' = storedIds h := by
  intro n
  induction n with
  | zero =>
    intro lc currObj h h' hcl
    simp [connectLevels] at hcl
    subst hcl
    rfl
  | succ n ih =>
    intro lc currObj h h' hcl
    unfold connectLevels at hcl
    split at hcl
    · simp at hcl
    · split at hcl
      · simp at hcl
      · next neighbors _ =>
        split at hcl
        · simp at hcl
        · next nodes hlink =>
          rw [ih (lc - 1) id { h with nodes := nodes } h' hcl]
          exact linkNeighbors_keys _ _ _ _ _ hlink

/-- What a successful `Insert` does to the id list, the maximum level and the
entry point. -/
theorem Insert_frame (h : HNSW R) (id : Int) (vector : List R) (level : Int)
    (r : InsertResult R) (hi : Insert h id vector level = some r) (herr : r.err = false) :
    storedIds r.state = storedIds h ++ [id] ∧
      r.state.maxLevel = (if level > h.maxLevel then level else h.maxLevel) ∧
      r.state.entryPoint = (if h.entryPoint = 0 then id else h.entryPoint) := by
  unfold Insert at hi
  split at hi
  · simp at hi
    subst hi
    simp at herr
  · next hnone =>
    have hgl : (generateLevel h level).2.nodes = h.nodes ∧
        (generateLevel h level).2.entryPoint = h.entryPoint ∧
        (generateLevel h level).2.maxLevel = (if level > h.maxLevel then level else h.maxLevel) := by
      unfold generateLevel
      split <;> simp [*]
    have hkeys : (mapSet h.nodes id (NewNode id vector level)).map Prod.fst
        = h.nodes.map Prod.fst ++ [id] := by
      refine mapSet_keys_absent _ _ _ ?_
      intro hc
      obtain ⟨v, hv⟩ := (mapGet_isSome_iff_mem_keys _ _).mpr hc
      rw [hnone] at hv
      simp at hv
    simp only at hi
    split at hi
    · next hep =>
      simp at hi
      subst hi
      replace hep : h.entryPoint = 0 := by rw [← hgl.2.1]; exact hep
      refine ⟨?_, hgl.2.2, ?_⟩
      · simp only [storedIds]
        rw [hgl.1]
        exact hkeys
      · simp [hep]
    · next hep =>
      replace hep : ¬ h.entryPoint = 0 := by rw [← hgl.2.1]; exact hep
      split at hi
      · simp at hi
      · split at hi
        · simp at hi
        · next h3 hcl =>
          simp at hi
          subst hi
          obtain ⟨_, he, hm, _, _⟩ := connectLevels_data id vector _ _ _ _ h3 hcl
          refine ⟨?_, ?_, ?_⟩
          · rw [connectLevels_keys id vector _ _ _ _ h3 hcl]
            simp only [storedIds]
            rw [hgl.1]
            exact hkeys
          · rw [hm]
            exact hgl.2.2
          · rw [he]
            simp only
            rw [hgl.2.1, if_neg hep]

end Keys

section MaxLevel

variable {R : Type} [LinearOrderedField R]

/-- In an index reached with non-negative level draws, `maxLevel` is 0 while
no node is stored, bounds the level of every stored node, and is the level of
some stored node once there is one. -/
theorem ReachableNonneg_maxLevel {h : HNSW R} (hr : ReachableNonneg h) :
    (h.nodes = [] → h.maxLevel = 0) ∧
      (∀ k nd, mapGet h.nodes k = some nd → nd.Level ≤ h.maxLevel) ∧
      (h.nodes ≠ [] → ∃ k nd, mapGet h.nodes k = some nd ∧ nd.Level = h.maxLevel) := by
  induction hr with
  | new cfg distFunc =>
    refine ⟨fun _ => rfl, ?_, fun hne => absurd rfl hne⟩
    intro k nd hk
    simp [mapGet] at hk
  | @insert h id vector level r _ hlv hi ih =>
    obtain ⟨ih1, ih2, ih3⟩ := ih
    by_cases herr : r.err = true
    · have hst : r.state = h := by
        unfold Insert at hi
        split at hi
        · simp at hi
          subst hi
          rfl
        · simp only at hi
          split at hi
          · simp at hi
            subst hi
            simp at herr
          · split at hi
            · simp at hi
            · split at hi
              · simp at hi
              · simp at hi
                subst hi
                simp at herr
      rw [hst]
      exact ⟨ih1, ih2, ih3⟩
    · have herr2 : r.err = false := by simpa using herr
      obtain ⟨⟨ndn, hndn, _, hlvn⟩, hnone, hsd, _, _⟩ := Insert_stores h id vector level r hi herr2
      obtain ⟨hkeys, hmax, _⟩ := Insert_frame h id vector level r hi herr2
      have hne : r.state.nodes ≠ [] := by
        intro hc
        rw [hc] at hndn
        simp [mapGet] at hndn
      have hold : ∀ k nd', mapGet r.state.nodes k = some nd' → k ≠ id →
          ∃ nd, mapGet h.nodes k = some nd ∧ nd'.Level = nd.Level := by
        intro k nd' hk hkid
        have hmem : k ∈ storedIds r.state := (mapGet_isSome_iff_mem_keys _ _).mp ⟨nd', hk⟩
        rw [hkeys] at hmem
        simp only [List.mem_append, List.mem_singleton] at hmem
        rcases hmem with h1 | h1
        · obtain ⟨nd, hnd⟩ := (mapGet_isSome_iff_mem_keys _ _).mpr h1
          obtain ⟨nd2, hnd2, _, _, hl2, _⟩ := hsd k nd hnd
          rw [hk] at hnd2
          simp at hnd2
          subst hnd2
          exact ⟨nd, hnd, hl2⟩
        · exact absurd h1 hkid
      refine ⟨fun hc => absurd hc hne, ?_, fun _ => ?_⟩
      · intro k nd' hk
        rw [hmax]
        by_cases hkid : k = id
        · subst hkid
          rw [hndn] at hk
          simp at hk
          subst hk
          rw [hlvn]
          split <;> omega
        · obtain ⟨nd, hnd, hl⟩ := hold k nd' hk hkid
          have := ih2 k nd hnd
          rw [hl]
          split <;> omega
      · rw [hmax]
        by_cases hgt : level > h.maxLevel
        · rw [if_pos hgt]
          exact ⟨id, ndn, hndn, hlvn⟩
        · rw [if_neg hgt]
          by_cases hnil : h.nodes = []
          · have h0 := ih1 hnil
            refine ⟨id, ndn, hndn, ?_⟩
            rw [hlvn]
            omega
          · obtain ⟨k, nd, hnd, hl⟩ := ih3 hnil
            obtain ⟨nd2, hnd2, _, _, hl2, _⟩ := hsd k nd hnd
            exact ⟨k, nd2, hnd2, by rw [hl2, hl]⟩

theorem ReachableNonneg_insertMany (ops : List (Int × List R × Int))
    (hops : ∀ op ∈ ops, 0 ≤ op.2.2) :
    ∀ (h : HNSW R), ReachableNonneg h → ReachableNonneg (insertMany h ops) := by
  induction ops with
  | nil => intro h hr; exact hr
  | cons op rest ih =>
    intro h hr
    obtain ⟨id, vector, level⟩ := op
    have h0 : 0 ≤ level := hops (id, vector, level) (List.mem_cons_self _ _)
    unfold insertMany
    split
    · next r hi =>
      exact ih (fun op hop => hops op (List.mem_cons_of_mem _ hop)) r.state
        (ReachableNonneg.insert id vector level r hr h0 hi)
    · exact hr

end MaxLevel
end Hnsw
namespace Hnsw

/-! ## searchLayer inside a cluster that fits the results queue -/

section Cluster

variable {R : Type} [LinearOrderedField R]

theorem visitNeighbor_cluster (h : HNSW R) (q : List R) (ef : Int) (S : List Int) (x : Int)
    (st st' : SearchState R) (hef : (S.length : Int) ≤ ef) (hx : x ∈ S)
    (hinv : ClusterInv h q S st) (hv : visitNeighbor h q ef x st = some st') :
    ClusterInv h q S st' ∧ x ∈ st'.visited ∧ (∀ y ∈ st.visited, y ∈ st'.visited) := by
  obtain ⟨hheap, hok, hperm, hnd, hsub, hcand⟩ := hinv
  unfold visitNeighbor at hv
  split at hv
  · next hin =>
    simp at hv
    subst hv
    exact ⟨⟨hheap, hok, hperm, hnd, hsub, hcand⟩, hin, fun y hy => hy⟩
  · next hnot =>
    split at hv
    · simp at hv
    · next nb hnb =>
      have hnd1 : (x :: st.visited).Nodup := List.nodup_cons.mpr ⟨hnot, hnd⟩
      have hsub1 : ∀ y ∈ x :: st.visited, y ∈ S := by
        intro y hy
        rcases List.mem_cons.mp hy with rfl | hy
        · exact hx
        · exact hsub y hy
      have hlen1 : (x :: st.visited).length ≤ S.length :=
        (List.Nodup.subperm hnd1 hsub1).length_le
      have hrl : st.results.length = st.visited.length := by
        simpa using hperm.length_eq
      simp only [List.length_cons] at hlen1
      have hpl := PushItem_length st.results x (h.distFunc q nb.GetVector)
      simp only at hv
      split at hv
      · split at hv
        · next hgt => omega
        · simp at hv
          subst hv
          refine ⟨⟨PushItem_isHeap hheap _ _, ?_, ?_, hnd1, hsub1, ?_⟩,
            List.mem_cons_self _ _, fun y hy => List.mem_cons_of_mem _ hy⟩
          · intro it hit
            rcases mem_PushItem.mp hit with rfl | hit
            · exact ⟨nb, hnb, rfl⟩
            · exact hok it hit
          · have := (PushItem_perm st.results x (h.distFunc q nb.GetVector)).map
              (fun it : Item R => it.NodeID)
            simp only [List.map_cons] at this
            exact this.trans (List.Perm.cons _ hperm)
          · intro it hit
            rcases mem_PushItem.mp hit with rfl | hit
            · exact hx
            · exact hcand it hit
      · next hacc =>
        exfalso
        apply hacc
        split
        · rfl
        · simp only [Bool.or_eq_true, decide_eq_true_eq]
          left
          omega

theorem visitNeighbors_cluster (h : HNSW R) (q : List R) (ef : Int) (S : List Int)
    (hef : (S.length : Int) ≤ ef) :
    ∀ (ns : List Int) (st st' : SearchState R), (∀ x ∈ ns, x ∈ S) → ClusterInv h q S st →
      visitNeighbors h q ef ns st = some st' →
      ClusterInv h q S st' ∧ (∀ x ∈ ns, x ∈ st'.visited) ∧
        (∀ y ∈ st.visited, y ∈ st'.visited) := by
  intro ns
  induction ns with
  | nil =>
    intro st st' _ hinv hv
    simp [visitNeighbors, forEach] at hv
    subst hv
    exact ⟨hinv, fun x hx => by simp at hx, fun y hy => hy⟩
  | cons a rest ih =>
    intro st st' hns hinv hv
    unfold visitNeighbors at hv
    unfold forEach at hv
    split at hv
    · simp at hv
    · next st1 h1 =>
      obtain ⟨hinv1, ha, hmono1⟩ :=
        visitNeighbor_cluster h q ef S a st st1 hef (hns a (List.mem_cons_self _ _)) hinv h1
      obtain ⟨hinv2, hrest, hmono2⟩ :=
        ih st1 st' (fun x hx => hns x (List.mem_cons_of_mem _ hx)) hinv1 hv
      refine ⟨hinv2, ?_, fun y hy => hmono2 y (hmono1 y hy)⟩
      intro x hx
      rcases List.mem_cons.mp hx with rfl | hx
      · exact hmono2 x ha
      · exact hrest x hx

theorem searchLoop_neighbors (h : HNSW R) (level id : Int) (nd : Node R)
    (hnd : mapGet h.nodes id = some nd) :
    (match nd.GetNeighbors level with
      | .ok ns => ns
      | .error _ => []) = levelNeighbors h level id := by
  unfold levelNeighbors
  rw [hnd]

theorem searchLoop_cluster (h : HNSW R) (q : List R) (ef level : Int) (S : List Int)
    (hef : (S.length : Int) ≤ ef)
    (hcl : ∀ a ∈ S, ∀ b ∈ levelNeighbors h level a, b ∈ S) :
    ∀ (fuel : Nat) (st st' : SearchState R), ClusterInv h q S st →
      searchLoop h q ef level fuel st = some st' →
      ClusterInv h q S st' ∧ (∀ y ∈ st.visited, y ∈ st'.visited) := by
  intro fuel
  induction fuel with
  | zero =>
    intro st st' hinv hs
    unfold searchLoop at hs
    split at hs
    · simp at hs
      subst hs
      exact ⟨hinv, fun y hy => hy⟩
    · simp at hs
  | succ f ih =>
    intro st st' hinv hs
    unfold searchLoop at hs
    split at hs
    · simp at hs
      subst hs
      exact ⟨hinv, fun y hy => hy⟩
    · next hlen =>
      have hne : st.candidates ≠ [] := by
        intro hc
        exact hlen (by rw [hc]; rfl)
      obtain ⟨hheap, hok, hperm, hndv, hsub, hcand⟩ := hinv
      have hinv1 : ClusterInv h q S
          ({ st with candidates := (PopItem st.candidates).2 } : SearchState R) :=
        ⟨hheap, hok, hperm, hndv, hsub, fun it hit => hcand it (PopItem_snd_mem hne hit)⟩
      simp only at hs
      split at hs
      · simp at hs
        subst hs
        exact ⟨hinv1, fun y hy => hy⟩
      · split at hs
        · simp at hs
        · next nd hnd =>
          rw [searchLoop_neighbors h level _ nd hnd] at hs
          split at hs
          · simp at hs
          · next st1 hst1 =>
            have hpop : (PopItem st.candidates).1.1 ∈ S := hcand _ (PopItem_fst_mem hne)
            obtain ⟨hinv2, _, hmono1⟩ := visitNeighbors_cluster h q ef S hef _ _ st1
              (hcl _ hpop) hinv1 hst1
            obtain ⟨hinv3, hmono2⟩ := ih st1 st' hinv2 hs
            exact ⟨hinv3, fun y hy => hmono2 y (hmono1 y hy)⟩

end Cluster
end Hnsw
namespace Hnsw

section ClusterSearch

variable {R : Type} [LinearOrderedField R]

/-- The first pass of the main loop of `searchLayer`: the entry id is popped,
the stop test fails on it, and its neighbours are visited. -/
theorem searchLoop_seed (h : HNSW R) (q : List R) (ef level : Int) (e : Int) (ep : Node R)
    (hep : mapGet h.nodes e = some ep) (fuel : Nat) :
    searchLoop h q ef level (fuel + 1)
        ⟨[e], PushItem (NewPriorityQueue R) e (h.distFunc q ep.GetVector),
          PushItem (NewPriorityQueue R) e (h.distFunc q ep.GetVector)⟩ =
      (match visitNeighbors h q ef (levelNeighbors h level e) (seededState h q e) with
        | none => none
        | some st => searchLoop h q ef level fuel st) := by
  have hd : distTo h q e = h.distFunc q ep.GetVector := distTo_of_mapGet h q e ep hep
  rw [searchLoop]
  simp only [PushItem_nil, PopItem_singleton, Top, seededState, hd]
  simp [hep, searchLoop_neighbors h level e ep hep]

/-- On an index where the id list `S` holds stored ids, is closed under
level neighbours, has every id other than `e` among the level neighbours of
`e`, and has at most `ef` ids, `searchLayer` from `e` returns the ids of `S`,
each once, nearest first. -/
theorem searchLayer_cluster (h : HNSW R) (q : List R) (ef level : Int) (S : List Int) (e : Int)
    (l : List Int) (hS : S.Nodup) (he : e ∈ S) (hef : (S.length : Int) ≤ ef)
    (hcl : ∀ a ∈ S, ∀ b ∈ levelNeighbors h level a, b ∈ S)
    (hcomp : ∀ b ∈ S, b ≠ e → b ∈ levelNeighbors h level e)
    (hs : searchLayer h q e ef level = some l) :
    List.Perm l S ∧ (l.map (distTo h q)).Pairwise (fun a b => a ≤ b) := by
  unfold searchLayer at hs
  split at hs
  · simp at hs
  · next ep hep =>
    simp only at hs
    rw [searchLoop_seed h q ef level e ep hep] at hs
    have hd : distTo h q e = h.distFunc q ep.GetVector := distTo_of_mapGet h q e ep hep
    have hinv0 : ClusterInv h q S (seededState h q e) := by
      unfold seededState
      rw [PushItem_nil]
      refine ⟨?_, ?_, ?_, ?_, ?_, ?_⟩
      · rw [← PushItem_nil]
        exact PushItem_isHeap isHeap_nil _ _
      · intro it hit
        simp at hit
        subst hit
        exact ⟨ep, hep, hd⟩
      · simp
      · simp
      · intro x hx
        simp at hx
        subst hx
        exact he
      · intro it hit
        simp at hit
    split at hs
    · simp at hs
    · next st hst0 =>
      split at hst0
      · simp at hst0
      · next st1 hst1 =>
        have hst := hst0
        simp at hs
        obtain ⟨hinv1, hcov, hmono1⟩ := visitNeighbors_cluster h q ef S hef _ _ st1
          (hcl e he) hinv0 hst1
        obtain ⟨hinv2, hmono2⟩ := searchLoop_cluster h q ef level S hef hcl _ st1 st hinv1 hst
        obtain ⟨hheap, hok, hperm, hndv, hsub, _⟩ := hinv2
        have hall : ∀ x ∈ S, x ∈ st.visited := by
          intro x hx
          by_cases hxe : x = e
          · subst hxe
            exact hmono2 x (hmono1 x (by simp [seededState]))
          · exact hmono2 x (hcov x (hcomp x hx hxe))
        have hvS : List.Perm st.visited S :=
          (List.perm_ext_iff_of_nodup hndv hS).mpr (fun a => ⟨hsub a, hall a⟩)
        obtain ⟨items, hdr, hip, hsorted⟩ := drain_spec st.results.length st.results hheap
          (le_refl _)
        rw [hdr] at hs
        subst hs
        constructor
        · exact ((hip.map _).trans hperm).trans hvS
        · rw [List.map_map, List.pairwise_map]
          refine hsorted.imp_of_mem ?_
          intro a b ha hb hab
          have ha2 := (ItemOK_distance h q a (hok a (hip.mem_iff.mp ha))).1
          have hb2 := (ItemOK_distance h q b (hok b (hip.mem_iff.mp hb))).1
          simp only [Function.comp]
          rw [← ha2, ← hb2]
          exact hab

end ClusterSearch
end Hnsw
namespace Hnsw

/-! ## Linking in a flat index -/

section FlatLink

variable {R : Type} [LinearOrderedField R]

theorem levelNeighbors_eq_listAt (h : HNSW R) (level a : Int)
    (hdel : ∀ nd, mapGet h.nodes a = some nd → nd.deleted = false) :
    levelNeighbors h level a = listAt h.nodes a level := by
  unfold levelNeighbors listAt
  cases hg : mapGet h.nodes a with
  | none => rfl
  | some nd =>
    simp only
    unfold Node.GetNeighbors Node.levelList
    rw [hdel nd hg]
    cases mapGet nd.Neighbors level <;> simp

theorem addNeighborAt_adds (nodes nodes' : List (Int × Node R)) (key lc nid : Int) (n : Node R)
    (hkey : mapGet nodes key = some n) (hdel : n.deleted = false) (h0 : 0 ≤ lc)
    (h1 : lc ≤ n.Level) (ha : addNeighborAt nodes key lc nid = some nodes') :
    nid ∈ listAt nodes' key lc := by
  unfold addNeighborAt at ha
  rw [hkey] at ha
  simp only at ha
  split at ha
  · next n' hadd =>
    simp at ha
    subst ha
    unfold listAt
    rw [mapGet_mapSet_same]
    simp only
    rw [(AddNeighbor_ok n n' lc nid hadd).1]
    split
    · next hin => exact hin
    · simp
  · next e hadd =>
    have := (AddNeighbor_error_iff n lc nid).mp ⟨e, hadd⟩
    rcases this with hd | hl | hl
    · rw [hdel] at hd
      simp at hd
    · omega
    · omega

theorem addNeighborAt_mono (nodes nodes' : List (Int × Node R)) (key lc nid : Int)
    (ha : addNeighborAt nodes key lc nid = some nodes') :
    ∀ k l y, y ∈ listAt nodes k l → y ∈ listAt nodes' k l := by
  obtain ⟨hother, hown⟩ := addNeighborAt_listAt nodes nodes' key lc nid ha
  intro k l y hy
  by_cases hk : k = key ∧ l = lc
  · obtain ⟨rfl, rfl⟩ := hk
    rcases hown with h1 | ⟨_, h1⟩
    · rw [h1]
      exact hy
    · rw [h1]
      exact List.mem_append_left _ hy
  · rw [hother k l (by
      by_cases hk1 : k = key
      · right
        intro hl
        exact hk ⟨hk1, hl⟩
      · left
        exact hk1)]
    exact hy

theorem SameData_flat {a b : List (Int × Node R)} (hd : SameData a b)
    (hk : b.map Prod.fst = a.map Prod.fst)
    (hg : ∀ k nd, mapGet a k = some nd → nd.Level = 0 ∧ nd.deleted = false) :
    ∀ k nd, mapGet b k = some nd → nd.Level = 0 ∧ nd.deleted = false := by
  intro k nd' hk'
  have hmem : k ∈ b.map Prod.fst := (mapGet_isSome_iff_mem_keys _ _).mp ⟨nd', hk'⟩
  rw [hk] at hmem
  obtain ⟨nd, hnd⟩ := (mapGet_isSome_iff_mem_keys _ _).mpr hmem
  obtain ⟨nd2, hnd2, _, _, hl, hdl⟩ := hd k nd hnd
  rw [hk'] at hnd2
  simp at hnd2
  subst hnd2
  obtain ⟨g1, g2⟩ := hg k nd hnd
  exact ⟨by rw [hl, g1], by rw [hdl, g2]⟩

theorem addNeighborAt_flat (nodes nodes' : List (Int × Node R)) (key lc nid : Int)
    (ha : addNeighborAt nodes key lc nid = some nodes')
    (hg : ∀ k nd, mapGet nodes k = some nd → nd.Level = 0 ∧ nd.deleted = false) :
    ∀ k nd, mapGet nodes' k = some nd → nd.Level = 0 ∧ nd.deleted = false :=
  SameData_flat (addNeighborAt_data _ _ _ _ _ ha) (addNeighborAt_keys _ _ _ _ _ ha) hg

/-- In a node map whose nodes are all at level 0 and not deleted, the linking
loop at level 0 only adds ids to lists, and adds both directions of the edge
between `id` and every listed neighbour. -/
theorem linkNeighbors_links (id : Int) :
    ∀ (nbs : List Int) (nodes nodes' : List (Int × Node R)),
      (∀ k nd, mapGet nodes k = some nd → nd.Level = 0 ∧ nd.deleted = false) →
      Present nodes id → (∀ x ∈ nbs, Present nodes x) →
      linkNeighbors id 0 nbs nodes = some nodes' →
      (∀ k l y, y ∈ listAt nodes k l → y ∈ listAt nodes' k l) ∧
        (∀ x ∈ nbs, x ∈ listAt nodes' id 0 ∧ id ∈ listAt nodes' x 0) := by
  intro nbs
  induction nbs with
  | nil =>
    intro nodes nodes' _ _ _ hl
    simp [linkNeighbors, forEach] at hl
    subst hl
    exact ⟨fun _ _ _ hy => hy, fun x hx => by simp at hx⟩
  | cons a rest ih =>
    intro nodes nodes' hg hid hp hl
    unfold linkNeighbors at hl
    unfold forEach at hl
    split at hl
    · simp at hl
    · next t ht =>
      unfold linkNeighbor at ht
      split at ht
      · simp at ht
      · next n1 h1 =>
        obtain ⟨nid, hnid⟩ := hid
        obtain ⟨gl, gd⟩ := hg id nid hnid
        have e1 : a ∈ listAt n1 id 0 :=
          addNeighborAt_adds nodes n1 id 0 a nid hnid gd (le_refl _) (by omega) h1
        have hg1 := addNeighborAt_flat nodes n1 id 0 a h1 hg
        have hd1 := addNeighborAt_data nodes n1 id 0 a h1
        obtain ⟨na, hna⟩ := SameData_present hd1 a (hp a (List.mem_cons_self _ _))
        obtain ⟨gl2, gd2⟩ := hg1 a na hna
        have e2 : id ∈ listAt t a 0 :=
          addNeighborAt_adds n1 t a 0 id na hna gd2 (le_refl _) (by omega) ht
        have hgt := addNeighborAt_flat n1 t a 0 id ht hg1
        have hdt := addNeighborAt_data n1 t a 0 id ht
        have hm1 := addNeighborAt_mono nodes n1 id 0 a h1
        have hm2 := addNeighborAt_mono n1 t a 0 id ht
        have hpt : ∀ x, Present nodes x → Present t x :=
          fun x hx => SameData_present hdt x (SameData_present hd1 x hx)
        obtain ⟨hm3, hrest⟩ := ih t nodes' hgt (hpt id ⟨nid, hnid⟩)
          (fun x hx => hpt x (hp x (List.mem_cons_of_mem _ hx))) hl
        refine ⟨fun k l y hy => hm3 k l y (hm2 k l y (hm1 k l y hy)), ?_⟩
        intro x hx
        rcases List.mem_cons.mp hx with rfl | hx
        · exact ⟨hm3 _ _ _ (hm2 _ _ _ e1), hm3 _ _ _ e2⟩
        · exact hrest x hx

theorem closed_mapSet_new (nodes : List (Int × Node R)) (id : Int) (vector : List R)
    (level : Int) (hc : NeighborsClosed nodes) :
    NeighborsClosed (mapSet nodes id (NewNode id vector level)) := by
  intro k nd hk l ns hl m hm
  by_cases hkk : k = id
  · subst hkk
    rw [mapGet_mapSet_same] at hk
    simp at hk
    subst hk
    simp [NewNode, mapGet] at hl
  · rw [mapGet_mapSet_ne _ _ _ _ hkk] at hk
    exact Present_mapSet _ _ _ _ (hc k nd hk l ns hl m hm)

theorem Insert_fresh_err (h : HNSW R) (id : Int) (vector : List R) (level : Int)
    (r : InsertResult R) (hnone : mapGet h.nodes id = none)
    (hi : Insert h id vector level = some r) : r.err = false := by
  unfold Insert at hi
  rw [hnone] at hi
  simp only at hi
  split at hi
  · simp at hi
    subst hi
    rfl
  · split at hi
    · simp at hi
    · split at hi
      · simp at hi
      · simp at hi
        subst hi
        rfl

end FlatLink
end Hnsw
namespace Hnsw

/-! ## Insert keeps a small flat index complete -/

section FlatInsert

variable {R : Type} [LinearOrderedField R]

/-- The steps of `Insert` at level 0 into an index of maximum level 0 whose
entry point is set: one pass of the linking loop, started at the entry
point. -/
theorem Insert_flat_unfold (h : HNSW R) (id : Int) (vector : List R) (r : InsertResult R)
    (hnone : mapGet h.nodes id = none) (hml : h.maxLevel = 0) (hep : h.entryPoint ≠ 0)
    (hi : Insert h id vector 0 = some r) :
    ∃ cands nbs nodes,
      searchLayer ({ h with nodes := mapSet h.nodes id (NewNode id vector 0) } : HNSW R)
        vector h.entryPoint h.config.EfConstruction 0 = some cands ∧
      selectNeighborsHeuristic
        ({ h with nodes := mapSet h.nodes id (NewNode id vector 0) } : HNSW R)
        vector cands h.config.M 0 true true = some nbs ∧
      linkNeighbors id 0 nbs (mapSet h.nodes id (NewNode id vector 0)) = some nodes ∧
      r.state.nodes = nodes := by
  have hg : generateLevel h 0 = (0, h) := by
    unfold generateLevel
    rw [if_neg (by omega)]
  unfold Insert at hi
  rw [hnone] at hi
  simp only [hg] at hi
  rw [if_neg hep] at hi
  simp only [hml, sub_self, Int.toNat_zero, descend, min_self, zero_add] at hi
  have h1 : (1 : Int).toNat = 0 + 1 := rfl
  rw [h1] at hi
  unfold connectLevels at hi
  simp only at hi
  split at hi
  · simp at hi
  · next h3 hc3 =>
    simp at hi
    subst hi
    rw [hml]
    split at hc3
    · simp at hc3
    · next cands hc =>
      split at hc3
      · simp at hc3
      · next nbs hn =>
        split at hc3
        · simp at hc3
        · next nodes hl =>
          simp [connectLevels] at hc3
          subst hc3
          exact ⟨cands, nbs, nodes, hc, hn, hl, rfl⟩

theorem Insert_first_unfold (h : HNSW R) (id : Int) (vector : List R) (level : Int)
    (r : InsertResult R) (hnone : mapGet h.nodes id = none) (hep : h.entryPoint = 0)
    (hi : Insert h id vector level = some r) :
    r.state.nodes = mapSet h.nodes id (NewNode id vector level) ∧ r.state.entryPoint = id ∧
      r.err = false := by
  have hg : (generateLevel h level).2.nodes = h.nodes ∧
      (generateLevel h level).2.entryPoint = h.entryPoint := by
    unfold generateLevel
    split <;> exact ⟨rfl, rfl⟩
  unfold Insert at hi
  rw [hnone] at hi
  simp only at hi
  rw [if_pos (by rw [hg.2]; exact hep)] at hi
  simp at hi
  subst hi
  refine ⟨?_, rfl, rfl⟩
  show mapSet (generateLevel h level).2.nodes id (NewNode id vector level) = _
  rw [hg.1]

theorem pool_perm (h : HNSW R) (S cands : List Int) (level : Int) (hS : S.Nodup)
    (hc : List.Perm cands S) (hcl : ∀ a ∈ S, ∀ b ∈ levelNeighbors h level a, b ∈ S) :
    List.Perm (poolIds h cands level true) S := by
  unfold poolIds
  refine (List.perm_ext_iff_of_nodup (List.nodup_dedup _) hS).mpr ?_
  intro x
  rw [List.mem_dedup]
  simp only [if_true, List.mem_append, List.mem_flatMap]
  constructor
  · rintro (hx | ⟨a, ha, hx⟩)
    · exact hc.mem_iff.mp hx
    · exact hcl a (hc.mem_iff.mp ha) x hx
  · intro hx
    exact Or.inl (hc.mem_iff.mpr hx)

/-- One more level-0 insertion into a complete flat index with `n` nodes,
`n + 1 ≤ M + 1` and `n + 1 ≤ EfConstruction`, gives a complete flat index
with `n + 1` nodes. -/
theorem Insert_flat (n : Nat) (h : HNSW R) (id : Int) (vector : List R) (r : InsertResult R)
    (hinv : FlatInv n h) (hid : id ≠ 0) (hnone : mapGet h.nodes id = none)
    (hM : (n : Int) ≤ h.config.M) (hE : (n : Int) ≤ h.config.EfConstruction)
    (hi : Insert h id vector 0 = some r) :
    FlatInv (n + 1) r.state := by
  obtain ⟨hnd, hlen, hz, hml, hep0, hepn, hgood, hclosed, hcomp⟩ := hinv
  have herr := Insert_fresh_err h id vector 0 r hnone hi
  obtain ⟨hkeys, hmax, hent⟩ := Insert_frame h id vector 0 r hi herr
  have hidS : id ∉ storedIds h := by
    intro hc
    obtain ⟨v, hv⟩ := (mapGet_isSome_iff_mem_keys _ _).mpr hc
    rw [hnone] at hv
    simp at hv
  have hwf : WellFormed h := by
    refine ⟨hclosed, ?_⟩
    by_cases h0 : n = 0
    · left
      refine ⟨?_, hep0 h0⟩
      have : storedIds h = [] := List.length_eq_zero.mp (by rw [hlen]; exact h0)
      exact List.map_eq_nil_iff.mp this
    · right
      exact (mapGet_isSome_iff_mem_keys _ _).mpr (hepn (by omega))
  have hwf2 := Insert_wellFormed h id vector 0 r hwf hi
  have hgood2 : ∀ k nd, mapGet (mapSet h.nodes id (NewNode id vector 0)) k = some nd →
      nd.Level = 0 ∧ nd.deleted = false := by
    intro k nd hk
    by_cases hkk : k = id
    · subst hkk
      rw [mapGet_mapSet_same] at hk
      simp at hk
      subst hk
      exact ⟨rfl, rfl⟩
    · rw [mapGet_mapSet_ne _ _ _ _ hkk] at hk
      exact hgood k nd hk
  have hfinish : (∀ k nd, mapGet r.state.nodes k = some nd → nd.Level = 0 ∧ nd.deleted = false) →
      (∀ a ∈ storedIds h ++ [id], ∀ b ∈ storedIds h ++ [id], a ≠ b →
        b ∈ listAt r.state.nodes a 0) → FlatInv (n + 1) r.state := by
    intro hg hc
    refine ⟨?_, ?_, ?_, ?_, ?_, ?_, hg, hwf2.1, ?_⟩
    · rw [hkeys]
      exact nodup_append_singleton hnd hidS
    · rw [hkeys]
      simp [hlen]
    · rw [hkeys]
      simp only [List.mem_append, List.mem_singleton, not_or]
      exact ⟨hz, fun hc0 => hid hc0.symm⟩
    · rw [hmax, hml]
      simp
    · intro hc0
      omega
    · intro _
      rw [hkeys, hent]
      split
      · simp
      · next hne =>
        have hpos : 0 < n := by
          rcases Nat.eq_zero_or_pos n with h0 | h0
          · exact absurd (hep0 h0) hne
          · exact h0
        exact List.mem_append_left _ (hepn hpos)
    · rw [hkeys]
      exact hc
  by_cases hep : h.entryPoint = 0
  · obtain ⟨hnodes, _, _⟩ := Insert_first_unfold h id vector 0 r hnone hep hi
    have hn0 : n = 0 := by
      rcases Nat.eq_zero_or_pos n with h0 | h0
      · exact h0
      · have := hepn h0
        rw [hep] at this
        exact absurd this hz
    have hSnil : storedIds h = [] := List.length_eq_zero.mp (by rw [hlen]; exact hn0)
    refine hfinish ?_ ?_
    · rw [hnodes]
      exact hgood2
    · rw [hSnil]
      intro a ha b hb hab
      simp at ha hb
      exact absurd (ha.trans hb.symm) hab
  · obtain ⟨cands, nbs, nodes, hc, hn, hl, hnodes⟩ :=
      Insert_flat_unfold h id vector r hnone hml hep hi
    have hpos : 0 < n := by
      rcases Nat.eq_zero_or_pos n with h0 | h0
      · exact absurd (hep0 h0) hep
      · exact h0
    have hne : ∀ x ∈ storedIds h, x ≠ id := fun x hx hc0 => hidS (hc0 ▸ hx)
    have hln : ∀ a, levelNeighbors
        ({ h with nodes := mapSet h.nodes id (NewNode id vector 0) } : HNSW R) 0 a
        = listAt (mapSet h.nodes id (NewNode id vector 0)) a 0 := by
      intro a
      exact levelNeighbors_eq_listAt _ 0 a (fun nd hnd => (hgood2 a nd hnd).2)
    have hclS : ∀ a ∈ storedIds h, ∀ b ∈ levelNeighbors
        ({ h with nodes := mapSet h.nodes id (NewNode id vector 0) } : HNSW R) 0 a,
        b ∈ storedIds h := by
      intro a ha b hb
      rw [hln a, listAt_mapSet_ne _ _ _ _ _ (hne a ha)] at hb
      exact (mapGet_isSome_iff_mem_keys _ _).mp (listAt_present h.nodes hclosed a 0 b hb)
    have hcompS : ∀ b ∈ storedIds h, b ≠ h.entryPoint → b ∈ levelNeighbors
        ({ h with nodes := mapSet h.nodes id (NewNode id vector 0) } : HNSW R) 0
        h.entryPoint := by
      intro b hb hbe
      rw [hln, listAt_mapSet_ne _ _ _ _ _ (hne _ (hepn hpos))]
      exact hcomp _ (hepn hpos) b hb (fun hc0 => hbe hc0.symm)
    obtain ⟨hcperm, _⟩ := searchLayer_cluster _ vector h.config.EfConstruction 0 (storedIds h)
      h.entryPoint cands hnd (hepn hpos) (by rw [hlen]; exact hE) hclS hcompS hc
    have hclosed2 := closed_mapSet_new h.nodes id vector 0 hclosed
    have hpS : ∀ x ∈ storedIds h, Present (mapSet h.nodes id (NewNode id vector 0)) x := by
      intro x hx
      exact Present_mapSet _ _ _ _ ((mapGet_isSome_iff_mem_keys _ _).mpr hx)
    obtain ⟨l0, hsel, hnd0, hmem0, _, hkeep, _⟩ := selectNeighborsHeuristic_spec
      ({ h with nodes := mapSet h.nodes id (NewNode id vector 0) } : HNSW R)
      vector cands h.config.M 0 true true hclosed2
      (fun x hx => hpS x (hcperm.mem_iff.mp hx)) (by omega)
      (selectNeighborsHeuristic_makeOK _ vector cands _ 0 true true nbs hn).2
    rw [hn] at hsel
    simp at hsel
    subst hsel
    have hpool := pool_perm _ (storedIds h) cands 0 hnd hcperm hclS
    have hnlen : nbs.length = n := by
      have h1 := hkeep rfl
      rw [hpool.length_eq, hlen] at h1
      rw [min_eq_right hM] at h1
      exact_mod_cast h1
    have hnS : List.Perm nbs (storedIds h) := by
      refine List.Subperm.perm_of_length_le (List.Nodup.subperm hnd0 ?_) (by rw [hlen, hnlen])
      intro x hx
      exact hpool.mem_iff.mp (hmem0 x hx)
    obtain ⟨hmono, hlinks⟩ := linkNeighbors_links id nbs _ nodes hgood2
      (Present_mapSet_self _ _ _) (fun x hx => hpS x (hnS.mem_iff.mp hx)) hl
    refine hfinish ?_ ?_
    · rw [hnodes]
      exact SameData_flat (linkNeighbors_data _ _ _ _ _ hl) (linkNeighbors_keys _ _ _ _ _ hl)
        hgood2
    · rw [hnodes]
      intro a ha b hb hab
      simp only [List.mem_append, List.mem_singleton] at ha hb
      rcases ha with ha | ha
      · rcases hb with hb | hb
        · refine hmono a 0 b ?_
          rw [listAt_mapSet_ne _ _ _ _ _ (hne a ha)]
          exact hcomp a ha b hb hab
        · subst hb
          exact (hlinks a (hnS.mem_iff.mpr ha)).2
      · subst ha
        rcases hb with hb | hb
        · exact (hlinks b (hnS.mem_iff.mpr hb)).1
        · exact absurd hb.symm hab

end FlatInsert
end Hnsw
namespace Hnsw

/-! ## Small flat indexes are complete and searched exactly -/

section FlatSearch

variable {R : Type} [LinearOrderedField R]

theorem FlatBuilt_inv {n : Nat} {h : HNSW R} (hb : FlatBuilt n h) :
    (n : Int) ≤ h.config.M + 1 → (n : Int) ≤ h.config.EfConstruction → FlatInv n h := by
  induction hb with
  | new cfg distFunc =>
    intro _ _
    refine ⟨List.nodup_nil, rfl, by simp [storedIds], rfl, fun _ => rfl,
      fun hc => absurd hc (lt_irrefl _), ?_, ?_, ?_⟩
    · intro k nd hk
      simp [mapGet] at hk
    · intro k nd hk
      simp [mapGet] at hk
    · intro a ha
      simp [storedIds] at ha
  | @insert n h id vector r _ hid hnone hi ih =>
    intro hM hE
    have herr := Insert_fresh_err h id vector 0 r hnone hi
    obtain ⟨_, _, _, _, hcfg⟩ := Insert_stores h id vector 0 r hi herr
    rw [hcfg] at hM hE
    push_cast at hM hE
    exact Insert_flat n h id vector r (ih (by omega) (by omega)) hid hnone (by omega)
      (by omega) hi

theorem FlatBuilt_reachable {n : Nat} {h : HNSW R} (hb : FlatBuilt n h) : Reachable h := by
  induction hb with
  | new cfg distFunc => exact Reachable.new cfg distFunc
  | insert id vector r _ _ _ hi ih => exact Reachable.insert id vector 0 r ih hi

theorem FlatBuilt_insertMany :
    ∀ (ops : List (Int × List R × Int)) (n : Nat) (h : HNSW R) (m : Nat), FlatBuilt n h →
      makePanics h.config.M = false → (ops.map (fun op => op.1)).Nodup →
      (∀ op ∈ ops, op.1 ≠ 0 ∧ op.2.2 = 0 ∧ op.1 ∉ storedIds h) → m = n + ops.length →
      FlatBuilt m (insertMany h ops) := by
  intro ops
  induction ops with
  | nil =>
    intro n h m hb _ _ _ hm
    simp at hm
    subst hm
    exact hb
  | cons op rest ih =>
    intro n h m hb hmk hnd hops hm
    obtain ⟨id, vector, level⟩ := op
    obtain ⟨hid, hlv, hnot⟩ := hops (id, vector, level) (List.mem_cons_self _ _)
    simp only at hid hlv hnot
    subst hlv
    have hnone : mapGet h.nodes id = none := by
      cases hg : mapGet h.nodes id with
      | none => rfl
      | some v => exact absurd ((mapGet_isSome_iff_mem_keys _ _).mp ⟨v, hg⟩) hnot
    obtain ⟨r, hi⟩ := Insert_total h id vector 0 (FlatBuilt_reachable hb).wellFormed hmk
    have herr := Insert_fresh_err h id vector 0 r hnone hi
    obtain ⟨hkeys, _, _⟩ := Insert_frame h id vector 0 r hi herr
    obtain ⟨_, _, _, _, hcfg⟩ := Insert_stores h id vector 0 r hi herr
    simp only [List.map_cons, List.nodup_cons] at hnd
    unfold insertMany
    rw [hi]
    simp only
    refine ih (n + 1) r.state m (FlatBuilt.insert id vector r hb hid hnone hi)
      (by rw [hcfg]; exact hmk) hnd.2 ?_ ?_
    · intro op hop
      obtain ⟨h1, h2, h3⟩ := hops op (List.mem_cons_of_mem _ hop)
      refine ⟨h1, h2, ?_⟩
      rw [hkeys]
      simp only [List.mem_append, List.mem_singleton, not_or]
      refine ⟨h3, ?_⟩
      intro hc
      exact hnd.1 (List.mem_map.mpr ⟨op, hop, hc⟩)
    · simp only [List.length_cons] at hm
      omega

/-- On a complete flat index with `n` nodes, `KNNSearch` with `ef ≥ n` and
`K ≥ 0` returns `min(K, n)` stored ids, nearest first, none farther from the
query than any stored id left out. -/
theorem KNNSearch_flat (n : Nat) (h : HNSW R) (q : List R) (K ef : Int) (hinv : FlatInv n h)
    (hef : (n : Int) ≤ ef) (hK : 0 ≤ K) :
    ∃ l rest : List Int, KNNSearch h q K ef = some l ∧ (l.length : Int) = min K n ∧
      List.Perm (l ++ rest) (storedIds h) ∧
      (l.map (distTo h q)).Pairwise (fun a b => a ≤ b) ∧
      (∀ x ∈ l, ∀ y ∈ rest, distTo h q x ≤ distTo h q y) := by
  obtain ⟨hnd, hlen, hz, hml, hep0, hepn, hgood, hclosed, hcomp⟩ := hinv
  have hnl : h.nodes.length = n := by
    simpa [storedIds] using hlen
  rcases Nat.eq_zero_or_pos n with h0 | hpos
  · subst h0
    refine ⟨[], [], ?_, ?_, ?_, List.Pairwise.nil, fun x hx => by simp at hx⟩
    · unfold KNNSearch
      rw [if_pos hnl]
    · simp
      exact hK
    · have : storedIds h = [] := List.length_eq_zero.mp hlen
      rw [this]
      exact List.Perm.refl _
  · have hepS := hepn hpos
    have hepne : ¬ h.entryPoint = 0 := fun hc => hz (hc ▸ hepS)
    have hpres : Present h.nodes h.entryPoint := (mapGet_isSome_iff_mem_keys _ _).mpr hepS
    obtain ⟨l0, hsl⟩ := searchLayer_total h q h.entryPoint ef 0 hclosed hpres
    have hln : ∀ a, levelNeighbors h 0 a = listAt h.nodes a 0 :=
      fun a => levelNeighbors_eq_listAt h 0 a (fun nd hnd => (hgood a nd hnd).2)
    obtain ⟨hperm, hsorted⟩ := searchLayer_cluster h q ef 0 (storedIds h) h.entryPoint l0 hnd hepS
      (by rw [hlen]; exact hef)
      (by
        intro a _ b hb
        rw [hln a] at hb
        exact (mapGet_isSome_iff_mem_keys _ _).mp (listAt_present h.nodes hclosed a 0 b hb))
      (by
        intro b hb hbe
        rw [hln]
        exact hcomp _ hepS b hb (fun hc => hbe hc.symm))
      hsl
    have hl0 : l0.length = n := by rw [hperm.length_eq, hlen]
    have hkn : KNNSearch h q K ef =
        (if (if K > (l0.length : Int) then (l0.length : Int) else K) < 0 then none
          else some (l0.take (if K > (l0.length : Int) then (l0.length : Int) else K).toNat)) := by
      unfold KNNSearch
      rw [if_neg (by omega), if_neg hepne, hml]
      simp only [Int.toNat_zero, knnDescend]
      rw [hsl]
    have hk0 : 0 ≤ (if K > (l0.length : Int) then (l0.length : Int) else K) := by
      split <;> omega
    have hkmin : (if K > (l0.length : Int) then (l0.length : Int) else K) = min K n := by
      rw [hl0]
      split
      · next hgt => rw [min_eq_right (by omega)]
      · next hle => rw [min_eq_left (by omega)]
    rw [hkmin] at hkn hk0
    rw [if_neg (by omega)] at hkn
    have hsplit : l0.take (min K n).toNat ++ l0.drop (min K n).toNat = l0 :=
      List.take_append_drop _ _
    have hpw : (l0.take (min K n).toNat ++ l0.drop (min K n).toNat).Pairwise
        (fun a b => distTo h q a ≤ distTo h q b) := by
      rw [hsplit]
      exact List.pairwise_map.mp hsorted
    obtain ⟨hp1, _, hp3⟩ := List.pairwise_append.mp hpw
    refine ⟨l0.take (min K n).toNat, l0.drop (min K n).toNat, hkn, ?_, ?_, ?_, hp3⟩
    · rw [List.length_take, hl0]
      have : (min K n).toNat ≤ n := by
        have := min_le_right K (n : Int)
        omega
      rw [min_eq_left this]
      omega
    · rw [hsplit]
      exact hperm
    · exact List.pairwise_map.mpr hp1

end FlatSearch
end Hnsw
namespace Hnsw

/-! ## The claims -/

section Claims

variable {R : Type} [LinearOrderedField R]

/-- C1 fails on the code: node 2 is inserted with the vector `(1)` into the
index that holds node 1 with the vector `(0)`, and draws level 1; the
insertion succeeds under the Manhattan metric, and the query for `(1)` with
`k = 1`, `ef = 10` returns id 1 at distance 1, not id 2 at distance 0.  The
two vectors differ; node 2 is linked only to itself on level 0 and the entry
point stays node 1, so node 2 is never reached. -/
theorem exact_recall_fails_on_tower :
    Reachable soloIndex ∧ soloIndex.distFunc = ManhattanDistance ∧
      mapGet soloIndex.nodes 2 = none ∧
      (Insert soloIndex 2 [1] 1).map (fun r => (r.err, storedIds r.state)) =
        some (false, [1, 2]) ∧
      (Insert soloIndex 2 [1] 1).map (fun r => KNNSearchWithDistances r.state [1] 1 10) =
        some (some ([1], [1])) :=
  ⟨Reachable_insertMany _ _ Reachable_emptyManhattan, rfl,
    Option.not_isSome_iff_eq_none.mp (by decide!), by decide!, by decide!⟩

/-- With two equal stored vectors the query for that vector returns the id
stored first: id 2 is inserted with the vector of id 1, and the query with
`k = 1`, `ef = 10` under the Manhattan metric returns id 1, at distance 0. -/
theorem equal_vectors_return_first_id :
    Reachable soloIndex ∧ soloIndex.distFunc = ManhattanDistance ∧
      mapGet soloIndex.nodes 2 = none ∧
      Insert soloIndex 2 [0] 0 = some twinInsert ∧ twinInsert.err = false ∧
      KNNSearchWithDistances twinInsert.state [0] 1 10 = some ([1], [0]) :=
  ⟨Reachable_insertMany _ _ Reachable_emptyManhattan, rfl,
    Option.not_isSome_iff_eq_none.mp (by decide!),
    eq_some_getD _ _ (by decide!), by decide!, by decide!⟩

/-- C2: on every index state reachable from `New` by `Insert` calls, for every
query, every `K ≥ 0` and every `ef`, `KNNSearchWithDistances` returns and its
distances are in non-decreasing order; and `searchLayer`, from any stored
entry point, returns ids whose distances to the query are in non-decreasing
order. -/
theorem knn_distances_sorted (h : HNSW R) (q : List R) (K ef : Int) (hr : Reachable h)
    (hK : 0 ≤ K) :
    (∃ ids ds, KNNSearchWithDistances h q K ef = some (ids, ds) ∧ NonDecreasing ds) ∧
    (∀ e level : Int, Present h.nodes e →
      ∃ l ds, searchLayer h q e ef level = some l ∧ distancesOf h q l = some ds ∧
        NonDecreasing ds) := by
  have hwf := hr.wellFormed
  constructor
  · obtain ⟨items, hk, hok, hs, _⟩ := KNNSearch_spec h q K ef hwf hK
    have hd := distancesOf_items h q items hok
    refine ⟨items.map (fun it => it.NodeID), items.map (fun it => it.Distance), ?_, ?_⟩
    · unfold KNNSearchWithDistances
      rw [hk]
      simp only
      rw [hd]
    · unfold NonDecreasing
      rw [List.pairwise_map]
      exact hs
  · intro e level he
    obtain ⟨l, hl⟩ := searchLayer_total h q e ef level hwf.1 he
    obtain ⟨items, hli, hok, hs⟩ := searchLayer_spec h q e ef level l hl
    refine ⟨l, items.map (fun it => it.Distance), hl, ?_, ?_⟩
    · rw [hli]
      exact distancesOf_items h q items hok
    · unfold NonDecreasing
      rw [List.pairwise_map]
      exact hs

/-- Witness of `knn_distances_sorted` on the five vectors of `TestKNNSearch`. -/
theorem knn_distances_sorted_witness :
    Reachable fiveIndex ∧ (0 : Int) ≤ 10 ∧
    ((∃ ids ds, KNNSearchWithDistances fiveIndex [1, 1] 10 20 = some (ids, ds) ∧
        NonDecreasing ds) ∧
      (∀ e level : Int, Present fiveIndex.nodes e →
        ∃ l ds, searchLayer fiveIndex [1, 1] e 20 level = some l ∧
          distancesOf fiveIndex [1, 1] l = some ds ∧ NonDecreasing ds)) :=
  ⟨Reachable_insertMany _ _ Reachable_emptyManhattan, by decide,
    knn_distances_sorted fiveIndex [1, 1] 10 20
      (Reachable_insertMany _ _ Reachable_emptyManhattan) (by decide)⟩

/-- C3, as stated, fails: on the one-node index `soloIndex`, `Search` with
`k = 2^50` reaches `make([]int, 0, k)`, which panics for a capacity above
`maxSliceCap`, so no lists are returned. -/
theorem Search_panics_on_large_k :
    WellFormed soloIndex ∧ (0 : Int) ≤ 1125899906842624 ∧
      Search soloIndex [0] 1125899906842624 = none :=
  ⟨(Reachable_insertMany _ _ Reachable_emptyManhattan).wellFormed, by decide,
    Search_refused soloIndex [0] 1125899906842624 (by decide!) (by decide)⟩

/-- C3, amended: on every index with referential integrity (so on every
reachable one), for every query and every `ef`: for `0 ≤ k ≤ maxSliceCap`
`Search`, and for every `k ≥ 0` `KNNSearchWithDistances`, return an id list
and a distance list of the same length, at most `k`, and the distance at every
position is the index's distance function applied to the query and the stored
vector of the id at that position; for `k > maxSliceCap` `Search` fails on
every index that stores a node. -/
theorem search_results_shape (h : HNSW R) (q : List R) (k ef : Int) (hwf : WellFormed h)
    (hk : 0 ≤ k) :
    (k ≤ maxSliceCap →
      ∃ ids ds, Search h q k = some (ids, ds) ∧ ds.length = ids.length ∧
        (ids.length : Int) ≤ k ∧
        ∀ (i : Nat) (x : Int), ids[i]? = some x →
          ∃ nd, mapGet h.nodes x = some nd ∧ ds[i]? = some (h.distFunc q nd.Vector)) ∧
    (h.nodes ≠ [] → maxSliceCap < k → Search h q k = none) ∧
    (∃ ids ds, KNNSearchWithDistances h q k ef = some (ids, ds) ∧ ds.length = ids.length ∧
      (ids.length : Int) ≤ k ∧
      ∀ (i : Nat) (x : Int), ids[i]? = some x →
        ∃ nd, mapGet h.nodes x = some nd ∧ ds[i]? = some (h.distFunc q nd.Vector)) := by
  refine ⟨?_, ?_, ?_⟩
  · intro hk2
    obtain ⟨ids, ds, hs, hlen, hd⟩ := Search_spec h q k hwf hk hk2
    obtain ⟨hl, hi⟩ := distancesOf_spec h q ids ds hd
    exact ⟨ids, ds, hs, hl, hlen, hi⟩
  · intro hne hgt
    refine Search_refused h q k ?_ ((makePanics_eq_true_iff k).mpr (Or.inr hgt))
    intro hc
    exact hne (List.length_eq_zero.mp hc)
  · obtain ⟨items, hkn, hok, _, hlen⟩ := KNNSearch_spec h q k ef hwf hk
    have hd := distancesOf_items h q items hok
    obtain ⟨hl, hi⟩ := distancesOf_spec h q _ _ hd
    refine ⟨items.map (fun it => it.NodeID), items.map (fun it => it.Distance), ?_, hl, ?_, hi⟩
    · unfold KNNSearchWithDistances
      rw [hkn]
      simp only
      rw [hd]
    · simpa using hlen

/-- Witness of `search_results_shape` on the five vectors of `TestKNNSearch`. -/
theorem search_results_shape_witness :
    WellFormed fiveIndex ∧ (0 : Int) ≤ 2 ∧
    ((∃ ids ds, Search fiveIndex [1, 1] 2 = some (ids, ds) ∧ ds.length = ids.length ∧
        (ids.length : Int) ≤ 2 ∧
        ∀ (i : Nat) (x : Int), ids[i]? = some x →
          ∃ nd, mapGet fiveIndex.nodes x = some nd ∧
            ds[i]? = some (fiveIndex.distFunc [1, 1] nd.Vector)) ∧
      (∃ ids ds, KNNSearchWithDistances fiveIndex [1, 1] 2 10 = some (ids, ds) ∧
        ds.length = ids.length ∧ (ids.length : Int) ≤ 2 ∧
        ∀ (i : Nat) (x : Int), ids[i]? = some x →
          ∃ nd, mapGet fiveIndex.nodes x = some nd ∧
            ds[i]? = some (fiveIndex.distFunc [1, 1] nd.Vector))) :=
  ⟨(Reachable_insertMany _ _ Reachable_emptyManhattan).wellFormed, by decide,
    (search_results_shape fiveIndex [1, 1] 2 10
      (Reachable_insertMany _ _ Reachable_emptyManhattan).wellFormed (by decide)).1 (by decide),
    (search_results_shape fiveIndex [1, 1] 2 10
      (Reachable_insertMany _ _ Reachable_emptyManhattan).wellFormed (by decide)).2.2⟩

/-- C4: `Insert` with an id that is already a key of the node map returns an
error and leaves the whole index state (node map with every node, entry point,
maximum level) as it was. -/
theorem insert_duplicate_rejected (h : HNSW R) (id : Int) (vector : List R) (level : Int)
    (hp : Present h.nodes id) :
    Insert h id vector level = some ⟨true, h⟩ := by
  obtain ⟨nd, hnd⟩ := hp
  unfold Insert
  rw [hnd]

/-- Witness of `insert_duplicate_rejected`: id 1 inserted twice. -/
theorem insert_duplicate_rejected_witness :
    Present soloIndex.nodes 1 ∧ Insert soloIndex 1 [5] 3 = some ⟨true, soloIndex⟩ :=
  ⟨Option.isSome_iff_exists.mp (by decide!),
    insert_duplicate_rejected soloIndex 1 [5] 3 (Option.isSome_iff_exists.mp (by decide!))⟩

/-- C5: on an index with no nodes, `Search` and `KNNSearchWithDistances`
return an empty id list and an empty distance list, for every query, every `k`
and every `ef`. -/
theorem search_empty_index (h : HNSW R) (q : List R) (k ef : Int) (hn : h.nodes = []) :
    Search h q k = some ([], []) ∧ KNNSearchWithDistances h q k ef = some ([], []) := by
  constructor
  · unfold Search
    simp [hn]
  · unfold KNNSearchWithDistances KNNSearch
    simp [hn, distancesOf]

/-- Witness of `search_empty_index` on the empty Manhattan index. -/
theorem search_empty_index_witness :
    emptyManhattan.nodes = [] ∧
    (Search emptyManhattan [1, 1, 1] 1 = some ([], []) ∧
      KNNSearchWithDistances emptyManhattan [1, 1, 1] 1 10 = some ([], [])) :=
  ⟨rfl, search_empty_index emptyManhattan [1, 1, 1] 1 10 rfl⟩

/-- C6: on every index with referential integrity (so on every reachable
one), for every query, every `ef` and all `0 ≤ k ≤ k'`, `KNNSearch` with `k`
returns the first `k` elements of what `KNNSearch` with `k'` returns (all of
them when there are fewer than `k`). -/
theorem knn_truncation (h : HNSW R) (q : List R) (k k' ef : Int) (hwf : WellFormed h)
    (hk : 0 ≤ k) (hkk : k ≤ k') :
    ∃ l', KNNSearch h q k' ef = some l' ∧ KNNSearch h q k ef = some (l'.take k.toNat) := by
  obtain ⟨fr, hfr⟩ := KNNSearch_take h q ef hwf
  refine ⟨fr.take k'.toNat, hfr k' (by omega), ?_⟩
  rw [hfr k hk, List.take_take]
  congr 2
  omega

/-- Witness of `knn_truncation` on the five vectors of `TestKNNSearch`. -/
theorem knn_truncation_witness :
    WellFormed fiveIndex ∧ (0 : Int) ≤ 2 ∧ (2 : Int) ≤ 4 ∧
    (∃ l', KNNSearch fiveIndex [1, 1] 4 10 = some l' ∧
      KNNSearch fiveIndex [1, 1] 2 10 = some (l'.take (2 : Int).toNat)) :=
  ⟨(Reachable_insertMany _ _ Reachable_emptyManhattan).wellFormed, by decide, by decide,
    knn_truncation fiveIndex [1, 1] 2 4 10
      (Reachable_insertMany _ _ Reachable_emptyManhattan).wellFormed (by decide) (by decide)⟩

/-- C7, the code at the failing input: after `Insert(1, (1, 1))` into an empty
Euclidean index, the query `(1, 1, 1)` with `K = 1`, `ef = 10` returns id 1
with distance `+Inf`, not the empty lists that `TestSearchDimensionMismatch`
expects. -/
theorem dimension_mismatch_returns_entry (sqrt : ℚ → ℚ) :
    Reachable (planeIndex sqrt) ∧
      KNNSearchWithDistances (planeIndex sqrt) [1, 1, 1] 1 10 = some ([1], [⊤]) := by
  refine ⟨Reachable_insertMany _ _ (Reachable.new _ _), ?_⟩
  obtain ⟨r, hi, _, _, hq⟩ := first_insert_search (emptyEuclidean sqrt) 1 [1, 1] [1, 1, 1] 0 1 10
    rfl rfl (by decide) (le_refl _)
  have hs : planeIndex sqrt = r.state := by
    unfold planeIndex insertMany
    rw [hi]
    rfl
  rw [hs, hq]
  simp [emptyEuclidean, EuclideanDistance]

/-- C8, the code at the failing input: with node 1 drawn at level 0 and node 2
at level 1 (two stored ids, `M = 16`, `EfConstruction = 100`), the query with
`K = 2` and `ef = 2` returns one id only. -/
theorem tower_query_misses_node :
    Reachable towerIndex ∧ towerIndex.nodes.map Prod.fst = [1, 2] ∧
      KNNSearchWithDistances towerIndex [0] 2 2 = some ([1], [0]) :=
  ⟨Reachable_insertMany _ _ Reachable_emptyManhattan, by decide!, by decide!⟩

/-- C9, the code at the failing input: with node 1 drawn at level 0 and node 2
at level 1, node 1 is in the level-1 neighbour list of node 2, but node 2 is
not in the level-1 neighbour list of node 1. -/
theorem tower_edge_not_symmetric :
    Reachable towerIndex ∧ 1 ∈ neighborsOf towerIndex 2 1 ∧ 2 ∉ neighborsOf towerIndex 1 1 :=
  ⟨Reachable_insertMany _ _ Reachable_emptyManhattan, by decide!, by decide!⟩

/-- C10, the code at the failing input: with node 1 drawn at level 0 and node
2 at level 1, node 2 is in its own level-0 neighbour list. -/
theorem tower_self_loop :
    Reachable towerIndex ∧ 2 ∈ neighborsOf towerIndex 2 0 :=
  ⟨Reachable_insertMany _ _ Reachable_emptyManhattan, by decide!⟩

end Claims
end Hnsw
namespace Hnsw

/-! ## The claims on invariants, construction and selection -/

section Claims2

variable {R : Type} [LinearOrderedField R]

/-- C11 fails on the code: `narrowConfig` passes `Config.Validate` with
`MaxM = 3`, the index `starIndex` is reached from the empty index by five
`Insert` calls, and its node 1 has the four level-0 neighbours 2, 3, 4, 5.
`Insert` appends the new id to the list of each selected neighbour and never
reads `MaxM`. -/
theorem star_degree_exceeds_MaxM :
    Config.Validate narrowConfig = none ∧ Reachable starIndex ∧
      starIndex.config.MaxM = 3 ∧ neighborsOf starIndex 1 0 = [2, 3, 4, 5] :=
  ⟨by decide!, Reachable_insertMany _ _ (Reachable.new _ _), by decide!, by decide!⟩

/-- C12: in every index state reachable from an empty index by `Insert`
calls, every id in a neighbour list of a stored node is a key of the node map,
and so is the entry point when the node map is not empty; and on such a state
no call reaches the failed-lookup result: `searchLayer` returns for every
stored entry id, `KNNSearch` returns for every `K ≥ 0`,
`selectNeighborsHeuristic` on stored candidates fails exactly when
`make([]int, 0, M)` panics, and `Insert` fails, for any id, vector and drawn
level, only when `make([]int, 0, M)` panics for the `M` of the
configuration. -/
theorem referential_integrity (h : HNSW R) (hr : Reachable h) :
    (∀ k nd, mapGet h.nodes k = some nd → ∀ l ns, mapGet nd.Neighbors l = some ns →
        ∀ m ∈ ns, Present h.nodes m) ∧
      (h.nodes ≠ [] → Present h.nodes h.entryPoint) ∧
      (∀ id vector level, Insert h id vector level = none → makePanics h.config.M = true) ∧
      (∀ q e ef level, Present h.nodes e → ∃ l, searchLayer h q e ef level = some l) ∧
      (∀ q c M level ext keep, (∀ x ∈ c, Present h.nodes x) →
        (selectNeighborsHeuristic h q c M level ext keep = none ↔ makePanics M = true)) ∧
      (∀ q K ef, 0 ≤ K → ∃ l, KNNSearch h q K ef = some l) := by
  have hwf := hr.wellFormed
  refine ⟨hwf.1, ?_, ?_, ?_, ?_, ?_⟩
  · intro hne
    rcases hwf.2 with ⟨he, _⟩ | hp
    · exact absurd he hne
    · exact hp
  · intro id vector level hnone
    cases hm : makePanics h.config.M with
    | true => rfl
    | false =>
      obtain ⟨r, hr2⟩ := Insert_total h id vector level hwf hm
      rw [hnone] at hr2
      simp at hr2
  · intro q e ef level he
    exact searchLayer_total h q e ef level hwf.1 he
  · intro q c M level ext keep hp
    constructor
    · intro hnone
      cases hm : makePanics M with
      | true => rfl
      | false =>
        obtain ⟨l, hl⟩ := selectNeighborsHeuristic_total h q c M level ext keep hwf.1 hp hm
        rw [hnone] at hl
        simp at hl
    · intro hm
      exact selectNeighborsHeuristic_refused h q c M level ext keep hm
  · intro q K ef hK
    obtain ⟨items, hk, _⟩ := KNNSearch_spec h q K ef hwf hK
    exact ⟨_, hk⟩

/-- Witness of `referential_integrity` on `towerIndex`: closed lists, a stored
entry point, a further `Insert` that returns and a `KNNSearch` that
returns. -/
theorem referential_integrity_witness :
    Reachable towerIndex ∧ NeighborsClosed towerIndex.nodes ∧
      Present towerIndex.nodes towerIndex.entryPoint ∧
      (Insert towerIndex 3 [2] 0 = none → makePanics towerIndex.config.M = true) ∧
      makePanics towerIndex.config.M = false ∧
      (∃ l, KNNSearch towerIndex [2] 1 10 = some l) :=
  ⟨Reachable_insertMany _ _ Reachable_emptyManhattan,
    (referential_integrity towerIndex (Reachable_insertMany _ _ Reachable_emptyManhattan)).1,
    (referential_integrity towerIndex (Reachable_insertMany _ _ Reachable_emptyManhattan)).2.1
      (List.ne_nil_of_length_pos (by decide!)),
    (referential_integrity towerIndex
      (Reachable_insertMany _ _ Reachable_emptyManhattan)).2.2.1 3 [2] 0,
    by decide!,
    (referential_integrity towerIndex
      (Reachable_insertMany _ _ Reachable_emptyManhattan)).2.2.2.2.2 [2] 1 10 (by decide)⟩

/-- C13: a node made by `NewNode` with level `L` and then put through any
sequence of `AddNeighbor`, `RemoveNeighbor`, `SetNeighbors` and
`ClearNeighbors` calls has no neighbour-map entry for a level `l < 0` or
`l > L`; and in every index state reachable by `Insert` calls no stored node
has an entry for a level below 0 or above its own level. -/
theorem level_bound (id : Int) (vector : List R) (L : Int) (ops : List NodeOp) (h : HNSW R)
    (hr : Reachable h) :
    (∀ l, l < 0 ∨ l > L → mapGet ((NewNode id vector L).applyAll ops).Neighbors l = none) ∧
      (((NewNode id vector L).applyAll ops).Level = L) ∧
      (∀ k nd, mapGet h.nodes k = some nd →
        ∀ l, l < 0 ∨ l > nd.Level → mapGet nd.Neighbors l = none) := by
  obtain ⟨hb, hl⟩ := applyAll_levelBounded ops (NewNode id vector L)
    (NewNode_levelBounded id vector L)
  refine ⟨?_, hl, ?_⟩
  · intro l hlv
    refine levelBounded_no_entry _ hb l ?_
    rw [hl]
    exact hlv
  · intro k nd hk l hlv
    exact levelBounded_no_entry nd (Reachable_bounded hr k nd hk) l hlv

/-- Witness of `level_bound`: a level-2 node after five calls, two of them at
levels outside `[0, 2]`, and the index `towerIndex`. -/
theorem level_bound_witness :
    Reachable towerIndex ∧
      mapGet ((NewNode 1 ([0] : List ℚ) 2).applyAll
        [.add 0 5, .add 3 7, .set (-1) [4], .clear 2, .remove 0 5]).Neighbors 3 = none :=
  ⟨Reachable_insertMany _ _ Reachable_emptyManhattan,
    (level_bound 1 ([0] : List ℚ) 2 [.add 0 5, .add 3 7, .set (-1) [4], .clear 2, .remove 0 5]
      towerIndex (Reachable_insertMany _ _ Reachable_emptyManhattan)).1 3 (Or.inr (by decide))⟩

/-- C14, as stated, fails: `zeroConfig` is rejected by `Config.Validate`
(its `M` is not positive), and `New` with the metric name `"euclidean"`
returns an index for it, not an error. -/
theorem New_accepts_invalid_config :
    Config.Validate zeroConfig = some ConfigError.badM ∧
      (New (fun x => x) zeroConfig Euclidean).isSome = true :=
  ⟨by decide!, by simp [New, GetDistanceFunction]⟩

/-- C14, amended: `New` returns an error exactly when the metric name is none
of `"euclidean"`, `"manhattan"`, `"cosine"`, `"dot"`; the configuration is
not examined, and every index it returns has no node, entry point 0, maximum
level 0 and the configuration it was given. -/
theorem New_checks_metric_only (sqrt : R → R) (cfg : Config R) (metric : String) :
    (New sqrt cfg metric = none ↔ metric ∉ [Euclidean, Manhattan, Cosine, DotProduct]) ∧
      (∀ h, New sqrt cfg metric = some h →
        h.nodes = [] ∧ h.entryPoint = 0 ∧ h.maxLevel = 0 ∧ h.config = cfg) := by
  have hg : GetDistanceFunction sqrt metric = none ↔
      metric ∉ [Euclidean, Manhattan, Cosine, DotProduct] := by
    unfold GetDistanceFunction
    split_ifs with h1 h2 h3 h4 <;> simp [*]
  unfold New
  cases hd : GetDistanceFunction sqrt metric with
  | none =>
    rw [hd] at hg
    refine ⟨⟨fun _ => hg.mp rfl, fun _ => rfl⟩, ?_⟩
    intro h hh
    simp at hh
  | some d =>
    rw [hd] at hg
    refine ⟨⟨fun hn => by simp at hn, fun hm => by simpa using hg.mpr hm⟩, ?_⟩
    intro h hh
    simp at hh
    subst hh
    exact ⟨rfl, rfl, rfl, rfl⟩

/-- Every id of a list whose lookups all succeed is a key of the node map. -/
theorem present_of_all (nodes : List (Int × Node R)) (c : List Int)
    (hall : c.all (fun x => (mapGet nodes x).isSome) = true) : ∀ x ∈ c, Present nodes x := by
  intro x hx
  exact Option.isSome_iff_exists.mp (List.all_eq_true.mp hall x hx)

/-- C15: for every query, every list `c` of stored candidate ids and every
`M ≥ 0`, `SelectNeighborsSimple` returns a list of exactly `min(|c|, M)` ids,
and when `|c| ≤ M` the list returned is `c` itself. -/
theorem simple_selection_count (h : HNSW R) (q : List R) (c : List Int) (M : Int)
    (hp : ∀ x ∈ c, Present h.nodes x) (hM : 0 ≤ M) :
    ∃ l, SelectNeighborsSimple h q c M = some l ∧
      (l.length : Int) = min (c.length : Int) M ∧ ((c.length : Int) ≤ M → l = c) := by
  by_cases hle : (c.length : Int) ≤ M
  · refine ⟨c, ?_, ?_, fun _ => rfl⟩
    · unfold SelectNeighborsSimple selectNeighborsSimple
      rw [if_pos hle]
    · rw [min_eq_left hle]
  · obtain ⟨l, rest, hs, _, _, _, hl⟩ := selectNeighborsSimple_spec h q c M hp hM (by omega)
    refine ⟨l, hs, ?_, fun hx => absurd hx hle⟩
    rw [hl, min_eq_right (by omega)]

/-- Witness of `simple_selection_count`: five stored candidates and `M = 3`. -/
theorem simple_selection_count_witness :
    (∀ x ∈ [1, 2, 3, 4, 5], Present fiveIndex.nodes x) ∧ (0 : Int) ≤ 3 ∧
      ∃ l, SelectNeighborsSimple fiveIndex [1, 1] [1, 2, 3, 4, 5] 3 = some l ∧
        (l.length : Int) = min (([1, 2, 3, 4, 5] : List Int).length : Int) 3 ∧
        ((([1, 2, 3, 4, 5] : List Int).length : Int) ≤ 3 → l = [1, 2, 3, 4, 5]) :=
  ⟨present_of_all _ _ (by decide!), by decide,
    simple_selection_count fiveIndex [1, 1] [1, 2, 3, 4, 5] 3 (present_of_all _ _ (by decide!))
      (by decide)⟩

/-- C16: for every query and every list `c` of stored candidate ids with
`|c| > M ≥ 0`, `SelectNeighborsSimple` returns `M` ids `l` such that `l`
together with a list `rest` of the occurrences left out is a rearrangement of
`c`, the distances of `l` to the query are in non-decreasing order, and every
returned id is at most as far from the query as every occurrence left out. -/
theorem simple_selection_nearest (h : HNSW R) (q : List R) (c : List Int) (M : Int)
    (hp : ∀ x ∈ c, Present h.nodes x) (hM : 0 ≤ M) (hlt : M < (c.length : Int)) :
    ∃ l rest : List Int, SelectNeighborsSimple h q c M = some l ∧ List.Perm (l ++ rest) c ∧
      (l.map (distTo h q)).Pairwise (fun a b => a ≤ b) ∧
      (∀ x ∈ l, ∀ y ∈ rest, distTo h q x ≤ distTo h q y) ∧ (l.length : Int) = M :=
  selectNeighborsSimple_spec h q c M hp hM hlt

/-- Witness of `simple_selection_nearest`: five stored candidates and
`M = 2`. -/
theorem simple_selection_nearest_witness :
    (∀ x ∈ [5, 4, 3, 2, 1], Present fiveIndex.nodes x) ∧ (0 : Int) ≤ 2 ∧
      (2 : Int) < (([5, 4, 3, 2, 1] : List Int).length : Int) ∧
      ∃ l rest : List Int, SelectNeighborsSimple fiveIndex [1, 1] [5, 4, 3, 2, 1] 2 = some l ∧
        List.Perm (l ++ rest) [5, 4, 3, 2, 1] ∧
        (l.map (distTo fiveIndex [1, 1])).Pairwise (fun a b => a ≤ b) ∧
        (∀ x ∈ l, ∀ y ∈ rest, distTo fiveIndex [1, 1] x ≤ distTo fiveIndex [1, 1] y) ∧
        (l.length : Int) = 2 :=
  ⟨present_of_all _ _ (by decide!), by decide, by decide,
    simple_selection_nearest fiveIndex [1, 1] [5, 4, 3, 2, 1] 2
      (present_of_all _ _ (by decide!)) (by decide) (by decide)⟩

/-- C17, as stated, fails: on the five-node index, with stored candidates
and `M = 2^62`, `SelectNeighborsHeuristic` with `keepPrunedConnections = true`
reaches `results := make([]int, 0, M)`, which panics for a capacity above
`maxSliceCap`, so no ids are returned. -/
theorem heuristic_panics_on_large_M :
    NeighborsClosed fiveIndex.nodes ∧ (∀ x ∈ [1, 2, 1], Present fiveIndex.nodes x) ∧
      (0 : Int) ≤ 4611686018427387904 ∧
      SelectNeighborsHeuristic fiveIndex [1, 0] [1, 2, 1] 4611686018427387904 0 true true
        = none :=
  ⟨(Reachable_insertMany _ _ Reachable_emptyManhattan).wellFormed.1,
    present_of_all _ _ (by decide!), by decide,
    selectNeighborsHeuristic_refused fiveIndex [1, 0] [1, 2, 1] 4611686018427387904 0 true true
      (by decide)⟩

/-- C17, amended: on an index with closed neighbour lists, for stored
candidates `c`: for `0 ≤ M ≤ maxSliceCap`, `SelectNeighborsHeuristic` with
`keepPrunedConnections = true` returns pairwise distinct ids of the pool `W`
(the distinct ids of `c`, with `extendCandidates` also the level neighbours of
the candidates), exactly `min(M, |W|)` of them, so never more than `M`; for
`M > maxSliceCap` it fails. -/
theorem heuristic_keep_pruned_count (h : HNSW R) (q : List R) (c : List Int) (M level : Int)
    (ext : Bool) (hc : NeighborsClosed h.nodes) (hp : ∀ x ∈ c, Present h.nodes x)
    (hM : 0 ≤ M) :
    (M ≤ maxSliceCap →
      ∃ l, SelectNeighborsHeuristic h q c M level ext true = some l ∧ l.Nodup ∧
        (∀ x ∈ l, x ∈ poolIds h c level ext) ∧
        (l.length : Int) = min M ((poolIds h c level ext).length : Int) ∧
        (l.length : Int) ≤ M) ∧
      (maxSliceCap < M → SelectNeighborsHeuristic h q c M level ext true = none) := by
  constructor
  · intro hcap
    obtain ⟨l, hs, hnd, hmem, hle, hkeep, _⟩ :=
      selectNeighborsHeuristic_spec h q c M level ext true hc hp hM hcap
    exact ⟨l, hs, hnd, hmem, hkeep rfl, hle⟩
  · intro hgt
    exact selectNeighborsHeuristic_refused h q c M level ext true
      ((makePanics_eq_true_iff M).mpr (Or.inr hgt))

/-- Witness of `heuristic_keep_pruned_count` on the five-node index, with
extension by level-0 neighbours and `M = 3`. -/
theorem heuristic_keep_pruned_count_witness :
    NeighborsClosed fiveIndex.nodes ∧ (∀ x ∈ [1, 2, 1], Present fiveIndex.nodes x) ∧
      (0 : Int) ≤ 3 ∧
      ∃ l, SelectNeighborsHeuristic fiveIndex [1, 0] [1, 2, 1] 3 0 true true = some l ∧ l.Nodup ∧
        (∀ x ∈ l, x ∈ poolIds fiveIndex [1, 2, 1] 0 true) ∧
        (l.length : Int) = min 3 ((poolIds fiveIndex [1, 2, 1] 0 true).length : Int) ∧
        (l.length : Int) ≤ 3 :=
  ⟨(Reachable_insertMany _ _ Reachable_emptyManhattan).wellFormed.1,
    present_of_all _ _ (by decide!), by decide,
    (heuristic_keep_pruned_count fiveIndex [1, 0] [1, 2, 1] 3 0 true
      (Reachable_insertMany _ _ Reachable_emptyManhattan).wellFormed.1
      (present_of_all _ _ (by decide!)) (by decide)).1 (by decide)⟩

/-- C18: on an index with closed neighbour lists, for stored candidates and
`M ≥ 0`.  One turn of the main loop of `selectNeighborsHeuristic`, taken with
a non-empty working queue of true-distance items and fewer than `M` results:
the popped id `n` is appended to the results exactly when no result `r` has
`dist(r, n) < dist(q, n)` (so equality admits `n`), and goes to the discarded
queue otherwise.  And `SelectNeighborsHeuristic` with
`keepPrunedConnections = false`, for an `M` that `make` accepts
(`M ≤ maxSliceCap`), returns ids of the pool such that
`dist(q, rj) ≤ dist(ri, rj)` for every `ri` listed before `rj`, the first of
them (when `M ≥ 1` and the pool is not empty) a pool id nearest to `q`. -/
theorem heuristic_admission_rule (h : HNSW R) (q : List R) (c : List Int) (M level : Int)
    (ext : Bool) (hc : NeighborsClosed h.nodes) (hp : ∀ x ∈ c, Present h.nodes x)
    (hM : 0 ≤ M) :
    (∀ (fuel : Nat) (wq : PriorityQueue R) (res : List Int) (dq : PriorityQueue R),
        (∀ it ∈ wq, ItemOK h q it) → (∀ x ∈ res, Present h.nodes x) → wq ≠ [] →
        (res.length : Int) < M →
        ∃ b : Bool,
          (b = true ↔
            ∃ r ∈ res, distBetween h r (PopItem wq).1.1 < distTo h q (PopItem wq).1.1) ∧
          selectLoop h M (fuel + 1) wq res dq =
            (if b then
              selectLoop h M fuel (PopItem wq).2 res
                (PushItem dq (PopItem wq).1.1 (PopItem wq).1.2)
            else selectLoop h M fuel (PopItem wq).2 (res ++ [(PopItem wq).1.1]) dq)) ∧
      (M ≤ maxSliceCap →
        ∃ l, SelectNeighborsHeuristic h q c M level ext false = some l ∧
          (∀ x ∈ l, x ∈ poolIds h c level ext) ∧ Diverse h q l ∧
          (1 ≤ M → poolIds h c level ext ≠ [] →
            ∃ x tail, l = x :: tail ∧
              ∀ y ∈ poolIds h c level ext, distTo h q x ≤ distTo h q y)) := by
  constructor
  · intro fuel wq res dq hwq hres hne hlt
    have hmem := PopItem_fst_mem hne
    obtain ⟨hd, hn⟩ := ItemOK_distance h q _ (hwq _ hmem)
    simp only at hd hn
    obtain ⟨b, hb, hiff⟩ := prunedBy_spec h (PopItem wq).1.1 (PopItem wq).1.2 hn res hres
    rw [hd] at hiff
    refine ⟨b, hiff, ?_⟩
    have hpos : wq.length > 0 := List.length_pos.mpr hne
    rw [selectLoop, if_pos ⟨hpos, hlt⟩]
    simp only
    rw [hb]
    cases b <;> simp
  · intro hcap
    obtain ⟨l, hs, _, hmem, _, _, hno⟩ :=
      selectNeighborsHeuristic_spec h q c M level ext false hc hp hM hcap
    obtain ⟨hdiv, hfirst⟩ := hno rfl
    exact ⟨l, hs, hmem, hdiv, hfirst⟩

/-- Witness of `heuristic_admission_rule` on the five-node index with the
candidates and `M = 2` of the test case "Without extension". -/
theorem heuristic_admission_rule_witness :
    NeighborsClosed fiveIndex.nodes ∧ (∀ x ∈ [1, 2, 3], Present fiveIndex.nodes x) ∧
      (0 : Int) ≤ 2 ∧
      ∃ l, SelectNeighborsHeuristic fiveIndex [1, 0] [1, 2, 3] 2 0 false false = some l ∧
        (∀ x ∈ l, x ∈ poolIds fiveIndex [1, 2, 3] 0 false) ∧ Diverse fiveIndex [1, 0] l ∧
        (1 ≤ (2 : Int) → poolIds fiveIndex [1, 2, 3] 0 false ≠ [] →
          ∃ x tail, l = x :: tail ∧
            ∀ y ∈ poolIds fiveIndex [1, 2, 3] 0 false,
              distTo fiveIndex [1, 0] x ≤ distTo fiveIndex [1, 0] y) :=
  ⟨(Reachable_insertMany _ _ Reachable_emptyManhattan).wellFormed.1,
    present_of_all _ _ (by decide!), by decide,
    (heuristic_admission_rule fiveIndex [1, 0] [1, 2, 3] 2 0 false
      (Reachable_insertMany _ _ Reachable_emptyManhattan).wellFormed.1
      (present_of_all _ _ (by decide!)) (by decide)).2 (by decide)⟩

/-- C19: on an index with closed neighbour lists, for every query, every
stored entry id, every level and every `ef ≥ 1`, `searchLayer` returns a list
of pairwise distinct ids of length at most `ef`. -/
theorem searchLayer_distinct_bounded (h : HNSW R) (q : List R) (e : Int) (ef level : Int)
    (hc : NeighborsClosed h.nodes) (he : Present h.nodes e) (hef : 1 ≤ ef) :
    ∃ l, searchLayer h q e ef level = some l ∧ l.Nodup ∧ (l.length : Int) ≤ ef := by
  obtain ⟨l, hs⟩ := searchLayer_total h q e ef level hc he
  obtain ⟨hnd, hlen⟩ := searchLayer_distinct h q e ef level l hef hs
  exact ⟨l, hs, hnd, hlen⟩

/-- Witness of `searchLayer_distinct_bounded`: a search of `fiveIndex` from
node 1 at level 0 with `ef = 2`. -/
theorem searchLayer_distinct_bounded_witness :
    NeighborsClosed fiveIndex.nodes ∧ Present fiveIndex.nodes 1 ∧ (1 : Int) ≤ 2 ∧
      ∃ l, searchLayer fiveIndex [4, 4] 1 2 0 = some l ∧ l.Nodup ∧ (l.length : Int) ≤ 2 :=
  ⟨(Reachable_insertMany _ _ Reachable_emptyManhattan).wellFormed.1,
    Option.isSome_iff_exists.mp (by decide!), by decide,
    searchLayer_distinct_bounded fiveIndex [4, 4] 1 2 0
      (Reachable_insertMany _ _ Reachable_emptyManhattan).wellFormed.1
      (Option.isSome_iff_exists.mp (by decide!)) (by decide)⟩

/-- C20: `AddNeighbor(level, nid)` returns an error exactly when the node is
deleted or `level` is outside `[0, Level]`, and then the node stays as it was;
when it succeeds, the level list is the old list if `nid` was in it and the
old list with `nid` appended otherwise, the entry of every other level and
the id, vector, level and deletion flag are as before, and a duplicate-free
level list stays duplicate-free. -/
theorem AddNeighbor_contract (n : Node R) (level nid : Int) :
    ((∃ e, n.AddNeighbor level nid = .error e) ↔
        (n.deleted = true ∨ level < 0 ∨ level > n.Level)) ∧
      ((∃ e, n.AddNeighbor level nid = .error e) → n.apply (.add level nid) = n) ∧
      (∀ n', n.AddNeighbor level nid = .ok n' →
        n.apply (.add level nid) = n' ∧
        n'.levelList level =
          (if nid ∈ n.levelList level then n.levelList level
            else n.levelList level ++ [nid]) ∧
        (∀ l, l ≠ level → mapGet n'.Neighbors l = mapGet n.Neighbors l) ∧
        n'.ID = n.ID ∧ n'.Vector = n.Vector ∧ n'.Level = n.Level ∧ n'.deleted = n.deleted ∧
        ((n.levelList level).Nodup → (n'.levelList level).Nodup)) := by
  refine ⟨AddNeighbor_error_iff n level nid, ?_, ?_⟩
  · rintro ⟨e, he⟩
    simp only [Node.apply]
    rw [he]
  · intro n' ha
    obtain ⟨hl, ho, _, _, _, _⟩ := AddNeighbor_ok n n' level nid ha
    obtain ⟨d1, d2, d3, d4⟩ := AddNeighbor_data n n' level nid ha
    refine ⟨?_, hl, ho, d1, d2, d3, d4, ?_⟩
    · simp only [Node.apply]
      rw [ha]
    · intro hnd
      rw [hl]
      split
      · exact hnd
      · next hnot => exact nodup_append_singleton hnd hnot

end Claims2
end Hnsw
namespace Hnsw

/-! ## The claims on node removal, the queue, entry point, levels and traversal -/

section Claims3

variable {R : Type} [LinearOrderedField R]

/-- C21: `RemoveNeighbor(level, nid)` succeeds exactly when the node is not
deleted and `nid` is in the level list; when it succeeds on a duplicate-free
list, the new level list is the old one without `nid`, the other ids in their
old order, so `nid` is no longer a neighbour, and no other level nor the id,
vector, level or deletion flag changes; when it fails the node stays as it
was. -/
theorem RemoveNeighbor_contract (n : Node R) (level nid : Int) :
    ((∃ n', n.RemoveNeighbor level nid = .ok n') ↔
        (n.deleted = false ∧ nid ∈ n.levelList level)) ∧
      (∀ n', n.RemoveNeighbor level nid = .ok n' →
        n.apply (.remove level nid) = n' ∧
        (∀ l, l ≠ level → mapGet n'.Neighbors l = mapGet n.Neighbors l) ∧
        n'.ID = n.ID ∧ n'.Vector = n.Vector ∧ n'.Level = n.Level ∧ n'.deleted = n.deleted ∧
        ((n.levelList level).Nodup →
          n'.levelList level = (n.levelList level).filter (fun x => x != nid) ∧
          nid ∉ n'.levelList level)) ∧
      (∀ e, n.RemoveNeighbor level nid = .error e → n.apply (.remove level nid) = n) := by
  refine ⟨RemoveNeighbor_ok_iff n level nid, ?_, ?_⟩
  · intro n' hr
    obtain ⟨hl, ho, d1, d2, d3, d4⟩ := RemoveNeighbor_ok n n' level nid hr
    refine ⟨?_, ho, d1, d2, d3, d4, ?_⟩
    · simp only [Node.apply]
      rw [hr]
    · intro hnd
      have he : n'.levelList level = (n.levelList level).filter (fun x => x != nid) := by
        rw [hl]
        exact List.Nodup.erase_eq_filter hnd nid
      refine ⟨he, ?_⟩
      rw [he]
      simp
  · intro e he
    simp only [Node.apply]
    rw [he]

/-- C22: for every sequence of `PushItem` and `PopItem` calls made on a new
queue, `PopItem` on the resulting queue, when it is not empty, returns an
entry whose distance is minimal among the entries held and leaves the other
entries, as a multiset, in the queue; draining the queue lists its entries in
non-decreasing distance order; and after pushes only, the drained list is a
rearrangement of the pushed entries. -/
theorem queue_is_min_heap (ops : List (QueueOp R)) (items : List (Int × WithTop R)) :
    (runQueue ops ≠ [] →
        List.Perm ((PopItem (runQueue ops)).1 :: entriesOf (PopItem (runQueue ops)).2)
          (entriesOf (runQueue ops)) ∧
        ∀ e ∈ entriesOf (runQueue ops), (PopItem (runQueue ops)).1.2 ≤ e.2) ∧
      (List.Perm (drainItems (runQueue ops).length (runQueue ops)) (entriesOf (runQueue ops)) ∧
        (drainItems (runQueue ops).length (runQueue ops)).Pairwise (fun a b => a.2 ≤ b.2)) ∧
      (List.Perm
          (drainItems (runQueue (items.map (fun p => QueueOp.push p.1 p.2))).length
            (runQueue (items.map (fun p => QueueOp.push p.1 p.2)))) items ∧
        (drainItems (runQueue (items.map (fun p => QueueOp.push p.1 p.2))).length
          (runQueue (items.map (fun p => QueueOp.push p.1 p.2)))).Pairwise
            (fun a b => a.2 ≤ b.2)) := by
  refine ⟨?_, drainItems_spec _ _ (runQueue_isHeap ops) (le_refl _), ?_⟩
  · intro hne
    obtain ⟨_, hmin⟩ := PopItem_spec (runQueue_isHeap ops) hne
    constructor
    · have := (PopItem_perm hne).map (fun it : Item R => (it.NodeID, it.Distance))
      simp only [List.map_cons] at this
      exact this.symm
    · intro e he
      obtain ⟨it, hit, rfl⟩ := List.mem_map.mp he
      exact hmin it hit
  · obtain ⟨h1, h2⟩ := drainItems_spec _ _
      (runQueue_isHeap (items.map (fun p => QueueOp.push p.1 p.2))) (le_refl _)
    refine ⟨h1.trans ?_, h2⟩
    have := foldl_push_entries items (NewPriorityQueue R)
    simpa [entriesOf, runQueue] using this

/-- C23 fails on the code: the index `zeroFirstIndex` is reachable and holds
one node, with id 0; `Insert(5, (1))` into it, drawn at level 0, succeeds,
sets the entry point to 5 and adds no edge, leaving two nodes without
neighbours: the first-node path is taken on a non-empty index.  The same call
on `soloIndex`, whose one node has id 1, links the two nodes. -/
theorem second_insert_takes_first_node_path :
    Reachable zeroFirstIndex ∧ storedIds zeroFirstIndex = [0] ∧
      (Insert zeroFirstIndex 5 [1] 0).map
          (fun r => (r.err, r.state.entryPoint, storedIds r.state, neighborsOf r.state 5 0,
            neighborsOf r.state 0 0)) = some (false, 5, [0, 5], [], []) ∧
      (Insert soloIndex 5 [1] 0).map
          (fun r => (r.err, r.state.entryPoint, storedIds r.state, neighborsOf r.state 5 0,
            neighborsOf r.state 1 0)) = some (false, 1, [1, 5], [1], [5]) :=
  ⟨Reachable_insertMany _ _ Reachable_emptyManhattan, by decide!, by decide!, by decide!⟩

/-- C24 fails on the code: `towerIndex` is reachable and not empty, its
maximum level is 1, and its entry point is node 1, whose level is 0.
`generateLevel` raises `maxLevel` for node 2 and `Insert` leaves the entry
point as it was. -/
theorem tower_entry_below_maxLevel :
    Reachable towerIndex ∧ storedIds towerIndex = [1, 2] ∧ towerIndex.maxLevel = 1 ∧
      towerIndex.entryPoint = 1 ∧
      (mapGet towerIndex.nodes towerIndex.entryPoint).map (fun nd => nd.Level) = some 0 :=
  ⟨Reachable_insertMany _ _ Reachable_emptyManhattan, by decide!, by decide!, by decide!,
    by decide!⟩

/-- C25: in every index state reached from an empty index by `Insert` calls
that return (with or without the duplicate error) and draw non-negative
levels, `maxLevel` is 0 while no node is stored, no stored node has a level
above `maxLevel`, and once a node is stored some stored node has level
`maxLevel`. -/
theorem maxLevel_is_highest_level (h : HNSW R) (hr : ReachableNonneg h) :
    (h.nodes = [] → h.maxLevel = 0) ∧
      (∀ k nd, mapGet h.nodes k = some nd → nd.Level ≤ h.maxLevel) ∧
      (h.nodes ≠ [] → ∃ k nd, mapGet h.nodes k = some nd ∧ nd.Level = h.maxLevel) :=
  ReachableNonneg_maxLevel hr

/-- Witness of `maxLevel_is_highest_level` on `towerIndex`, built with the
level draws 0 and 1. -/
theorem maxLevel_is_highest_level_witness :
    ReachableNonneg towerIndex ∧
      (∀ k nd, mapGet towerIndex.nodes k = some nd → nd.Level ≤ towerIndex.maxLevel) ∧
      ∃ k nd, mapGet towerIndex.nodes k = some nd ∧ nd.Level = towerIndex.maxLevel :=
  ⟨ReachableNonneg_insertMany _ (by decide) _ (ReachableNonneg.new _ _),
    (maxLevel_is_highest_level towerIndex
      (ReachableNonneg_insertMany _ (by decide) _ (ReachableNonneg.new _ _))).2.1,
    (maxLevel_is_highest_level towerIndex
      (ReachableNonneg_insertMany _ (by decide) _ (ReachableNonneg.new _ _))).2.2
      (List.ne_nil_of_length_pos (by decide!))⟩

/-- C26 fails on the code: in `dropIndex` node 1 has the level-0 neighbours
2, 3, 4, at distances 4, 6, 1 from the query `(0)`, itself at distance 2.
In `searchLayer` from node 1 with `ef = 3`, the results queue holds the
entries of nodes 1, 2, 3 when node 4 is pushed, and the entry then removed is
that of node 2 (distance 4), not that of node 3 (distance 6): `Pop` removes
the last slot of a min-heap.  The search returns the ids 4, 1, 3, and so does
`KNNSearch`, although node 2 is nearer than node 3. -/
theorem results_buffer_drops_nonworst :
    Reachable dropIndex ∧ neighborsOf dropIndex 1 0 = [2, 3, 4] ∧
      (visitNeighbors dropIndex [0] 3 [2, 3] (seededState dropIndex [0] 1)).map
          (fun st => entriesOf st.results) = some [(1, 2), (2, 4), (3, 6)] ∧
      (visitNeighbors dropIndex [0] 3 [2, 3, 4] (seededState dropIndex [0] 1)).map
          (fun st => entriesOf st.results) = some [(4, 1), (1, 2), (3, 6)] ∧
      searchLayer dropIndex [0] 1 3 0 = some [4, 1, 3] ∧
      KNNSearch dropIndex [0] 3 3 = some [4, 1, 3] :=
  ⟨Reachable_insertMany _ _ Reachable_emptyManhattan, by decide!, by decide!, by decide!,
    by decide!, by decide!⟩

/-- C27 fails on the code: in the five-node index `starIndex` node 3 is
reached from node 4 through node 2 at level 0, and `searchLayer` from node 4
for the query `(2)` with `ef = 10` returns the ids 4, 2, 1 only.  The loop
stops when the popped candidate (node 2, distance 1) is farther than the
first slot of the results queue, which holds the nearest result (node 4,
distance 0), with three results held and room for ten. -/
theorem search_stops_below_capacity :
    Reachable starIndex ∧ storedIds starIndex = [1, 2, 3, 4, 5] ∧
      2 ∈ neighborsOf starIndex 4 0 ∧ 3 ∈ neighborsOf starIndex 2 0 ∧
      searchLayer starIndex [2] 4 10 0 = some [4, 2, 1] :=
  ⟨Reachable_insertMany _ _ (Reachable.new _ _), by decide!, by decide!, by decide!,
    by decide!⟩

/-- C28, as stated, fails: on the node made by `NewNode(1, (0), 2)`,
`GetNeighbors(0)` returns the error for a level without a map entry, not an
empty list. -/
theorem fresh_node_GetNeighbors_fails :
    (0 : Int) ≤ 0 ∧ (0 : Int) ≤ 2 ∧
      (NewNode 1 ([0] : List ℚ) 2).GetNeighbors 0 = .error NodeError.levelMissing :=
  ⟨by decide, by decide, rfl⟩

/-- C28, amended: the node made by `NewNode(id, v, L)` has an empty neighbour
map: for every level `l`, `GetNeighbors(l)` returns the error for a level
without an entry, the level list read directly from the map is empty, and the
traversals, which discard that error, read no neighbour of the node in an
index that stores it; and an `Insert` that takes the first-node path stores
exactly that node. -/
theorem fresh_node_has_no_level_entry (id : Int) (v : List R) (L l : Int) :
    (NewNode id v L).GetNeighbors l = .error NodeError.levelMissing ∧
      (NewNode id v L).Neighbors = [] ∧ (NewNode id v L).levelList l = [] ∧
      (∀ h : HNSW R, mapGet h.nodes id = some (NewNode id v L) → levelNeighbors h l id = []) ∧
      (∀ (h : HNSW R) (r : InsertResult R), mapGet h.nodes id = none → h.entryPoint = 0 →
        Insert h id v L = some r → mapGet r.state.nodes id = some (NewNode id v L)) := by
  refine ⟨rfl, rfl, rfl, ?_, ?_⟩
  · intro h hg
    unfold levelNeighbors
    rw [hg]
    rfl
  · intro h r hnone hep hi
    rw [(Insert_first_unfold h id v L r hnone hep hi).1]
    exact mapGet_mapSet_same _ _ _

/-- C29: for every index built from an empty one by `n` insertions with
pairwise distinct ids other than 0, all drawn at level 0, with `n ≤ M + 1`
and `n ≤ EfConstruction`: the index stores `n` distinct ids, every stored id
is a level-0 neighbour of every other stored id, and for every query, every
`ef ≥ n` and every `K ≥ 0`, `KNNSearch` returns `min(K, n)` stored ids in
non-decreasing distance order, each at most as far from the query as every
stored id left out (so the first one is a nearest stored id). -/
theorem flat_index_exact (n : Nat) (h : HNSW R) (hb : FlatBuilt n h)
    (hM : (n : Int) ≤ h.config.M + 1) (hE : (n : Int) ≤ h.config.EfConstruction) :
    ((storedIds h).Nodup ∧ (storedIds h).length = n) ∧
      (∀ a ∈ storedIds h, ∀ b ∈ storedIds h, a ≠ b → b ∈ neighborsOf h a 0) ∧
      ∀ (q : List R) (K ef : Int), (n : Int) ≤ ef → 0 ≤ K →
        ∃ l rest : List Int, KNNSearch h q K ef = some l ∧ (l.length : Int) = min K n ∧
          List.Perm (l ++ rest) (storedIds h) ∧
          (l.map (distTo h q)).Pairwise (fun a b => a ≤ b) ∧
          (∀ x ∈ l, ∀ y ∈ rest, distTo h q x ≤ distTo h q y) := by
  have hinv := FlatBuilt_inv hb hM hE
  refine ⟨⟨hinv.1, hinv.2.1⟩, ?_, ?_⟩
  · intro a ha b hb2 hab
    rw [neighborsOf_eq_listAt]
    exact hinv.2.2.2.2.2.2.2.2 a ha b hb2 hab
  · intro q K ef hef hK
    exact KNNSearch_flat n h q K ef hinv hef hK

/-- Witness of `flat_index_exact` on the five vectors of `TestKNNSearch`
under the default parameters. -/
theorem flat_index_exact_witness :
    FlatBuilt 5 fiveIndex ∧ ((5 : Nat) : Int) ≤ fiveIndex.config.M + 1 ∧
      ((5 : Nat) : Int) ≤ fiveIndex.config.EfConstruction ∧
      (∀ a ∈ storedIds fiveIndex, ∀ b ∈ storedIds fiveIndex, a ≠ b →
        b ∈ neighborsOf fiveIndex a 0) ∧
      ∃ l rest : List Int, KNNSearch fiveIndex [1, 1] 2 10 = some l ∧
        (l.length : Int) = min 2 ((5 : Nat) : Int) ∧
        List.Perm (l ++ rest) (storedIds fiveIndex) ∧
        (l.map (distTo fiveIndex [1, 1])).Pairwise (fun a b => a ≤ b) ∧
        (∀ x ∈ l, ∀ y ∈ rest, distTo fiveIndex [1, 1] x ≤ distTo fiveIndex [1, 1] y) :=
  ⟨FlatBuilt_insertMany _ 0 _ 5 (FlatBuilt.new _ _) (by decide) (by decide) (by decide) rfl,
    by decide!, by decide!,
    (flat_index_exact 5 fiveIndex
      (FlatBuilt_insertMany _ 0 _ 5 (FlatBuilt.new _ _) (by decide) (by decide) (by decide) rfl)
      (by decide!) (by decide!)).2.1,
    (flat_index_exact 5 fiveIndex
      (FlatBuilt_insertMany _ 0 _ 5 (FlatBuilt.new _ _) (by decide) (by decide) (by decide) rfl)
      (by decide!) (by decide!)).2.2 [1, 1] 2 10 (by decide) (by decide)⟩

end Claims3
end Hnsw
